import Mathlib

/-!
# HTTP/1.1 engine of infra-os: header table, request parser, reader loop, response writer

A shallow embedding of `http/pkg/headers/headers.go`,
`http/internal/request/request.go`, `http/internal/response/response.go` and
`http/pkg/server/server.go`, and of `readInt64` of `redis/cmd/test/main.go`.  Go
byte slices and strings are lists of byte values (`List Nat`), the Go map of the
header table is an association list with unique keys, loops carry explicit fuel, and
mutation is explicit state passing: every operation returns the state it leaves
behind, also when it returns an error.
-/

namespace Http

/-- Byte strings: Go `[]byte` and `string` values, one `Nat` below 256 per byte. -/
abbrev Bytes := List Nat

/-- The bytes of an ASCII literal. -/
def ascii (s : String) : Bytes := s.toList.map Char.toNat

/-! ## Go library functions used by the source -/

/-- Go `bytes.HasPrefix`. -/
def HasPrefix : Bytes → Bytes → Bool
  | _, [] => true
  | [], _ :: _ => false
  | b :: bs, p :: ps => decide (b = p) && HasPrefix bs ps

/-- Go `bytes.HasSuffix`. -/
def HasSuffix (s suffix : Bytes) : Bool := HasPrefix s.reverse suffix.reverse

/-- Go `bytes.Index`: offset of the first occurrence of `sep`, `none` for Go's `-1`. -/
def Index : Bytes → Bytes → Option Nat
  | [], sep => if HasPrefix [] sep then some 0 else none
  | b :: bs, sep => if HasPrefix (b :: bs) sep then some 0 else (Index bs sep).map (· + 1)

/-- Go `bytes.Split` for a one-byte separator (the source only splits on `" "` and `"/"`). -/
def Split : Bytes → Nat → List Bytes
  | [], _ => [[]]
  | c :: cs, sep =>
    if c = sep then [] :: Split cs sep
    else match Split cs sep with
      | [] => [[c]]
      | p :: ps => (c :: p) :: ps

/-- Go `bytes.SplitN(s, sep, 2)` for a one-byte separator: cut at the first occurrence. -/
def SplitN2 (s : Bytes) (sep : Nat) : List Bytes :=
  match s.dropWhile (fun c => decide (c ≠ sep)) with
  | [] => [s]
  | _ :: post => [s.takeWhile (fun c => decide (c ≠ sep)), post]

/-- The one-byte white space of Go `unicode.IsSpace`: tab, LF, VT, FF, CR, space. -/
def isSpace1 (a : Nat) : Bool :=
  decide (a = 9 ∨ a = 10 ∨ a = 11 ∨ a = 12 ∨ a = 13 ∨ a = 32)

/-- UTF-8 encodings of the two-byte white space runes U+0085 and U+00A0. -/
def isSpace2 (a b : Nat) : Bool :=
  decide (a = 0xC2 ∧ (b = 0x85 ∨ b = 0xA0))

/-- UTF-8 encodings of the three-byte white space runes: U+1680, U+2000..U+200A,
U+2028, U+2029, U+202F, U+205F, U+3000. -/
def isSpace3 (a b c : Nat) : Bool :=
  decide ((a = 0xE1 ∧ b = 0x9A ∧ c = 0x80)
    ∨ (a = 0xE2 ∧ b = 0x80 ∧ ((0x80 ≤ c ∧ c ≤ 0x8A) ∨ c = 0xA8 ∨ c = 0xA9 ∨ c = 0xAF))
    ∨ (a = 0xE2 ∧ b = 0x81 ∧ c = 0x9F)
    ∨ (a = 0xE3 ∧ b = 0x80 ∧ c = 0x80))

/-- Go `bytes.TrimLeftFunc(s, unicode.IsSpace)`: drop leading white space runes. -/
def trimLeft : Bytes → Bytes
  | [] => []
  | a :: t =>
    if isSpace1 a then trimLeft t
    else match t with
      | [] => [a]
      | b :: t2 =>
        if isSpace2 a b then trimLeft t2
        else match t2 with
          | [] => [a, b]
          | c :: t3 => if isSpace3 a b c then trimLeft t3 else a :: b :: c :: t3

/-- The scan of `bytes.TrimRightFunc(s, unicode.IsSpace)` on the reversed bytes:
the last byte comes first. -/
def trimLeftRev : Bytes → Bytes
  | [] => []
  | c :: t =>
    if isSpace1 c then trimLeftRev t
    else match t with
      | [] => [c]
      | b :: t2 =>
        if isSpace2 b c then trimLeftRev t2
        else match t2 with
          | [] => [c, b]
          | a :: t3 => if isSpace3 a b c then trimLeftRev t3 else c :: b :: a :: t3

/-- Go `bytes.TrimRightFunc(s, unicode.IsSpace)`: drop trailing white space runes. -/
def trimRight (s : Bytes) : Bytes := (trimLeftRev s.reverse).reverse

/-- Go `bytes.TrimSpace`: white space as defined by Unicode removed from both ends. -/
def TrimSpace (s : Bytes) : Bytes := trimRight (trimLeft s)

/-- Go `strings.ToLower`.  ASCII-only strings take the byte-wise fast path; a string
with a byte of 128 or more goes through `strings.Map(unicode.ToLower, s)`, whose
Unicode case tables live outside the repository and are the parameter `uni`. -/
def ToLower (uni : Bytes → Bytes) (s : Bytes) : Bytes :=
  if s.all (fun c => decide (c < 128)) then
    s.map (fun c => if 65 ≤ c ∧ c ≤ 90 then c + 32 else c)
  else uni s

/-- The errors of Go `strconv.Atoi`. -/
inductive NumError
  | ErrSyntax
  | ErrRange
  deriving DecidableEq, Repr

/-- The digit loop of Go `strconv.ParseUint(s, 10, 64)`: a byte that is no digit is a
syntax error, a value above `2^64 - 1` a range error, whichever comes first. -/
def parseUintLoop : Bytes → Nat → Except NumError Nat
  | [], n => .ok n
  | c :: cs, n =>
    if ¬ (48 ≤ c ∧ c ≤ 57) then .error .ErrSyntax
    else if n * 10 + (c - 48) ≥ 2 ^ 64 then .error .ErrRange
    else parseUintLoop cs (n * 10 + (c - 48))

/-- The digits of `strconv.Atoi` after the optional sign: at least one digit, and a
value in the range of a 64-bit `int`. -/
def atoiDigits (neg : Bool) (ds : Bytes) : Except NumError Int :=
  if ds.length = 0 then .error .ErrSyntax
  else match parseUintLoop ds 0 with
    | .error e => .error e
    | .ok un =>
      if neg then (if un > 2 ^ 63 then .error .ErrRange else .ok (-(un : Int)))
      else (if un ≥ 2 ^ 63 then .error .ErrRange else .ok (un : Int))

/-- Go `strconv.Atoi` on a 64-bit platform: optional sign, then decimal digits only;
a value outside the `int` range is a range error. -/
def Atoi : Bytes → Except NumError Int
  | [] => .error .ErrSyntax
  | c :: rest =>
    if c = 45 then atoiDigits true rest
    else if c = 43 then atoiDigits false rest
    else atoiDigits false (c :: rest)

/-! ## headers.go -/

/-- Error values of the two packages and of the reader. -/
inductive Error
  | malformedFieldLine
  | malformedFieldName
  | emptyFieldName
  | malformedHeaderName
  | ErrMalformedRequestLine
  | ErrUnsupportedHTTPVersion
  | ErrorRequestInErrorState
  | ErrBodyTooLarge
  | invalidContentLength (cause : NumError)
  | requestParsingFailed
  | EOF
  | transport (code : Nat)
  deriving DecidableEq, Repr

/-- Token characters checked by the loop body of `isToken`: ALPHA, DIGIT, then the
`switch` over the fifteen special characters. -/
def isTokenChar (ch : Nat) : Bool :=
  if (ch ≥ 65 ∧ ch ≤ 90) ∨ (ch ≥ 97 ∧ ch ≤ 122) then true
  else if ch ≥ 48 ∧ ch ≤ 57 then true
  else if ch = 33 ∨ ch = 35 ∨ ch = 36 ∨ ch = 37 ∨ ch = 38 ∨ ch = 39 ∨ ch = 42 ∨ ch = 43
      ∨ ch = 45 ∨ ch = 46 ∨ ch = 94 ∨ ch = 95 ∨ ch = 96 ∨ ch = 124 ∨ ch = 126 then true
  else false

/-- The `for _, ch := range str` loop of `isToken`. -/
def isTokenLoop : Bytes → Bool
  | [] => true
  | ch :: rest => if isTokenChar ch then isTokenLoop rest else false

/-- Source `isToken`: at least one byte, and every byte a token character. -/
def isToken (str : Bytes) : Bool :=
  if str.length = 0 then false else isTokenLoop str

/-- Source `parseHeader`: cut at the first colon, trim the value, reject a name that
ends in a space and an empty name. -/
def parseHeader (fieldLine : Bytes) : Except Error (Bytes × Bytes) :=
  match SplitN2 fieldLine 58 with
  | [nameBytes, rest] =>
    let valueBytes := TrimSpace rest
    if HasSuffix nameBytes [32] then .error .malformedFieldName
    else if nameBytes.length = 0 then .error .emptyFieldName
    else .ok (nameBytes, valueBytes)
  | _ => .error .malformedFieldLine

/-- Go map lookup `m[k]` with the comma-ok result. -/
def mapGet : List (Bytes × Bytes) → Bytes → Option Bytes
  | [], _ => none
  | (k, v) :: rest, key => if k = key then some v else mapGet rest key

/-- Go map store `m[k] = v`: replace the entry of `k` or add one. -/
def mapPut : List (Bytes × Bytes) → Bytes → Bytes → List (Bytes × Bytes)
  | [], key, val => [(key, val)]
  | (k, v) :: rest, key, val =>
    if k = key then (k, val) :: rest else (k, v) :: mapPut rest key val

/-- Source `Headers`: the Go `map[string]string`, keyed by lower-cased name. -/
structure Headers where
  headers : List (Bytes × Bytes)
  deriving DecidableEq, Repr

/-- Source `NewHeaders`. -/
def NewHeaders : Headers := ⟨[]⟩

/-- Source `Headers.Get`: the stored value, the empty string when absent. -/
def Headers.Get (uni : Bytes → Bytes) (h : Headers) (name : Bytes) : Bytes :=
  (mapGet h.headers (ToLower uni name)).getD []

/-- Source `Headers.Set`: join with `", "` when the name is present, store otherwise. -/
def Headers.Set (uni : Bytes → Bytes) (h : Headers) (name value : Bytes) : Headers :=
  match mapGet h.headers (ToLower uni name) with
  | some v => ⟨mapPut h.headers (ToLower uni name) (v ++ [44, 32] ++ value)⟩
  | none => ⟨mapPut h.headers (ToLower uni name) value⟩

/-- Source `Headers.Override`: unconditional store. -/
def Headers.Override (uni : Bytes → Bytes) (h : Headers) (name value : Bytes) : Headers :=
  ⟨mapPut h.headers (ToLower uni name) value⟩

/-- Result of `Headers.Parse`: the table left behind and the returned triple. -/
structure ParseResult where
  table : Headers
  bytesRead : Nat
  done : Bool
  err : Option Error
  deriving DecidableEq, Repr

/-- The `for` loop of `Headers.Parse`; `rest` is `data[read:]`.  Every pass but the
last consumes at least two bytes, so `data.length + 1` passes always suffice. -/
def Headers.parseLoop (uni : Bytes → Bytes) : Nat → Headers → Bytes → Nat → ParseResult
  | 0, h, _, read => ⟨h, read, false, none⟩
  | fuel + 1, h, rest, read =>
    match Index rest [13, 10] with
    | none => ⟨h, read, false, none⟩
    | some idx =>
      if idx = 0 then ⟨h, read + 2, true, none⟩
      else match parseHeader (rest.take idx) with
        | .error e => ⟨h, 0, false, some e⟩
        | .ok (name, value) =>
          if !isToken name then ⟨h, 0, false, some .malformedHeaderName⟩
          else Headers.parseLoop uni fuel (h.Set uni name value) (rest.drop (idx + 2))
            (read + (idx + 2))

/-- Source `Headers.Parse`. -/
def Headers.Parse (uni : Bytes → Bytes) (h : Headers) (data : Bytes) : ParseResult :=
  Headers.parseLoop uni (data.length + 1) h data 0

/-! ## request.go -/

/-- Source `parserState`. -/
inductive parserState
  | StateInit
  | StateHeaders
  | StateBody
  | StateDone
  | StateError
  deriving DecidableEq, Repr

open parserState

/-- Source `Line`: the request line. -/
structure Line where
  HttpVersion : Bytes
  RequestTarget : Bytes
  Method : Bytes
  deriving DecidableEq, Repr

/-- Source `Request`. -/
structure Request where
  RequestLine : Line
  Headers : Headers
  Body : Bytes
  state : parserState
  deriving DecidableEq, Repr

/-- Source `newRequest`: state Init, empty table, zero-valued line and body. -/
def newRequest : Request := ⟨⟨[], [], []⟩, NewHeaders, [], StateInit⟩

/-- The triple returned by `parseRequestLine`. -/
structure LineResult where
  rl : Option Line
  n : Nat
  err : Option Error
  deriving DecidableEq, Repr

/-- Source `parseRequestLine`. -/
def parseRequestLine (b : Bytes) : LineResult :=
  match Index b [13, 10] with
  | none => ⟨none, 0, none⟩
  | some idx =>
    let startLine := b.take idx
    let read := idx + 2
    match Split startLine 32 with
    | [p0, p1, p2] =>
      (match Split p2 47 with
      | [h0, h1] =>
        if h0 ≠ ascii "HTTP" ∨ h1 ≠ ascii "1.1" then ⟨none, 0, some .ErrMalformedRequestLine⟩
        else ⟨some ⟨h1, p1, p0⟩, read, none⟩
      | _ => ⟨none, 0, some .ErrMalformedRequestLine⟩)
    | _ => ⟨none, 0, some .ErrMalformedRequestLine⟩

/-- The request left behind by a parser call together with the returned pair. -/
structure StepResult where
  req : Request
  n : Nat
  err : Option Error
  deriving DecidableEq, Repr

/-- Source `Request.parseSingle`: one step of the state machine on `data`. -/
def Request.parseSingle (uni : Bytes → Bytes) (r : Request) (data : Bytes) : StepResult :=
  match r.state with
  | StateError => ⟨r, 0, some .ErrorRequestInErrorState⟩
  | StateInit =>
    let res := parseRequestLine data
    match res.err with
    | some e => ⟨r, 0, some e⟩
    | none =>
      if res.n = 0 then ⟨r, 0, none⟩
      else match res.rl with
        | some rl => ⟨{ r with RequestLine := rl, state := StateHeaders }, res.n, none⟩
        | none => ⟨r, 0, none⟩
  | StateHeaders =>
    let res := r.Headers.Parse uni data
    match res.err with
    | some e => ⟨{ r with Headers := res.table }, 0, some e⟩
    | none =>
      if res.done then ⟨{ r with Headers := res.table, state := StateBody }, res.bytesRead, none⟩
      else ⟨{ r with Headers := res.table }, res.bytesRead, none⟩
  | StateBody =>
    let contentLengthStr := r.Headers.Get uni (ascii "Content-Length")
    if contentLengthStr = [] then ⟨{ r with state := StateDone }, 0, none⟩
    else match Atoi contentLengthStr with
      | .error e => ⟨r, 0, some (.invalidContentLength e)⟩
      | .ok contentLength =>
        let body := r.Body ++ data
        if (body.length : Int) > contentLength then ⟨{ r with Body := body }, 0, some .ErrBodyTooLarge⟩
        else if (body.length : Int) = contentLength then
          ⟨{ r with Body := body, state := StateDone }, data.length, none⟩
        else ⟨{ r with Body := body }, data.length, none⟩
  | StateDone => ⟨r, 0, none⟩

/-- The `for r.state != StateDone` loop of `Request.parse`; `rest` is
`data[totalBytesParsed:]`.  Every pass but the last consumes at least one byte. -/
def Request.parseLoop (uni : Bytes → Bytes) : Nat → Request → Bytes → Nat → StepResult
  | 0, r, _, total => ⟨r, total, none⟩
  | fuel + 1, r, rest, total =>
    if r.state = StateDone then ⟨r, total, none⟩
    else
      let s := r.parseSingle uni rest
      match s.err with
      | some e => ⟨s.req, 0, some e⟩
      | none =>
        if s.n = 0 then ⟨s.req, total, none⟩
        else Request.parseLoop uni fuel s.req (rest.drop s.n) (total + s.n)

/-- Source `Request.parse`: the driver loop over the unconsumed remainder. -/
def Request.parse (uni : Bytes → Bytes) (r : Request) (data : Bytes) : StepResult :=
  Request.parseLoop uni (data.length + 1) r data 0

/-- Source `Request.done`. -/
def Request.done (r : Request) : Bool :=
  decide (r.state = StateDone) || decide (r.state = StateError)

/-- Source `Request.error`. -/
def Request.error (r : Request) : Bool := decide (r.state = StateError)

/-- One `reader.Read(p)`: the bytes stored at the front of `p` (their number is the
returned `n`), the returned error, and the reader afterwards. -/
structure ReadResult (σ : Type) where
  bytes : Bytes
  err : Option Error
  next : σ

/-- What a call of `FromReader` comes to: a request, an error, a run-time panic
(slice bounds out of range), or a loop still running when the fuel is spent. -/
inductive Outcome
  | ok (r : Request)
  | fail (e : Error)
  | panic
  | outOfFuel
  deriving DecidableEq, Repr

/-- The `for !request.done()` loop of `FromReader`.  `buf` is the filled prefix
`buf[:bufLen]` of the 1024-byte staging buffer and `read rd room` is
`reader.Read(buf[bufLen:])` with `room = 1024 - bufLen`. -/
def FromReaderLoop {σ : Type} (uni : Bytes → Bytes) (read : σ → Nat → ReadResult σ) :
    Nat → σ → Request → Bytes → Outcome
  | 0, _, _, _ => .outOfFuel
  | fuel + 1, rd, request, buf =>
    if request.done then
      (if request.error then .fail .requestParsingFailed else .ok request)
    else
      let res := read rd (1024 - buf.length)
      match res.err with
      | some e => .fail e
      | none =>
        let buf1 := buf ++ res.bytes
        if buf1.length > 1024 then .panic
        else
          let p := request.parse uni buf1
          match p.err with
          | some e => .fail e
          | none => FromReaderLoop uni read fuel res.next p.req (buf1.drop p.n)

/-- Source `FromReader`, run for at most `fuel` passes of its loop. -/
def FromReader {σ : Type} (uni : Bytes → Bytes) (read : σ → Nat → ReadResult σ)
    (fuel : Nat) (rd : σ) : Outcome :=
  FromReaderLoop uni read fuel rd newRequest []

/-- A reader that hands out the given reads in order and then reports end of stream;
a read larger than the room offered is delivered in pieces. -/
def readChunks : List Bytes → Nat → ReadResult (List Bytes)
  | [], _ => ⟨[], some .EOF, []⟩
  | c :: cs, room =>
    if c.length ≤ room then ⟨c, none, cs⟩
    else ⟨c.take room, none, c.drop room :: cs⟩

/-! ## Notions used to state the properties -/

/-- The `tchar` set in the spec's words: an ASCII letter, an ASCII digit, or one of the
fifteen listed characters. -/
def tchar (c : Nat) : Prop :=
  (65 ≤ c ∧ c ≤ 90) ∨ (97 ≤ c ∧ c ≤ 122) ∨ (48 ≤ c ∧ c ≤ 57) ∨ c ∈ ascii "!#$%&'*+-.^_`|~"

/-- The UTF-8 encodings of the white space runes of Unicode (`White_Space`): the six
ASCII ones, U+0085, U+00A0, U+1680, U+2000..U+200A, U+2028, U+2029, U+202F, U+205F,
U+3000. -/
def spaceRunes : List Bytes :=
  [[9], [10], [11], [12], [13], [32], [0xC2, 0x85], [0xC2, 0xA0], [0xE1, 0x9A, 0x80],
   [0xE2, 0x80, 0x80], [0xE2, 0x80, 0x81], [0xE2, 0x80, 0x82], [0xE2, 0x80, 0x83],
   [0xE2, 0x80, 0x84], [0xE2, 0x80, 0x85], [0xE2, 0x80, 0x86], [0xE2, 0x80, 0x87],
   [0xE2, 0x80, 0x88], [0xE2, 0x80, 0x89], [0xE2, 0x80, 0x8A], [0xE2, 0x80, 0xA8],
   [0xE2, 0x80, 0xA9], [0xE2, 0x80, 0xAF], [0xE2, 0x81, 0x9F], [0xE3, 0x80, 0x80]]

/-- The bytes begin with a white space rune. -/
def startsWithSpace (s : Bytes) : Prop := ∃ r ∈ spaceRunes, r <+: s

/-- The bytes end with a white space rune. -/
def endsWithSpace (s : Bytes) : Prop := ∃ r ∈ spaceRunes, r <:+ s

/-- The bytes are a run of white space runes. -/
def allSpace (s : Bytes) : Prop := ∃ rs : List Bytes, (∀ r ∈ rs, r ∈ spaceRunes) ∧ s = rs.flatten

/-- A call on the header table: `Set(name, value)` or `Override(name, value)`. -/
inductive Call
  | set (name value : Bytes)
  | override (name value : Bytes)
  deriving DecidableEq, Repr

/-- The name a call is about. -/
def Call.name : Call → Bytes
  | .set n _ => n
  | .override n _ => n

/-- Run one call on the table. -/
def Headers.apply (uni : Bytes → Bytes) (h : Headers) : Call → Headers
  | .set n v => h.Set uni n v
  | .override n v => h.Override uni n v

/-- The replay of the spec on the value stored for one name: the first `Set` stores its
value, a later `Set` appends `", "` and its value, `Override` replaces. -/
def replayStep (acc : Option Bytes) : Call → Option Bytes
  | .set _ v =>
    match acc with
    | none => some v
    | some old => some (old ++ ascii ", " ++ v)
  | .override _ v => some v

/-- Replay, in call order, of the calls whose name equals `n` ignoring letter case. -/
def replay (uni : Bytes → Bytes) (n : Bytes) (calls : List Call) : Option Bytes :=
  (calls.filter (fun c => decide (ToLower uni c.name = ToLower uni n))).foldl replayStep none

/-- A header line given by its name and the text after the colon. -/
def fieldLine (f : Bytes × Bytes) : Bytes := f.1 ++ 58 :: f.2

/-- Header lines on the wire: each line followed by CRLF. -/
def headerBlock (fs : List (Bytes × Bytes)) : Bytes :=
  (fs.map (fun f => fieldLine f ++ [13, 10])).flatten

/-- The table after `Set(name, trimmed value)` for each line, in line order. -/
def setAll (uni : Bytes → Bytes) (h : Headers) (fs : List (Bytes × Bytes)) : Headers :=
  fs.foldl (fun t f => t.Set uni f.1 (TrimSpace f.2)) h

/-- A well-formed header line: a token name and no CRLF inside the line. -/
def goodField (f : Bytes × Bytes) : Prop :=
  isToken f.1 = true ∧ ¬ [13, 10] <:+: fieldLine f

/-- A line that `Headers.Parse` rejects: no colon, an empty name, a name ending in a
space, or a name that is not a token. -/
def badLine (l : Bytes) : Prop :=
  58 ∉ l ∨ ∃ name rest, l = name ++ 58 :: rest ∧ 58 ∉ name
    ∧ (name = [] ∨ name.getLast? = some 32 ∨ isToken name = false)

/-- A result of the driver with `k` more bytes counted as consumed before it; an
error keeps the count 0. -/
def StepResult.shift (k : Nat) (s : StepResult) : StepResult :=
  ⟨s.req, match s.err with
    | none => k + s.n
    | some _ => 0, s.err⟩

/-- The same for a result of `Headers.Parse`. -/
def ParseResult.shift (k : Nat) (s : ParseResult) : ParseResult :=
  ⟨s.table, match s.err with
    | none => k + s.bytesRead
    | some _ => 0, s.done, s.err⟩

/-- How the driver's result `m` on `d1 ++ d2` relates to its result `a` on `d1`: an
error stands; a request not yet done is carried on by a second call on the remainder
and `d2`; a request already done is returned unchanged, unless the longer buffer
makes the body too large. -/
def MergeSpec (uni : Bytes → Bytes) (a m : StepResult) (d1 d2 : Bytes) : Prop :=
  a.n ≤ d1.length ∧
  (∀ e, a.err = some e → m.err = some e) ∧
  (a.err = none → a.req.state ≠ parserState.StateDone →
    m = (a.req.parse uni (d1.drop a.n ++ d2)).shift a.n) ∧
  (a.err = none → a.req.state = parserState.StateDone →
    m = a ∨ m.err = some .ErrBodyTooLarge)

/-- What `FromReader` returns when the stream ends right after the driver returned
`m`: the driver's error, the request if it is done, the end-of-stream error of the
next read otherwise. -/
def finish (m : StepResult) : Outcome :=
  match m.err with
  | some e => .fail e
  | none =>
    if m.req.done then (if m.req.error then .fail .requestParsingFailed else .ok m.req)
    else .fail .EOF

/-- The request line `METHOD SP TARGET SP HTTP/1.1`, without its CRLF. -/
def requestLine (m t : Bytes) : Bytes := m ++ 32 :: (t ++ 32 :: ascii "HTTP/1.1")

/-- A request on the wire: request line, CRLF, header lines, blank line, body. -/
def wire (m t : Bytes) (fs : List (Bytes × Bytes)) (b : Bytes) : Bytes :=
  requestLine m t ++ 13 :: 10 :: (headerBlock fs ++ 13 :: 10 :: b)

/-- A string with its ASCII capital letters lower-cased. -/
def asciiLower (s : Bytes) : Bytes := s.map (fun c => if 65 ≤ c ∧ c ≤ 90 then c + 32 else c)

/-- The name is `Content-Length`, letter case ignored. -/
def isContentLength (name : Bytes) : Bool := decide (asciiLower name = ascii "content-length")

/-- The headers `(name, value)` announce the body length: there is no
`Content-Length` header and the body is empty, or there is exactly one and its value
reads (as `strconv.Atoi` reads it) as the number of body bytes. -/
def announces (hs : List (Bytes × Bytes)) (b : Bytes) : Prop :=
  match hs.filter (fun f => isContentLength f.1) with
  | [] => b = []
  | [f] => Atoi f.2 = .ok (b.length : Int)
  | _ => False

/-- The headers `(name, value)` that the lines `name:rest` stand for: the value is the
trimmed rest. -/
def trimmed (fs : List (Bytes × Bytes)) : List (Bytes × Bytes) :=
  fs.map (fun f => (f.1, TrimSpace f.2))

/-- Free of space, CR and LF. -/
def plainWord (s : Bytes) : Prop := 32 ∉ s ∧ 13 ∉ s ∧ 10 ∉ s

/-- The request and the staging buffer between two passes of the reader loop: the
driver finds nothing more to consume in the buffer. -/
def Stable (uni : Bytes → Bytes) (r : Request) (buf : Bytes) : Prop :=
  r.parse uni buf = ⟨r, 0, none⟩

/-- A stream as one read, no read for the empty stream. -/
def oneRead (t : Bytes) : List Bytes := if t = [] then [] else [t]

/-- The reads still to come after one read of `c` into a buffer with `room` free
bytes: the undelivered part of `c`, if any, comes first. -/
def restOf (room : Nat) (c : Bytes) (cs : List Bytes) : List Bytes :=
  if c.length ≤ room then cs else c.drop room :: cs

/-- The loop of the decimal representation: digits are put in front of `acc`, the last
digit first. -/
def decimalAux : Nat → Nat → Bytes → Bytes
  | 0, _, acc => acc
  | fuel + 1, n, acc =>
    if n < 10 then (48 + n) :: acc else decimalAux fuel (n / 10) ((48 + n % 10) :: acc)

/-- The decimal representation of a number, as Go `strconv.Itoa` writes it. -/
def decimal (n : Nat) : Bytes := decimalAux (n + 1) n []

/-- The request left behind by the parser steps on the inputs `ds`, one step after the
other, whether a step returns an error or not. -/
def Request.steps (uni : Bytes → Bytes) (r : Request) (ds : List Bytes) : Request :=
  ds.foldl (fun q d => (q.parseSingle uni d).req) r

/-- None of the parser steps on the inputs `ds`, run one after the other from `r`,
returns an error. -/
def Request.quiet (uni : Bytes → Bytes) (r : Request) : List Bytes → Bool
  | [] => true
  | d :: ds =>
    (r.parseSingle uni d).err.isNone && Request.quiet uni (r.parseSingle uni d).req ds

/-- What holds of the body between parser steps that return no error: it is empty
before state Body; in state Body it is empty or shorter than the announced length; in
state Done it is empty with no length announced, or as long as announced. -/
def BodyInv (uni : Bytes → Bytes) (r : Request) : Prop :=
  match r.state with
  | StateInit => r.Body = []
  | StateHeaders => r.Body = []
  | StateBody => r.Body = [] ∨
      (r.Headers.Get uni (ascii "Content-Length") ≠ [] ∧
        ∃ cl : Int, Atoi (r.Headers.Get uni (ascii "Content-Length")) = .ok cl ∧
          (r.Body.length : Int) < cl)
  | StateDone =>
      (r.Body = [] ∧ r.Headers.Get uni (ascii "Content-Length") = []) ∨
      (r.Headers.Get uni (ascii "Content-Length") ≠ [] ∧
        Atoi (r.Headers.Get uni (ascii "Content-Length")) = .ok (r.Body.length : Int))
  | StateError => False

/-! ## response.go -/

/-- Source `writerState`. -/
inductive writerState
  | stateInit
  | stateStatus
  | stateHeaders
  | stateBody
  | stateTrailers
  deriving DecidableEq, Repr

open writerState

/-- Error values of package response: `fmt.Errorf(msg)` and
`fmt.Errorf(msg + "%w", cause)` around an error of the sink. -/
inductive WriterError
  | errorf (msg : String)
  | wrapf (msg : String) (cause : Error)
  deriving DecidableEq, Repr

/-- One `Write(p)` on the underlying `io.Writer`: the returned count, the returned
error, and the sink afterwards. -/
structure WriteResult (σ : Type) where
  n : Nat
  err : Option Error
  next : σ

/-- Source `Writer`: the sink and the state. -/
structure Writer (σ : Type) where
  writer : σ
  state : writerState
  deriving DecidableEq, Repr

/-- Source `NewWriter`. -/
def NewWriter {σ : Type} (w : σ) : Writer σ := ⟨w, stateInit⟩

/-- The writer left behind by an operation together with what the operation returns
(operations that return only an error have `n = 0`). -/
structure WriterResult (σ : Type) where
  w : Writer σ
  n : Nat
  err : Option WriterError
  deriving DecidableEq, Repr

/-- The `switch statusCode` of `WriteStatusLine`. -/
def statusLine (statusCode : Bytes) : Bytes :=
  if statusCode = ascii "200" then ascii "HTTP/1.1 200 OK"
  else if statusCode = ascii "400" then ascii "HTTP/1.1 400 Bad Request"
  else if statusCode = ascii "500" then ascii "HTTP/1.1 500 internal Server Error"
  else ascii "HTTP/1.1 " ++ statusCode

/-- Source `Writer.WriteStatusLine`. -/
def Writer.WriteStatusLine {σ : Type} (write : σ → Bytes → WriteResult σ) (w : Writer σ)
    (statusCode : Bytes) : WriterResult σ :=
  if w.state ≠ stateInit then ⟨w, 0, some (.errorf "WriteStatusLine must be called first")⟩
  else
    let res := write w.writer (statusLine statusCode ++ ascii "\r\n")
    match res.err with
    | some e => ⟨{ w with writer := res.next }, 0, some (.wrapf "error writing status line: " e)⟩
    | none => ⟨⟨res.next, stateStatus⟩, 0, none⟩

/-- Source `Headers.All`. -/
def Headers.All (h : Headers) : List (Bytes × Bytes) := h.headers

/-- The loop `for key, value := range allHeaders` of `WriteHeaders` and of
`WriteTrailers` over the entries in the order in which `range` yields them: one write
of `key: value CRLF` per entry, up to the first write that fails. -/
def writeLines {σ : Type} (write : σ → Bytes → WriteResult σ) (msg : String) :
    List (Bytes × Bytes) → σ → σ × Option WriterError
  | [], s => (s, none)
  | (key, value) :: rest, s =>
    let res := write s (key ++ ascii ": " ++ value ++ ascii "\r\n")
    match res.err with
    | some e => (res.next, some (.wrapf msg e))
    | none => writeLines write msg rest res.next

/-- Source `Writer.WriteHeaders`.  Go leaves the order of `range` over a map open:
`order` maps the entries of the table to the sequence in which `range` yields
them. -/
def Writer.WriteHeaders {σ : Type} (write : σ → Bytes → WriteResult σ)
    (order : List (Bytes × Bytes) → List (Bytes × Bytes)) (w : Writer σ) (h : Headers) :
    WriterResult σ :=
  if w.state ≠ stateStatus then
    ⟨w, 0, some (.errorf "WriteHeaders must be called after WriteStatusLine")⟩
  else
    let allHeaders := h.All
    match writeLines write "error writing header: " (order allHeaders) w.writer with
    | (s, some e) => ⟨{ w with writer := s }, 0, some e⟩
    | (s, none) =>
      let res := write s (ascii "\r\n")
      match res.err with
      | some e =>
        ⟨{ w with writer := res.next }, 0, some (.wrapf "error writing header separator: " e)⟩
      | none => ⟨⟨res.next, stateHeaders⟩, 0, none⟩

/-- Source `Writer.WriteBody`. -/
def Writer.WriteBody {σ : Type} (write : σ → Bytes → WriteResult σ) (w : Writer σ)
    (p : Bytes) : WriterResult σ :=
  if w.state ≠ stateHeaders then
    ⟨w, 0, some (.errorf "WriteBody must be called after WriteHeaders")⟩
  else
    let res := write w.writer p
    match res.err with
    | some e => ⟨{ w with writer := res.next }, res.n, some (.wrapf "error writing body: " e)⟩
    | none => ⟨⟨res.next, stateBody⟩, res.n, none⟩

/-- One upper-case hexadecimal digit. -/
def hexDigit (d : Nat) : Nat := if d < 10 then 48 + d else 55 + d

/-- The digit loop of `%X`: digits are put in front of `acc`, the last digit first. -/
def formatXAux : Nat → Nat → Bytes → Bytes
  | 0, _, acc => acc
  | fuel + 1, n, acc =>
    if n < 16 then hexDigit n :: acc
    else formatXAux fuel (n / 16) (hexDigit (n % 16) :: acc)

/-- Go `fmt.Sprintf("%X", n)` for an `int` that is not negative. -/
def formatX (n : Nat) : Bytes := formatXAux (n + 1) n []

/-- Source `Writer.WriteChunkedBody`. -/
def Writer.WriteChunkedBody {σ : Type} (write : σ → Bytes → WriteResult σ) (w : Writer σ)
    (p : Bytes) : WriterResult σ :=
  if w.state ≠ stateHeaders ∧ w.state ≠ stateBody then
    ⟨w, 0, some (.errorf "WriteChunkedBody must be called after WriteHeaders")⟩
  else if p.length = 0 then ⟨w, 0, none⟩
  else
    let chunkSize := formatX p.length ++ ascii "\r\n"
    let res1 := write w.writer chunkSize
    match res1.err with
    | some e => ⟨{ w with writer := res1.next }, 0, some (.wrapf "error writing chunk size: " e)⟩
    | none =>
      let res2 := write res1.next p
      match res2.err with
      | some e =>
        ⟨{ w with writer := res2.next }, res2.n, some (.wrapf "error writing chunk data: " e)⟩
      | none =>
        let res3 := write res2.next (ascii "\r\n")
        match res3.err with
        | some e => ⟨{ w with writer := res3.next }, res2.n,
            some (.wrapf "error writing chunk trailing CRLF: " e)⟩
        | none => ⟨⟨res3.next, stateBody⟩, res2.n, none⟩

/-- Source `Writer.WriteChunkedBodyDone`. -/
def Writer.WriteChunkedBodyDone {σ : Type} (write : σ → Bytes → WriteResult σ)
    (w : Writer σ) : WriterResult σ :=
  if w.state ≠ stateHeaders ∧ w.state ≠ stateBody then
    ⟨w, 0, some (.errorf
      "WriteChunkedBodyDone muse be called after WriteHeaders or WriteChunkedBody")⟩
  else
    let res := write w.writer (ascii "0\r\n\r\n")
    match res.err with
    | some e =>
      ⟨{ w with writer := res.next }, res.n, some (.wrapf "error writing final chunk: " e)⟩
    | none => ⟨⟨res.next, stateBody⟩, res.n, none⟩

/-- Source `Writer.WriteTrailers`, with the order of `range` as in `WriteHeaders`. -/
def Writer.WriteTrailers {σ : Type} (write : σ → Bytes → WriteResult σ)
    (order : List (Bytes × Bytes) → List (Bytes × Bytes)) (w : Writer σ) (h : Headers) :
    WriterResult σ :=
  if w.state ≠ stateBody then
    ⟨w, 0, some (.errorf "WriteTrailers must be called after WriteChunkedBodyDone")⟩
  else
    let allHeaders := h.All
    match writeLines write "error writing trailer: " (order allHeaders) w.writer with
    | (s, some e) => ⟨{ w with writer := s }, 0, some e⟩
    | (s, none) =>
      let res := write s (ascii "\r\n")
      match res.err with
      | some e =>
        ⟨{ w with writer := res.next }, 0, some (.wrapf "error writing trailer separator: " e)⟩
      | none => ⟨⟨res.next, stateTrailers⟩, 0, none⟩

/-! ## Notions used to state the properties of the response writer -/

/-- A sink that accepts every write and keeps the bytes written, as a `bytes.Buffer`
does. -/
def bufferWrite (s : Bytes) (p : Bytes) : WriteResult Bytes := ⟨p.length, none, s ++ p⟩

/-- A sink that accepts every write and keeps the list of the `Write` calls made. -/
def callLog (s : List Bytes) (p : Bytes) : WriteResult (List Bytes) :=
  ⟨p.length, none, s ++ [p]⟩

/-- The six messages of the sequencing errors. -/
def sequencingMessages : List String :=
  ["WriteStatusLine must be called first",
   "WriteHeaders must be called after WriteStatusLine",
   "WriteBody must be called after WriteHeaders",
   "WriteChunkedBody must be called after WriteHeaders",
   "WriteChunkedBodyDone muse be called after WriteHeaders or WriteChunkedBody",
   "WriteTrailers must be called after WriteChunkedBodyDone"]

/-- A sequencing error: one of the fixed messages, wrapping no error of the sink. -/
def WriterError.sequencing : WriterError → Bool
  | .errorf msg => decide (msg ∈ sequencingMessages)
  | .wrapf _ _ => false

/-- The calls `WriteChunkedBody(p1)`, ..., `WriteChunkedBody(pk)` in a row, stopping
at the first one that returns an error. -/
def Writer.writeChunks {σ : Type} (write : σ → Bytes → WriteResult σ) :
    Writer σ → List Bytes → Option (Writer σ)
  | w, [] => some w
  | w, p :: ps =>
    match (w.WriteChunkedBody write p).err with
    | some _ => none
    | none => Writer.writeChunks write (w.WriteChunkedBody write p).w ps

/-- One chunk on the wire: the size in hexadecimal, CRLF, the data, CRLF. -/
def chunk (p : Bytes) : Bytes := formatX p.length ++ ascii "\r\n" ++ p ++ ascii "\r\n"

/-- The value of a string of upper-case hexadecimal digits, read from the left onto
`acc`; `none` when a byte is no such digit. -/
def upperHexValue : Bytes → Nat → Option Nat
  | [], acc => some acc
  | c :: cs, acc =>
    if 48 ≤ c ∧ c ≤ 57 then upperHexValue cs (acc * 16 + (c - 48))
    else if 65 ≤ c ∧ c ≤ 70 then upperHexValue cs (acc * 16 + (c - 55))
    else none

/-- A header line as the response writer emits it: `key: value CRLF`. -/
def headerLine (f : Bytes × Bytes) : Bytes := f.1 ++ ascii ": " ++ f.2 ++ ascii "\r\n"

/-- The order of the writer states: Init, StatusLine, Headers, Body, Trailers. -/
def writerState.rank : writerState → Nat
  | stateInit => 0
  | stateStatus => 1
  | stateHeaders => 2
  | stateBody => 3
  | stateTrailers => 4

/-- A sink on which every write fails: it counts the calls and stores nothing. -/
def brokenWrite (s : Nat) (_ : Bytes) : WriteResult Nat := ⟨0, some (.transport 1), s + 1⟩

/-! ## redis/cmd/test/main.go -/

/-- Error values of `readInt64`, one for each message. -/
inductive RespError
  | inputTooShort
  | invalidPrefix
  | integerOverflow
  | noDigits
  | invalidTerminator
  deriving DecidableEq, Repr

/-- Go `math.MaxInt64`. -/
def MaxInt64 : Int := 9223372036854775807

/-- The value of an `int64` expression: the mathematical value wrapped into the range
from `-2^63` to `2^63 - 1`. -/
def wrapInt64 (x : Int) : Int :=
  (x + 9223372036854775808) % 18446744073709551616 - 9223372036854775808

/-- The variables of the digit loop of `readInt64` when the loop is left, or its
overflow error. -/
structure DigitsResult where
  res : Int
  pos : Nat
  digitCount : Nat
  overflow : Bool
  deriving DecidableEq, Repr

/-- The loop `for pos < len(data)` of `readInt64`; `rest` is `data[pos:]`.  The
quotient has operands that are not negative, where Go and Lean divide alike. -/
def readDigits : Bytes → Int → Nat → Nat → DigitsResult
  | [], res, pos, digitCount => ⟨res, pos, digitCount, false⟩
  | ch :: rest, res, pos, digitCount =>
    if 48 ≤ ch ∧ ch ≤ 57 then
      if res > (MaxInt64 - ((ch - 48 : Nat) : Int)) / 10 then ⟨res, pos, digitCount, true⟩
      else readDigits rest (wrapInt64 (res * 10 + ((ch - 48 : Nat) : Int))) (pos + 1)
        (digitCount + 1)
    else ⟨res, pos, digitCount, false⟩

/-- What `readInt64` returns: the value, the number of bytes read, the error. -/
structure IntResult where
  value : Int
  n : Nat
  err : Option RespError
  deriving DecidableEq, Repr

/-- Source `readInt64`. -/
def readInt64 (data : Bytes) : IntResult :=
  if data.length < 4 then ⟨0, 0, some .inputTooShort⟩
  else if data.getD 0 0 ≠ 58 then ⟨0, 0, some .invalidPrefix⟩
  else
    let sign : Int := if data.getD 1 0 = 45 then -1 else 1
    let pos : Nat := if data.getD 1 0 = 45 then 2 else if data.getD 1 0 = 43 then 2 else 1
    let d := readDigits (data.drop pos) 0 pos 0
    if d.overflow then ⟨0, 0, some .integerOverflow⟩
    else if d.digitCount = 0 then ⟨0, 0, some .noDigits⟩
    else if d.pos + 1 ≥ data.length ∨ data.getD d.pos 0 ≠ 13 ∨ data.getD (d.pos + 1) 0 ≠ 10 then
      ⟨0, 0, some .invalidTerminator⟩
    else ⟨wrapInt64 (d.res * sign), d.pos + 2, none⟩

/-! ## request.go: the staging buffer of FromReader as an array -/

/-- Go `copy(dst, src)`: the array `dst` afterwards.  As many elements as both hold
are copied to the front of `dst`, as if `src` were read before `dst` is written. -/
def goCopy (dst src : Bytes) : Bytes := src.take dst.length ++ dst.drop src.length

/-- The variables `buf` and `bufLen` of `FromReader`. -/
structure Staging where
  buf : Bytes
  bufLen : Nat
  deriving DecidableEq, Repr

/-- The filled prefix `buf[:bufLen]`. -/
def Staging.filled (s : Staging) : Bytes := s.buf.take s.bufLen

/-- One pass of the loop of `FromReader` that reached the call of the driver: `bufLen`
after the read, the count `readN` the driver returned, the staging buffer at the end
of the pass (after the compaction, or as the driver left it when it returned an
error), all bytes read so far, and the number of bytes consumed so far. -/
structure Pass where
  bufLen : Nat
  readN : Nat
  after : Staging
  seen : Bytes
  consumed : Nat
  deriving DecidableEq, Repr

/-- The `for !request.done()` loop of `FromReader` on the staging array, with the
passes it makes.  `read rd room` is `reader.Read(buf[bufLen:])`, whose bytes are
stored from `buf[bufLen]` on; `seen` and `consumed` only keep the books. -/
def FromReaderStaged {σ : Type} (uni : Bytes → Bytes) (read : σ → Nat → ReadResult σ) :
    Nat → σ → Request → Staging → Bytes → Nat → Outcome × List Pass
  | 0, _, _, _, _, _ => (.outOfFuel, [])
  | fuel + 1, rd, request, s, seen, consumed =>
    if request.done then
      ((if request.error then .fail .requestParsingFailed else .ok request), [])
    else
      let res := read rd (s.buf.length - s.bufLen)
      match res.err with
      | some e => (.fail e, [])
      | none =>
        let buf1 := s.buf.take s.bufLen ++ goCopy (s.buf.drop s.bufLen) res.bytes
        let bufLen1 := s.bufLen + res.bytes.length
        if bufLen1 > buf1.length then (.panic, [])
        else
          let p := request.parse uni (buf1.take bufLen1)
          match p.err with
          | some e =>
            (.fail e, [⟨bufLen1, p.n, ⟨buf1, bufLen1⟩, seen ++ res.bytes, consumed + p.n⟩])
          | none =>
            let s2 : Staging := ⟨goCopy buf1 ((buf1.take bufLen1).drop p.n), bufLen1 - p.n⟩
            let run := FromReaderStaged uni read fuel res.next p.req s2 (seen ++ res.bytes)
              (consumed + p.n)
            (run.1, ⟨bufLen1, p.n, s2, seen ++ res.bytes, consumed + p.n⟩ :: run.2)

/-- The read contract of `io.Reader`: `Read(p)` returns `0 <= n <= len(p)`. -/
def ReadContract {σ : Type} (read : σ → Nat → ReadResult σ) : Prop :=
  ∀ rd room, (read rd room).bytes.length ≤ room

/-- What holds of a pass when the staging buffer is kept in bounds. -/
def Pass.inBounds (p : Pass) : Prop :=
  p.bufLen ≤ 1024 ∧ p.readN ≤ p.bufLen ∧ p.after.buf.length = 1024 ∧
  p.after.bufLen = p.bufLen - p.readN ∧ p.consumed ≤ p.seen.length ∧
  p.after.filled = p.seen.drop p.consumed

/-! ## server.go -/

/-- What `Server.handle` does to a connection, in the order in which it happens: the
call of `request.FromReader`, `log.Printf` of its error, the call of the handler with
its two arguments, `conn.Close()`. -/
inductive ServerEvent (κ : Type)
  | parse
  | log (e : Error)
  | handler (w : Writer κ) (req : Request)
  | close

/-- Source `Server.handle` on the connection `conn`, whose reading side is in state
`rd`: the events of one call.  The deferred `conn.Close()` runs when `handle` returns,
on either path, and while a panic of `FromReader` unwinds; nothing follows the call
of `FromReader` as long as it has not returned. -/
def Server.handle {σ κ : Type} (uni : Bytes → Bytes) (read : σ → Nat → ReadResult σ)
    (fuel : Nat) (rd : σ) (conn : κ) : List (ServerEvent κ) :=
  match FromReader uni read fuel rd with
  | .fail err => [.parse, .log err, .close]
  | .ok req =>
    let writer := NewWriter conn
    [.parse, .handler writer req, .close]
  | .panic => [.parse, .close]
  | .outOfFuel => [.parse]

/-- The event is a call of the handler. -/
def ServerEvent.isHandler {κ : Type} : ServerEvent κ → Bool
  | .handler _ _ => true
  | _ => false

/-- The event is the closing of the connection. -/
def ServerEvent.isClose {κ : Type} : ServerEvent κ → Bool
  | .close => true
  | _ => false

/-- The sink after the byte strings are written to it one after the other, when every
one of these writes succeeds. -/
def writeAll {σ : Type} (write : σ → Bytes → WriteResult σ) : List Bytes → σ → Option σ
  | [], s => some s
  | p :: ps, s =>
    match (write s p).err with
    | some _ => none
    | none => writeAll write ps (write s p).next

/-- The reads that deliver a request line by line: the request line, each header
line, the blank line, each with its CRLF, then the body. -/
def lineReads (m t : Bytes) (fs : List (Bytes × Bytes)) (b : Bytes) : List Bytes :=
  (requestLine m t ++ [13, 10]) :: (fs.map (fun f => fieldLine f ++ [13, 10])
    ++ [13, 10] :: oneRead b)

/-! # Facts about the embedding -/

/-! ## Facts about the library functions -/

theorem Index_crlf_cons (a : Nat) (t : Bytes) :
    Index (a :: t) [13, 10] =
      if a = 13 ∧ t.head? = some 10 then some 0 else (Index t [13, 10]).map (· + 1) := by
  cases t with
  | nil => simp [Index, HasPrefix]
  | cons b t =>
    by_cases h : a = 13 ∧ b = 10
    · simp [Index, HasPrefix, h]
    · have h2 : ¬ (a = 13 ∧ b = 10) := h
      simp only [Index, HasPrefix, List.head?_cons, Option.some.injEq]
      simp [h2]

theorem Index_crlf_nil : Index [] [13, 10] = none := by
  simp [Index, HasPrefix]

/-- The first CRLF of `l ++ "\r\n" ++ rest` is at `l.length` when `l` holds none. -/
theorem Index_append_crlf (l rest : Bytes) (h : Index l [13, 10] = none) :
    Index (l ++ 13 :: 10 :: rest) [13, 10] = some l.length := by
  induction l with
  | nil => simp [Index_crlf_cons]
  | cons a t ih =>
    rw [Index_crlf_cons] at h
    rw [List.cons_append, Index_crlf_cons]
    split at h
    · simp at h
    · rename_i hc
      have ht : Index t [13, 10] = none := by
        cases hI : Index t [13, 10] with
        | none => rfl
        | some v => rw [hI] at h; simp at h
      have hc2 : ¬ (a = 13 ∧ (t ++ 13 :: 10 :: rest).head? = some 10) := by
        intro ⟨ha, hb⟩
        apply hc
        refine ⟨ha, ?_⟩
        cases t with
        | nil =>
          -- then t = [] and Index [13] = none; head of rest part is 13 ≠ 10
          simp at hb
        | cons b t => simpa using hb
      rw [if_neg hc2, ih ht]
      simp

/-- A CRLF found in `b` is found at the same place in every extension of `b`. -/
theorem Index_append_of_some (b d : Bytes) (i : Nat) (h : Index b [13, 10] = some i) :
    Index (b ++ d) [13, 10] = some i := by
  induction b generalizing i with
  | nil => simp [Index_crlf_nil] at h
  | cons a t ih =>
    rw [Index_crlf_cons] at h
    rw [List.cons_append, Index_crlf_cons]
    split at h
    · rename_i hc
      have : a = 13 ∧ (t ++ d).head? = some 10 := by
        refine ⟨hc.1, ?_⟩
        cases t with
        | nil => simp at hc
        | cons b t => simpa using hc.2
      rw [if_pos this]; exact h
    · rename_i hc
      have hc2 : ¬ (a = 13 ∧ (t ++ d).head? = some 10) := by
        intro ⟨ha, hb⟩
        cases t with
        | nil => simp [Index_crlf_nil] at h
        | cons b t => exact hc ⟨ha, by simpa using hb⟩
      rw [if_neg hc2]
      cases hI : Index t [13, 10] with
      | none => rw [hI] at h; simp at h
      | some v => rw [hI] at h; rw [ih v hI]; exact h

/-- Shape of a buffer around its first CRLF. -/
theorem Index_some_split (b : Bytes) (i : Nat) (h : Index b [13, 10] = some i) :
    b = b.take i ++ 13 :: 10 :: b.drop (i + 2) ∧ i + 2 ≤ b.length
      ∧ Index (b.take i) [13, 10] = none := by
  induction b generalizing i with
  | nil => simp [Index_crlf_nil] at h
  | cons a t ih =>
    rw [Index_crlf_cons] at h
    split at h
    · rename_i hc
      cases t with
      | nil => simp at hc
      | cons b t =>
        simp at hc h
        subst h
        simp [hc.1, hc.2, Index_crlf_nil]
    · rename_i hc
      cases hI : Index t [13, 10] with
      | none => rw [hI] at h; simp at h
      | some v =>
        rw [hI] at h
        simp at h
        subst h
        obtain ⟨h1, h2, h3⟩ := ih v hI
        refine ⟨?_, ?_, ?_⟩
        · simp only [List.take_succ_cons, List.cons_append, List.drop_succ_cons]
          rw [← h1]
        · simp; omega
        · simp only [List.take_succ_cons]
          rw [Index_crlf_cons, h3]
          have : ¬ (a = 13 ∧ (List.take v t).head? = some 10) := by
            intro ⟨ha, hb⟩
            apply hc
            refine ⟨ha, ?_⟩
            cases t with
            | nil => simp at hb
            | cons b t =>
              cases v with
              | zero => simp at hb
              | succ v => simpa using hb
          simp [this]

/-- No CRLF in a buffer means none in any prefix of it. -/
theorem Index_none_of_append (l d : Bytes) (h : Index (l ++ d) [13, 10] = none) :
    Index l [13, 10] = none := by
  cases hI : Index l [13, 10] with
  | none => rfl
  | some v => rw [Index_append_of_some l d v hI] at h; simp at h

theorem Index_none_iff (b : Bytes) : Index b [13, 10] = none ↔ ¬ [13, 10] <:+: b := by
  constructor
  · intro h ⟨pre, post, hb⟩
    have hp : Index pre [13, 10] = none := by
      apply Index_none_of_append pre ([13, 10] ++ post)
      rw [← List.append_assoc]; rw [hb]; exact h
    have := Index_append_crlf pre post hp
    simp at hb
    rw [hb, h] at this
    simp at this
  · intro h
    cases hI : Index b [13, 10] with
    | none => rfl
    | some v =>
      exfalso; apply h
      obtain ⟨h1, _, _⟩ := Index_some_split b v hI
      exact ⟨b.take v, b.drop (v + 2), by simpa using h1.symm⟩

theorem ascii_specials :
    ascii "!#$%&'*+-.^_`|~" = [33, 35, 36, 37, 38, 39, 42, 43, 45, 46, 94, 95, 96, 124, 126] := by
  decide

theorem isTokenChar_iff (c : Nat) : isTokenChar c = true ↔ tchar c := by
  unfold isTokenChar tchar
  rw [ascii_specials]
  simp only [List.mem_cons, List.mem_singleton, List.not_mem_nil, or_false]
  constructor
  · intro h
    split at h
    · rename_i h1; rcases h1 with h1 | h1
      · exact Or.inl h1
      · exact Or.inr (Or.inl h1)
    · split at h
      · rename_i h2; exact Or.inr (Or.inr (Or.inl h2))
      · split at h
        · rename_i h3; exact Or.inr (Or.inr (Or.inr h3))
        · simp at h
  · intro h
    rcases h with h | h | h | h
    · simp [h]
    · simp [h]
    · rw [if_pos h]; simp
    · rw [if_pos h]; simp

theorem isTokenLoop_iff (s : Bytes) : isTokenLoop s = true ↔ ∀ c ∈ s, isTokenChar c = true := by
  induction s with
  | nil => simp [isTokenLoop]
  | cons a t ih =>
    simp only [isTokenLoop, List.mem_cons, forall_eq_or_imp]
    by_cases h : isTokenChar a = true
    · simp [h, ih]
    · simp [h]

theorem isToken_iff_chars (s : Bytes) :
    isToken s = true ↔ s ≠ [] ∧ ∀ c ∈ s, isTokenChar c = true := by
  unfold isToken
  cases s with
  | nil => simp
  | cons a t => simp [isTokenLoop_iff]

/-- A token character is an ASCII byte other than colon, space, CR, LF and tab. -/
theorem isTokenChar_facts (c : Nat) (h : isTokenChar c = true) :
    c < 128 ∧ c ≠ 58 ∧ c ≠ 32 ∧ c ≠ 13 ∧ c ≠ 10 ∧ c ≠ 9 := by
  unfold isTokenChar at h
  split at h
  · omega
  · split at h
    · omega
    · split at h
      · omega
      · simp at h

/-! ### Split -/

theorem Split_ne_nil (s : Bytes) (sep : Nat) : Split s sep ≠ [] := by
  induction s with
  | nil => simp [Split]
  | cons c cs ih =>
    unfold Split
    split
    · simp
    · split <;> simp

theorem Split_length (s : Bytes) (sep : Nat) : (Split s sep).length = s.count sep + 1 := by
  induction s with
  | nil => simp [Split]
  | cons c cs ih =>
    unfold Split
    by_cases h : c = sep
    · subst h; simp [ih]
    · rw [if_neg h]
      have hc : List.count sep (c :: cs) = List.count sep cs := by
        rw [List.count_cons]; simp [h]
      rw [hc, ← ih]
      cases hs : Split cs sep with
      | nil => exact absurd hs (Split_ne_nil cs sep)
      | cons p ps => simp

/-- Splitting a string that does not hold the separator gives the string itself. -/
theorem Split_of_not_mem (s : Bytes) (sep : Nat) (h : sep ∉ s) : Split s sep = [s] := by
  induction s with
  | nil => simp [Split]
  | cons c cs ih =>
    simp only [List.mem_cons, not_or] at h
    unfold Split
    rw [if_neg (fun hc => h.1 hc.symm), ih h.2]

/-- Splitting `a ++ sep :: b` when `a` does not hold the separator. -/
theorem Split_append (a b : Bytes) (sep : Nat) (h : sep ∉ a) :
    Split (a ++ sep :: b) sep = a :: Split b sep := by
  induction a with
  | nil => simp [Split]
  | cons c cs ih =>
    simp only [List.mem_cons, not_or] at h
    have hne : ¬ c = sep := fun hc => h.1 hc.symm
    have e : Split (c :: (cs ++ sep :: b)) sep = (c :: cs) :: Split b sep := by
      rw [Split, if_neg hne, ih h.2]
    simpa using e

/-! ### Trimming -/

theorem mem_spaceRunes_iff (r : Bytes) :
    r ∈ spaceRunes ↔ (∃ a, r = [a] ∧ isSpace1 a = true)
      ∨ (∃ a b, r = [a, b] ∧ isSpace2 a b = true)
      ∨ (∃ a b c, r = [a, b, c] ∧ isSpace3 a b c = true) := by
  constructor
  · intro h
    simp only [spaceRunes, List.mem_cons, List.mem_singleton, List.not_mem_nil, or_false] at h
    rcases h with h | h | h | h | h | h | h | h | h | h | h | h | h | h | h | h | h | h | h | h
      | h | h | h | h | h <;> subst h <;>
      first
        | exact Or.inl ⟨_, rfl, by decide⟩
        | exact Or.inr (Or.inl ⟨_, _, rfl, by decide⟩)
        | exact Or.inr (Or.inr ⟨_, _, _, rfl, by decide⟩)
  · rintro (⟨a, rfl, h⟩ | ⟨a, b, rfl, h⟩ | ⟨a, b, c, rfl, h⟩)
    · simp only [isSpace1, decide_eq_true_eq] at h
      rcases h with h | h | h | h | h | h <;> subst h <;> simp [spaceRunes]
    · simp only [isSpace2, decide_eq_true_eq] at h
      obtain ⟨rfl, h | h⟩ := h <;> subst h <;> simp [spaceRunes]
    · simp only [isSpace3, decide_eq_true_eq] at h
      rcases h with ⟨rfl, rfl, rfl⟩ | ⟨rfl, rfl, h⟩ | ⟨rfl, rfl, rfl⟩ | ⟨rfl, rfl, rfl⟩
      · simp [spaceRunes]
      · rcases h with ⟨h1, h2⟩ | h | h | h
        · interval_cases c <;> simp [spaceRunes]
        · subst h; simp [spaceRunes]
        · subst h; simp [spaceRunes]
        · subst h; simp [spaceRunes]
      · simp [spaceRunes]
      · simp [spaceRunes]

theorem startsWithSpace_iff (s : Bytes) :
    startsWithSpace s ↔ (∃ a t, s = a :: t ∧ isSpace1 a = true)
      ∨ (∃ a b t, s = a :: b :: t ∧ isSpace2 a b = true)
      ∨ (∃ a b c t, s = a :: b :: c :: t ∧ isSpace3 a b c = true) := by
  unfold startsWithSpace
  constructor
  · rintro ⟨r, hr, t, rfl⟩
    rcases (mem_spaceRunes_iff r).1 hr with ⟨a, rfl, h⟩ | ⟨a, b, rfl, h⟩ | ⟨a, b, c, rfl, h⟩
    · exact Or.inl ⟨a, t, rfl, h⟩
    · exact Or.inr (Or.inl ⟨a, b, t, rfl, h⟩)
    · exact Or.inr (Or.inr ⟨a, b, c, t, rfl, h⟩)
  · rintro (⟨a, t, rfl, h⟩ | ⟨a, b, t, rfl, h⟩ | ⟨a, b, c, t, rfl, h⟩)
    · exact ⟨[a], (mem_spaceRunes_iff _).2 (Or.inl ⟨a, rfl, h⟩), t, rfl⟩
    · exact ⟨[a, b], (mem_spaceRunes_iff _).2 (Or.inr (Or.inl ⟨a, b, rfl, h⟩)), t, rfl⟩
    · exact ⟨[a, b, c], (mem_spaceRunes_iff _).2 (Or.inr (Or.inr ⟨a, b, c, rfl, h⟩)), t, rfl⟩

theorem endsWithSpace_iff (s : Bytes) :
    endsWithSpace s ↔ (∃ a t, s.reverse = a :: t ∧ isSpace1 a = true)
      ∨ (∃ a b t, s.reverse = b :: a :: t ∧ isSpace2 a b = true)
      ∨ (∃ a b c t, s.reverse = c :: b :: a :: t ∧ isSpace3 a b c = true) := by
  unfold endsWithSpace
  constructor
  · rintro ⟨r, hr, t, rfl⟩
    rcases (mem_spaceRunes_iff r).1 hr with ⟨a, rfl, h⟩ | ⟨a, b, rfl, h⟩ | ⟨a, b, c, rfl, h⟩
    · exact Or.inl ⟨a, t.reverse, by simp, h⟩
    · exact Or.inr (Or.inl ⟨a, b, t.reverse, by simp, h⟩)
    · exact Or.inr (Or.inr ⟨a, b, c, t.reverse, by simp, h⟩)
  · rintro (⟨a, t, e, h⟩ | ⟨a, b, t, e, h⟩ | ⟨a, b, c, t, e, h⟩)
    · refine ⟨[a], (mem_spaceRunes_iff _).2 (Or.inl ⟨a, rfl, h⟩), t.reverse, ?_⟩
      have := congrArg List.reverse e; simpa using this.symm
    · refine ⟨[a, b], (mem_spaceRunes_iff _).2 (Or.inr (Or.inl ⟨a, b, rfl, h⟩)), t.reverse, ?_⟩
      have := congrArg List.reverse e; simpa using this.symm
    · refine ⟨[a, b, c], (mem_spaceRunes_iff _).2 (Or.inr (Or.inr ⟨a, b, c, rfl, h⟩)),
        t.reverse, ?_⟩
      have := congrArg List.reverse e; simpa using this.symm

theorem allSpace_nil : allSpace [] := ⟨[], by simp, by simp⟩

theorem allSpace_append {a b : Bytes} (ha : allSpace a) (hb : allSpace b) :
    allSpace (a ++ b) := by
  obtain ⟨ra, h1, rfl⟩ := ha
  obtain ⟨rb, h2, rfl⟩ := hb
  refine ⟨ra ++ rb, ?_, by simp⟩
  intro r hr
  rcases List.mem_append.1 hr with h | h
  · exact h1 r h
  · exact h2 r h

theorem allSpace_rune {r : Bytes} (h : r ∈ spaceRunes) : allSpace r :=
  ⟨[r], by simpa using h, by simp⟩

theorem trimLeft_cons1 (a : Nat) (t : Bytes) (h : isSpace1 a = true) :
    trimLeft (a :: t) = trimLeft t := by
  rw [trimLeft.eq_def]; simp [h]
theorem trimLeft_single (a : Nat) (h : ¬ isSpace1 a = true) : trimLeft [a] = [a] := by
  rw [trimLeft.eq_def]; simp [h]
theorem trimLeft_cons2 (a b : Nat) (t : Bytes) (h : ¬ isSpace1 a = true)
    (h2 : isSpace2 a b = true) : trimLeft (a :: b :: t) = trimLeft t := by
  rw [trimLeft.eq_def]; simp [h, h2]
theorem trimLeft_pair (a b : Nat) (h : ¬ isSpace1 a = true) (h2 : ¬ isSpace2 a b = true) :
    trimLeft [a, b] = [a, b] := by
  rw [trimLeft.eq_def]; simp [h, h2]
theorem trimLeft_cons3 (a b c : Nat) (t : Bytes) (h : ¬ isSpace1 a = true)
    (h2 : ¬ isSpace2 a b = true) (h3 : isSpace3 a b c = true) :
    trimLeft (a :: b :: c :: t) = trimLeft t := by
  rw [trimLeft.eq_def]; simp [h, h2, h3]
theorem trimLeft_stop (a b c : Nat) (t : Bytes) (h : ¬ isSpace1 a = true)
    (h2 : ¬ isSpace2 a b = true) (h3 : ¬ isSpace3 a b c = true) :
    trimLeft (a :: b :: c :: t) = a :: b :: c :: t := by
  rw [trimLeft.eq_def]; simp [h, h2, h3]

theorem trimLeftRev_cons1 (a : Nat) (t : Bytes) (h : isSpace1 a = true) :
    trimLeftRev (a :: t) = trimLeftRev t := by
  rw [trimLeftRev.eq_def]; simp [h]
theorem trimLeftRev_single (a : Nat) (h : ¬ isSpace1 a = true) : trimLeftRev [a] = [a] := by
  rw [trimLeftRev.eq_def]; simp [h]
theorem trimLeftRev_cons2 (a b : Nat) (t : Bytes) (h : ¬ isSpace1 a = true)
    (h2 : isSpace2 b a = true) : trimLeftRev (a :: b :: t) = trimLeftRev t := by
  rw [trimLeftRev.eq_def]; simp [h, h2]
theorem trimLeftRev_pair (a b : Nat) (h : ¬ isSpace1 a = true) (h2 : ¬ isSpace2 b a = true) :
    trimLeftRev [a, b] = [a, b] := by
  rw [trimLeftRev.eq_def]; simp [h, h2]
theorem trimLeftRev_cons3 (a b c : Nat) (t : Bytes) (h : ¬ isSpace1 a = true)
    (h2 : ¬ isSpace2 b a = true) (h3 : isSpace3 c b a = true) :
    trimLeftRev (a :: b :: c :: t) = trimLeftRev t := by
  rw [trimLeftRev.eq_def]; simp [h, h2, h3]
theorem trimLeftRev_stop (a b c : Nat) (t : Bytes) (h : ¬ isSpace1 a = true)
    (h2 : ¬ isSpace2 b a = true) (h3 : ¬ isSpace3 c b a = true) :
    trimLeftRev (a :: b :: c :: t) = a :: b :: c :: t := by
  rw [trimLeftRev.eq_def]; simp [h, h2, h3]

/-- What `trimLeft` removes is a run of white space, and what it leaves does not begin
with white space. -/
theorem trimLeft_spec (s : Bytes) :
    ∃ pre, s = pre ++ trimLeft s ∧ allSpace pre ∧ ¬ startsWithSpace (trimLeft s) := by
  induction s using trimLeft.induct with
  | case1 => exact ⟨[], by simp [trimLeft], allSpace_nil, by simp [startsWithSpace_iff, trimLeft]⟩
  | case2 a t h ih =>
    obtain ⟨pre, e, hp, hn⟩ := ih
    refine ⟨a :: pre, ?_, ?_, ?_⟩
    · rw [trimLeft_cons1 a t h, List.cons_append, ← e]
    · exact allSpace_append (a := [a])
        (allSpace_rune ((mem_spaceRunes_iff _).2 (Or.inl ⟨a, rfl, h⟩))) hp
    · rw [trimLeft_cons1 a t h]; exact hn
  | case3 a h =>
    refine ⟨[], by simp [trimLeft_single a h], allSpace_nil, ?_⟩
    rw [trimLeft_single a h]
    simp [startsWithSpace_iff, h]
  | case4 a h b t2 h2 ih =>
    obtain ⟨pre, e, hp, hn⟩ := ih
    refine ⟨a :: b :: pre, ?_, ?_, ?_⟩
    · rw [trimLeft_cons2 a b t2 h h2, List.cons_append, List.cons_append, ← e]
    · exact allSpace_append (a := [a, b])
        (allSpace_rune ((mem_spaceRunes_iff _).2 (Or.inr (Or.inl ⟨a, b, rfl, h2⟩)))) hp
    · rw [trimLeft_cons2 a b t2 h h2]; exact hn
  | case5 a h b h2 =>
    refine ⟨[], by simp [trimLeft_pair a b h h2], allSpace_nil, ?_⟩
    rw [trimLeft_pair a b h h2]
    simp [startsWithSpace_iff, h, h2]
  | case6 a h b h2 c t3 h3 ih =>
    obtain ⟨pre, e, hp, hn⟩ := ih
    refine ⟨a :: b :: c :: pre, ?_, ?_, ?_⟩
    · rw [trimLeft_cons3 a b c t3 h h2 h3]
      simp only [List.cons_append]; rw [← e]
    · exact allSpace_append (a := [a, b, c])
        (allSpace_rune ((mem_spaceRunes_iff _).2 (Or.inr (Or.inr ⟨a, b, c, rfl, h3⟩)))) hp
    · rw [trimLeft_cons3 a b c t3 h h2 h3]; exact hn
  | case7 a h b h2 c t3 h3 =>
    refine ⟨[], by simp [trimLeft_stop a b c t3 h h2 h3], allSpace_nil, ?_⟩
    rw [trimLeft_stop a b c t3 h h2 h3]
    simp [startsWithSpace_iff, h, h2, h3]

/-- The same for the scan from the right end, stated on the reversed bytes. -/
theorem trimLeftRev_spec (s : Bytes) :
    ∃ pre, s = pre ++ trimLeftRev s ∧ allSpace pre.reverse
      ∧ ¬ endsWithSpace (trimLeftRev s).reverse := by
  induction s using trimLeftRev.induct with
  | case1 => exact ⟨[], by simp [trimLeftRev], allSpace_nil, by simp [endsWithSpace_iff, trimLeftRev]⟩
  | case2 a t h ih =>
    obtain ⟨pre, e, hp, hn⟩ := ih
    refine ⟨a :: pre, ?_, ?_, ?_⟩
    · rw [trimLeftRev_cons1 a t h, List.cons_append, ← e]
    · rw [List.reverse_cons]
      exact allSpace_append hp
        (allSpace_rune ((mem_spaceRunes_iff _).2 (Or.inl ⟨a, rfl, h⟩)))
    · rw [trimLeftRev_cons1 a t h]; exact hn
  | case3 a h =>
    refine ⟨[], by simp [trimLeftRev_single a h], allSpace_nil, ?_⟩
    rw [trimLeftRev_single a h]
    simp [endsWithSpace_iff, h]
  | case4 a h b t2 h2 ih =>
    obtain ⟨pre, e, hp, hn⟩ := ih
    refine ⟨a :: b :: pre, ?_, ?_, ?_⟩
    · rw [trimLeftRev_cons2 a b t2 h h2, List.cons_append, List.cons_append, ← e]
    · have : (a :: b :: pre).reverse = pre.reverse ++ [b, a] := by simp
      rw [this]
      exact allSpace_append hp
        (allSpace_rune ((mem_spaceRunes_iff _).2 (Or.inr (Or.inl ⟨b, a, rfl, h2⟩))))
    · rw [trimLeftRev_cons2 a b t2 h h2]; exact hn
  | case5 a h b h2 =>
    refine ⟨[], by simp [trimLeftRev_pair a b h h2], allSpace_nil, ?_⟩
    rw [trimLeftRev_pair a b h h2]
    simp [endsWithSpace_iff, h, h2]
  | case6 a h b h2 c t3 h3 ih =>
    obtain ⟨pre, e, hp, hn⟩ := ih
    refine ⟨a :: b :: c :: pre, ?_, ?_, ?_⟩
    · rw [trimLeftRev_cons3 a b c t3 h h2 h3]
      simp only [List.cons_append]; rw [← e]
    · have : (a :: b :: c :: pre).reverse = pre.reverse ++ [c, b, a] := by simp
      rw [this]
      exact allSpace_append hp
        (allSpace_rune ((mem_spaceRunes_iff _).2 (Or.inr (Or.inr ⟨c, b, a, rfl, h3⟩))))
    · rw [trimLeftRev_cons3 a b c t3 h h2 h3]; exact hn
  | case7 a h b h2 c t3 h3 =>
    refine ⟨[], by simp [trimLeftRev_stop a b c t3 h h2 h3], allSpace_nil, ?_⟩
    rw [trimLeftRev_stop a b c t3 h h2 h3]
    simp [endsWithSpace_iff, h, h2, h3]

theorem trimLeft_id (s : Bytes) (h : ¬ startsWithSpace s) : trimLeft s = s := by
  rw [startsWithSpace_iff] at h
  push_neg at h
  obtain ⟨h1, h2, h3⟩ := h
  match s with
  | [] => simp [trimLeft]
  | [a] => exact trimLeft_single a (h1 a [] rfl)
  | [a, b] => exact trimLeft_pair a b (h1 a [b] rfl) (h2 a b [] rfl)
  | a :: b :: c :: t =>
    exact trimLeft_stop a b c t (h1 a _ rfl) (h2 a b _ rfl) (h3 a b c t rfl)

theorem trimRight_id (s : Bytes) (h : ¬ endsWithSpace s) : trimRight s = s := by
  rw [endsWithSpace_iff] at h
  push_neg at h
  obtain ⟨h1, h2, h3⟩ := h
  unfold trimRight
  have key : trimLeftRev s.reverse = s.reverse := by
    generalize s.reverse = q at h1 h2 h3
    match q with
    | [] => simp [trimLeftRev]
    | [a] => exact trimLeftRev_single a (h1 a [] rfl)
    | [a, b] => exact trimLeftRev_pair a b (h1 a [b] rfl) (h2 b a [] rfl)
    | a :: b :: c :: t =>
      exact trimLeftRev_stop a b c t (h1 a _ rfl) (h2 b a _ rfl) (h3 c b a t rfl)
  rw [key, List.reverse_reverse]

/-- A value with no white space at either end is left alone by `TrimSpace`. -/
theorem TrimSpace_id (s : Bytes) (h1 : ¬ startsWithSpace s) (h2 : ¬ endsWithSpace s) :
    TrimSpace s = s := by
  unfold TrimSpace
  rw [trimLeft_id s h1, trimRight_id s h2]

/-- `TrimSpace` removes a run of white space at each end and leaves bytes that neither
begin nor end with white space. -/
theorem TrimSpace_spec (s : Bytes) :
    ∃ pre post, s = pre ++ TrimSpace s ++ post ∧ allSpace pre ∧ allSpace post
      ∧ ¬ startsWithSpace (TrimSpace s) ∧ ¬ endsWithSpace (TrimSpace s) := by
  obtain ⟨pre, e1, hp, hn⟩ := trimLeft_spec s
  obtain ⟨q, e2, hq, hn2⟩ := trimLeftRev_spec (trimLeft s).reverse
  have e3 : trimLeft s = TrimSpace s ++ q.reverse := by
    have := congrArg List.reverse e2
    simpa [TrimSpace, trimRight] using this
  refine ⟨pre, q.reverse, ?_, hp, hq, ?_, hn2⟩
  · rw [List.append_assoc, ← e3, ← e1]
  · rintro ⟨r, hr, hpre⟩
    apply hn
    refine ⟨r, hr, ?_⟩
    rw [e3]
    exact hpre.trans (List.prefix_append _ _)

/-! ### parseHeader -/

theorem dropWhile_ne_of_not_mem (s : Bytes) (sep : Nat) (h : sep ∉ s) :
    s.dropWhile (fun c => decide (c ≠ sep)) = [] := by
  induction s with
  | nil => rfl
  | cons a t ih =>
    simp only [List.mem_cons, not_or] at h
    have : a ≠ sep := fun e => h.1 e.symm
    rw [List.dropWhile_cons, if_pos (by simpa using this)]; exact ih h.2

theorem dropWhile_ne_append (a b : Bytes) (sep : Nat) (h : sep ∉ a) :
    (a ++ sep :: b).dropWhile (fun c => decide (c ≠ sep)) = sep :: b := by
  induction a with
  | nil => simp [List.dropWhile_cons]
  | cons c cs ih =>
    simp only [List.mem_cons, not_or] at h
    have : c ≠ sep := fun e => h.1 e.symm
    rw [List.cons_append, List.dropWhile_cons, if_pos (by simpa using this)]; exact ih h.2

theorem takeWhile_ne_append (a b : Bytes) (sep : Nat) (h : sep ∉ a) :
    (a ++ sep :: b).takeWhile (fun c => decide (c ≠ sep)) = a := by
  induction a with
  | nil => simp [List.takeWhile_cons]
  | cons c cs ih =>
    simp only [List.mem_cons, not_or] at h
    have : c ≠ sep := fun e => h.1 e.symm
    rw [List.cons_append, List.takeWhile_cons, if_pos (by simpa using this), ih h.2]

theorem SplitN2_of_not_mem (s : Bytes) (sep : Nat) (h : sep ∉ s) : SplitN2 s sep = [s] := by
  unfold SplitN2; rw [dropWhile_ne_of_not_mem s sep h]

theorem SplitN2_append (a b : Bytes) (sep : Nat) (h : sep ∉ a) :
    SplitN2 (a ++ sep :: b) sep = [a, b] := by
  unfold SplitN2; rw [dropWhile_ne_append a b sep h, takeWhile_ne_append a b sep h]

theorem HasSuffix_space_iff (s : Bytes) : HasSuffix s [32] = true ↔ s.getLast? = some 32 := by
  unfold HasSuffix
  rw [List.getLast?_eq_head?_reverse]
  cases s.reverse with
  | nil => simp [HasPrefix]
  | cons a t => simp [HasPrefix]

theorem parseHeader_no_colon (line : Bytes) (h : 58 ∉ line) :
    parseHeader line = .error .malformedFieldLine := by
  unfold parseHeader; rw [SplitN2_of_not_mem line 58 h]

theorem parseHeader_colon (name rest : Bytes) (h : 58 ∉ name) :
    parseHeader (name ++ 58 :: rest) =
      if name.getLast? = some 32 then .error .malformedFieldName
      else if name = [] then .error .emptyFieldName
      else .ok (name, TrimSpace rest) := by
  unfold parseHeader; rw [SplitN2_append name rest 58 h]
  simp only []
  by_cases h1 : name.getLast? = some 32
  · rw [if_pos ((HasSuffix_space_iff name).2 h1), if_pos h1]
  · rw [if_neg (fun e => h1 ((HasSuffix_space_iff name).1 e)), if_neg h1]
    by_cases h2 : name = []
    · simp [h2]
    · simp [h2]

/-- A line that `parseHeader` accepts is its name, a colon and the rest, and the
returned value is the trimmed rest. -/
theorem parseHeader_ok (line name value : Bytes) (h : parseHeader line = .ok (name, value)) :
    ∃ rest, line = name ++ 58 :: rest ∧ 58 ∉ name ∧ name ≠ [] ∧ value = TrimSpace rest := by
  by_cases hc : 58 ∈ line
  · obtain ⟨a, b, rfl, ha⟩ : ∃ a b, line = a ++ 58 :: b ∧ 58 ∉ a := by
      clear h
      induction line with
      | nil => simp at hc
      | cons c cs ih =>
        by_cases e : c = 58
        · exact ⟨[], cs, by simp [e], by simp⟩
        · have hc2 : 58 ∈ cs := by
            rcases List.mem_cons.1 hc with h | h
            · exact absurd h.symm e
            · exact h
          obtain ⟨a, b, e1, e2⟩ := ih hc2
          refine ⟨c :: a, b, by simp [e1], ?_⟩
          simp only [List.mem_cons, not_or]
          exact ⟨fun h => e h.symm, e2⟩
    rw [parseHeader_colon a b ha] at h
    split at h
    · cases h
    · split at h
      · cases h
      · rename_i h2
        injection h with h
        injection h with h3 h4
        subst h3
        exact ⟨b, rfl, ha, h2, h4.symm⟩
  · rw [parseHeader_no_colon line hc] at h; cases h

/-! ### The header table -/

theorem mapGet_mapPut_same (m : List (Bytes × Bytes)) (k v : Bytes) :
    mapGet (mapPut m k v) k = some v := by
  induction m with
  | nil => simp [mapPut, mapGet]
  | cons p rest ih =>
    obtain ⟨k1, v1⟩ := p
    by_cases h : k1 = k
    · simp [mapPut, mapGet, h]
    · simp [mapPut, mapGet, h, ih]

theorem mapGet_mapPut_ne (m : List (Bytes × Bytes)) (k k2 v : Bytes) (hne : k ≠ k2) :
    mapGet (mapPut m k v) k2 = mapGet m k2 := by
  induction m with
  | nil => simp [mapPut, mapGet, hne]
  | cons p rest ih =>
    obtain ⟨k1, v1⟩ := p
    by_cases h : k1 = k
    · subst h; simp [mapPut, mapGet, hne]
    · by_cases h2 : k1 = k2
      · subst h2; simp [mapPut, mapGet, h]
      · simp [mapPut, mapGet, h, h2, ih]

theorem ascii_comma_space : ascii ", " = [44, 32] := by decide

/-- Lookup after one call: the entry of the call's lower-cased name moves by one step
of the replay, every other entry stays. -/
theorem mapGet_apply (uni : Bytes → Bytes) (h : Headers) (c : Call) (key : Bytes) :
    mapGet (h.apply uni c).headers key =
      if ToLower uni c.name = key then replayStep (mapGet h.headers key) c
      else mapGet h.headers key := by
  cases c with
  | set n v =>
    simp only [Headers.apply, Headers.Set, Call.name]
    by_cases hk : ToLower uni n = key
    · subst hk
      rw [if_pos rfl]
      cases hg : mapGet h.headers (ToLower uni n) with
      | none => simp [replayStep, mapGet_mapPut_same]
      | some old => simp [replayStep, mapGet_mapPut_same, ascii_comma_space]
    · rw [if_neg hk]
      cases hg : mapGet h.headers (ToLower uni n) with
      | none => simp [mapGet_mapPut_ne _ _ _ _ hk]
      | some old => simp [mapGet_mapPut_ne _ _ _ _ hk]
  | override n v =>
    simp only [Headers.apply, Headers.Override, Call.name]
    by_cases hk : ToLower uni n = key
    · subst hk; simp [replayStep, mapGet_mapPut_same]
    · rw [if_neg hk]; exact mapGet_mapPut_ne _ _ _ _ hk

/-- Lookup after a run of calls is the replay of the calls for that key. -/
theorem mapGet_foldl_apply (uni : Bytes → Bytes) (calls : List Call) (h : Headers)
    (key : Bytes) :
    mapGet (calls.foldl (Headers.apply uni) h).headers key =
      (calls.filter (fun c => decide (ToLower uni c.name = key))).foldl replayStep
        (mapGet h.headers key) := by
  induction calls generalizing h with
  | nil => simp
  | cons c cs ih =>
    rw [List.foldl_cons, ih, mapGet_apply, List.filter_cons]
    by_cases hk : ToLower uni c.name = key
    · simp [hk]
    · simp [hk]

/-! ### The request line -/

theorem Index_line (line rest : Bytes) (h : ¬ [13, 10] <:+: line) :
    Index (line ++ 13 :: 10 :: rest) [13, 10] = some line.length :=
  Index_append_crlf line rest ((Index_none_iff line).2 h)

theorem parseRequestLine_bad_count (line rest : Bytes) (hline : ¬ [13, 10] <:+: line)
    (hcount : line.count 32 + 1 ≠ 3) :
    parseRequestLine (line ++ 13 :: 10 :: rest) = ⟨none, 0, some .ErrMalformedRequestLine⟩ := by
  unfold parseRequestLine
  rw [Index_line line rest hline]
  simp only [List.take_left']
  have hl := Split_length line 32
  split
  · rename_i p0 p1 p2 hs
    rw [hs] at hl
    simp at hl
    omega
  · rfl

/-! ### Headers.Parse on a block of lines -/

theorem isToken_name_facts (name : Bytes) (h : isToken name = true) :
    58 ∉ name ∧ name ≠ [] ∧ name.getLast? ≠ some 32 ∧ ¬ [13, 10] <:+: name := by
  obtain ⟨h1, h2⟩ := (isToken_iff_chars name).1 h
  refine ⟨fun hm => (isTokenChar_facts 58 (h2 58 hm)).2.1 rfl, h1, ?_, ?_⟩
  · intro hl
    have : (32 : Nat) ∈ name := List.mem_of_getLast?_eq_some hl
    exact (isTokenChar_facts 32 (h2 32 this)).2.2.1 rfl
  · rintro ⟨a, b, e⟩
    have : (13 : Nat) ∈ name := by rw [← e]; simp
    exact (isTokenChar_facts 13 (h2 13 this)).2.2.2.1 rfl

theorem parseHeader_goodField (f : Bytes × Bytes) (h : goodField f) :
    parseHeader (fieldLine f) = .ok (f.1, TrimSpace f.2) := by
  obtain ⟨h1, h2, h3, _⟩ := isToken_name_facts f.1 h.1
  unfold fieldLine
  rw [parseHeader_colon f.1 f.2 h1, if_neg h3, if_neg h2]

theorem headerBlock_cons (f : Bytes × Bytes) (fs : List (Bytes × Bytes)) :
    headerBlock (f :: fs) = fieldLine f ++ 13 :: 10 :: headerBlock fs := by
  simp [headerBlock]

theorem fieldLine_length_pos (f : Bytes × Bytes) : 0 < (fieldLine f).length := by
  simp [fieldLine]

theorem headerBlock_length (fs : List (Bytes × Bytes)) :
    3 * fs.length ≤ (headerBlock fs).length := by
  induction fs with
  | nil => simp [headerBlock]
  | cons f fs ih =>
    rw [headerBlock_cons]
    have := fieldLine_length_pos f
    simp only [List.length_append, List.length_cons]
    omega

/-- One pass of the loop over a well-formed line. -/
theorem parseLoop_line (uni : Bytes → Bytes) (fuel : Nat) (h : Headers) (f : Bytes × Bytes)
    (tail : Bytes) (read : Nat) (hf : goodField f) :
    Headers.parseLoop uni (fuel + 1) h (fieldLine f ++ 13 :: 10 :: tail) read =
      Headers.parseLoop uni fuel (h.Set uni f.1 (TrimSpace f.2)) tail
        (read + ((fieldLine f).length + 2)) := by
  rw [Headers.parseLoop, Index_line (fieldLine f) tail hf.2]
  have hpos := fieldLine_length_pos f
  simp only [if_neg (Nat.pos_iff_ne_zero.1 hpos), List.take_left', parseHeader_goodField f hf,
    hf.1, Bool.not_true, Bool.false_eq_true, if_false]
  congr 1
  rw [List.drop_append_eq_append_drop]
  simp

/-- The loop over a block of well-formed lines sets each header and goes on with what
follows the block. -/
theorem parseLoop_block (uni : Bytes → Bytes) (fs : List (Bytes × Bytes))
    (hgood : ∀ f ∈ fs, goodField f) (fuel : Nat) (h : Headers) (tail : Bytes) (read : Nat) :
    Headers.parseLoop uni (fuel + fs.length) h (headerBlock fs ++ tail) read =
      Headers.parseLoop uni fuel (setAll uni h fs) tail (read + (headerBlock fs).length) := by
  induction fs generalizing h read with
  | nil => simp [headerBlock, setAll]
  | cons f fs ih =>
    rw [headerBlock_cons, List.length_cons, ← Nat.add_assoc, List.append_assoc,
      List.cons_append, List.cons_append,
      parseLoop_line uni _ h f _ read (hgood f (List.mem_cons_self _ _)),
      ih (fun g hg => hgood g (List.mem_cons_of_mem _ hg))]
    simp only [setAll, List.foldl_cons, List.length_append, List.length_cons]
    congr 1
    omega

/-- Fuel left for `Headers.Parse` after a block of well-formed lines. -/
theorem Parse_block (uni : Bytes → Bytes) (fs : List (Bytes × Bytes))
    (hgood : ∀ f ∈ fs, goodField f) (h : Headers) (tail : Bytes) :
    ∃ fuel, Headers.Parse uni h (headerBlock fs ++ tail) =
      Headers.parseLoop uni (fuel + 1) (setAll uni h fs) tail (headerBlock fs).length := by
  have hlen := headerBlock_length fs
  refine ⟨(headerBlock fs ++ tail).length - fs.length, ?_⟩
  unfold Headers.Parse
  have e : (headerBlock fs ++ tail).length + 1
      = ((headerBlock fs ++ tail).length - fs.length + 1) + fs.length := by
    simp only [List.length_append]; omega
  rw [e, parseLoop_block uni fs hgood]
  simp

theorem parseLoop_no_crlf (uni : Bytes → Bytes) (fuel : Nat) (h : Headers) (tail : Bytes)
    (read : Nat) (ht : ¬ [13, 10] <:+: tail) :
    Headers.parseLoop uni fuel h tail read = ⟨h, read, false, none⟩ := by
  cases fuel with
  | zero => rfl
  | succ k => rw [Headers.parseLoop, (Index_none_iff tail).2 ht]

theorem parseLoop_blank (uni : Bytes → Bytes) (fuel : Nat) (h : Headers) (rest : Bytes)
    (read : Nat) :
    Headers.parseLoop uni (fuel + 1) h (13 :: 10 :: rest) read = ⟨h, read + 2, true, none⟩ := by
  rw [Headers.parseLoop]
  simp [Index_crlf_cons]

theorem parseLoop_bad (uni : Bytes → Bytes) (fuel : Nat) (h : Headers) (bad rest : Bytes)
    (read : Nat) (hne : bad ≠ []) (hcr : ¬ [13, 10] <:+: bad) (hbad : badLine bad) :
    ∃ e, Headers.parseLoop uni (fuel + 1) h (bad ++ 13 :: 10 :: rest) read
      = ⟨h, 0, false, some e⟩ := by
  rw [Headers.parseLoop, Index_line bad rest hcr]
  have hpos : bad.length ≠ 0 := by
    intro e; exact hne (List.length_eq_zero.1 e)
  simp only [if_neg hpos, List.take_left']
  rcases hbad with h1 | ⟨name, r, rfl, h1, h2⟩
  · rw [parseHeader_no_colon bad h1]; exact ⟨_, rfl⟩
  · rw [parseHeader_colon name r h1]
    by_cases hl : name.getLast? = some 32
    · rw [if_pos hl]; exact ⟨_, rfl⟩
    · rw [if_neg hl]
      by_cases hn : name = []
      · rw [if_pos hn]; exact ⟨_, rfl⟩
      · rw [if_neg hn]
        have ht : isToken name = false := by
          rcases h2 with h2 | h2 | h2
          · exact absurd h2 hn
          · exact absurd h2 hl
          · exact h2
        simp only [ht]
        exact ⟨_, rfl⟩

theorem parseLoop_nontoken (uni : Bytes → Bytes) (fuel : Nat) (h : Headers)
    (name r rest : Bytes) (read : Nat) (hcr : ¬ [13, 10] <:+: (name ++ 58 :: r))
    (h1 : 58 ∉ name) (hn : name ≠ []) (hl : name.getLast? ≠ some 32)
    (ht : isToken name = false) :
    Headers.parseLoop uni (fuel + 1) h ((name ++ 58 :: r) ++ 13 :: 10 :: rest) read
      = ⟨h, 0, false, some .malformedHeaderName⟩ := by
  rw [Headers.parseLoop, Index_line _ rest hcr]
  have hpos : (name ++ 58 :: r).length ≠ 0 := by simp
  simp only [if_neg hpos, List.take_left']
  rw [parseHeader_colon name r h1, if_neg hl, if_neg hn]
  simp only [ht]
  rfl

theorem headerBlock_ends (fs : List (Bytes × Bytes)) (hne : fs ≠ []) :
    ∃ pre, headerBlock fs = pre ++ [13, 10] := by
  induction fs with
  | nil => exact absurd rfl hne
  | cons f fs ih =>
    rw [headerBlock_cons]
    cases fs with
    | nil => exact ⟨fieldLine f, by simp [headerBlock]⟩
    | cons g gs =>
      obtain ⟨pre, e⟩ := ih (by simp)
      exact ⟨fieldLine f ++ 13 :: 10 :: pre, by rw [e]; simp⟩

/-- No CRLF of `block ++ tail` ends beyond the block when the block is empty or ends
in CRLF and the tail holds no CRLF. -/
theorem crlf_before_tail (block tail pre post : Bytes)
    (hb : block = [] ∨ ∃ p, block = p ++ [13, 10]) (ht : ¬ [13, 10] <:+: tail)
    (e : block ++ tail = pre ++ 13 :: 10 :: post) : pre.length + 2 ≤ block.length := by
  by_contra hlt
  rcases List.append_eq_append_iff.1 e with ⟨a, e1, e2⟩ | ⟨c, e1, e2⟩
  · -- pre = block ++ a, tail = a ++ 13 :: 10 :: post
    exact ht ⟨a, post, by simp [e2]⟩
  · -- block = pre ++ c, 13 :: 10 :: post = c ++ tail
    cases c with
    | nil => simp at e2; exact ht ⟨[], post, by simp [← e2]⟩
    | cons x c =>
      cases c with
      | nil =>
        simp at e2
        rcases hb with hb | ⟨p, hb⟩
        · rw [hb] at e1; simp at e1
        · rw [hb] at e1
          have := congrArg List.getLast? e1
          simp at this
          omega
      | cons y c =>
        apply hlt
        rw [e1]; simp

/-! ### The loop of Headers.Parse without fuel -/

theorem Headers.parseLoop_read (uni : Bytes → Bytes) (fuel : Nat) (h : Headers) (rest : Bytes)
    (read : Nat) :
    Headers.parseLoop uni fuel h rest read = (Headers.parseLoop uni fuel h rest 0).shift read := by
  induction fuel generalizing h rest read with
  | zero => simp [Headers.parseLoop, ParseResult.shift]
  | succ k ih =>
    rw [Headers.parseLoop, Headers.parseLoop]
    cases hI : Index rest [13, 10] with
    | none => simp [ParseResult.shift]
    | some idx =>
      simp only []
      by_cases h0 : idx = 0
      · simp [h0, ParseResult.shift]
      · simp only [if_neg h0]
        cases hp : parseHeader (rest.take idx) with
        | error e => simp [ParseResult.shift]
        | ok nv =>
          obtain ⟨name, value⟩ := nv
          simp only []
          by_cases ht : isToken name = true
          · simp only [ht, Bool.not_true, Bool.false_eq_true, if_false]
            rw [ih _ _ (read + (idx + 2)), ih _ _ (0 + (idx + 2))]
            simp only [ParseResult.shift]
            cases (Headers.parseLoop uni k (h.Set uni name value)
              (List.drop (idx + 2) rest) 0).err with
            | none => simp; omega
            | some e => simp
          · simp [ht, ParseResult.shift]

theorem Headers.parseLoop_fuel_succ (uni : Bytes → Bytes) (fuel : Nat) (h : Headers)
    (rest : Bytes) (read : Nat) (hf : rest.length < fuel) :
    Headers.parseLoop uni (fuel + 1) h rest read = Headers.parseLoop uni fuel h rest read := by
  induction fuel generalizing h rest read with
  | zero => omega
  | succ k ih =>
    rw [Headers.parseLoop, Headers.parseLoop]
    cases hI : Index rest [13, 10] with
    | none => rfl
    | some idx =>
      simp only []
      by_cases h0 : idx = 0
      · simp [h0]
      · simp only [if_neg h0]
        cases hp : parseHeader (rest.take idx) with
        | error e => rfl
        | ok nv =>
          obtain ⟨name, value⟩ := nv
          simp only []
          by_cases ht : isToken name = true
          · simp only [ht, Bool.not_true, Bool.false_eq_true, if_false]
            apply ih
            simp only [List.length_drop]
            have := (Index_some_split rest idx hI).2.1
            omega
          · simp [ht]

theorem Headers.parseLoop_fuel (uni : Bytes → Bytes) (fuel : Nat) (h : Headers)
    (rest : Bytes) (read : Nat) (hf : rest.length < fuel) :
    Headers.parseLoop uni fuel h rest read
      = Headers.parseLoop uni (rest.length + 1) h rest read := by
  obtain ⟨d, rfl⟩ : ∃ d, fuel = rest.length + 1 + d := ⟨fuel - (rest.length + 1), by omega⟩
  clear hf
  induction d with
  | zero => rfl
  | succ d ih =>
    rw [← Nat.add_assoc, Headers.parseLoop_fuel_succ uni _ h rest read (by omega), ih]

/-- `Headers.Parse` unfolded by one pass of its loop. -/
theorem Headers.Parse_eq (uni : Bytes → Bytes) (h : Headers) (data : Bytes) :
    Headers.Parse uni h data =
      match Index data [13, 10] with
      | none => ⟨h, 0, false, none⟩
      | some idx =>
        if idx = 0 then ⟨h, 2, true, none⟩
        else match parseHeader (data.take idx) with
          | .error e => ⟨h, 0, false, some e⟩
          | .ok (name, value) =>
            if !isToken name then ⟨h, 0, false, some .malformedHeaderName⟩
            else (Headers.Parse uni (h.Set uni name value) (data.drop (idx + 2))).shift (idx + 2) := by
  unfold Headers.Parse
  rw [Headers.parseLoop]
  cases hI : Index data [13, 10] with
  | none => rfl
  | some idx =>
    simp only []
    by_cases h0 : idx = 0
    · simp [h0]
    · simp only [if_neg h0]
      cases hp : parseHeader (data.take idx) with
      | error e => rfl
      | ok nv =>
        obtain ⟨name, value⟩ := nv
        simp only []
        by_cases ht : isToken name = true
        · simp only [ht, Bool.not_true, Bool.false_eq_true, if_false]
          rw [Headers.parseLoop_read, Headers.parseLoop_fuel]
          · simp
          · simp only [List.length_drop]
            have := (Index_some_split data idx hI).2.1
            omega
        · simp [ht]

/-- Induction along the passes of `Headers.Parse`. -/
theorem Headers.Parse_induct (uni : Bytes → Bytes) (P : Headers → Bytes → ParseResult → Prop)
    (hnone : ∀ h d, Index d [13, 10] = none → P h d ⟨h, 0, false, none⟩)
    (hblank : ∀ h d, Index d [13, 10] = some 0 → P h d ⟨h, 2, true, none⟩)
    (herr : ∀ h d idx e, Index d [13, 10] = some idx → idx ≠ 0 →
      parseHeader (d.take idx) = .error e → P h d ⟨h, 0, false, some e⟩)
    (htok : ∀ h d idx name value, Index d [13, 10] = some idx → idx ≠ 0 →
      parseHeader (d.take idx) = .ok (name, value) → isToken name = false →
      P h d ⟨h, 0, false, some .malformedHeaderName⟩)
    (hstep : ∀ h d idx name value, Index d [13, 10] = some idx → idx ≠ 0 →
      parseHeader (d.take idx) = .ok (name, value) → isToken name = true →
      P (h.Set uni name value) (d.drop (idx + 2))
        (Headers.Parse uni (h.Set uni name value) (d.drop (idx + 2))) →
      P h d ((Headers.Parse uni (h.Set uni name value) (d.drop (idx + 2))).shift (idx + 2)))
    (h : Headers) (d : Bytes) : P h d (Headers.Parse uni h d) := by
  generalize hn : d.length = n
  induction n using Nat.strong_induction_on generalizing h d with
  | _ n ih =>
    subst hn
    rw [Headers.Parse_eq]
    cases hI : Index d [13, 10] with
    | none => exact hnone h d hI
    | some idx =>
      simp only []
      by_cases h0 : idx = 0
      · subst h0; simp only [if_true]; exact hblank h d hI
      · simp only [if_neg h0]
        cases hp : parseHeader (d.take idx) with
        | error e => exact herr h d idx e hI h0 hp
        | ok nv =>
          obtain ⟨name, value⟩ := nv
          simp only []
          by_cases ht : isToken name = true
          · simp only [ht, Bool.not_true, Bool.false_eq_true, if_false]
            apply hstep h d idx name value hI h0 hp ht
            have := (Index_some_split d idx hI).2.1
            exact ih (d.drop (idx + 2)).length (by simp only [List.length_drop]; omega) _ _ rfl
          · have ht2 : isToken name = false := by simpa using ht
            simp only [ht2, Bool.not_false, if_true]
            exact htok h d idx name value hI h0 hp ht2

/-- What `Headers.Parse` returns: at most the buffer is consumed; an error comes with
0 bytes and `done = false`; `done` comes with at least the blank line consumed; a
call that stops short leaves no CRLF unconsumed; a call that consumes nothing leaves
the table alone. -/
theorem Headers.Parse_facts (uni : Bytes → Bytes) (h : Headers) (d : Bytes) :
    (Headers.Parse uni h d).bytesRead ≤ d.length ∧
    ((Headers.Parse uni h d).err ≠ none →
      (Headers.Parse uni h d).bytesRead = 0 ∧ (Headers.Parse uni h d).done = false) ∧
    ((Headers.Parse uni h d).done = true → 2 ≤ (Headers.Parse uni h d).bytesRead) ∧
    ((Headers.Parse uni h d).err = none → (Headers.Parse uni h d).done = false →
      Index (d.drop (Headers.Parse uni h d).bytesRead) [13, 10] = none) ∧
    ((Headers.Parse uni h d).err = none → (Headers.Parse uni h d).bytesRead = 0 →
      (Headers.Parse uni h d).table = h) := by
  refine Headers.Parse_induct uni
    (fun h d res => res.bytesRead ≤ d.length ∧
      (res.err ≠ none → res.bytesRead = 0 ∧ res.done = false) ∧
      (res.done = true → 2 ≤ res.bytesRead) ∧
      (res.err = none → res.done = false → Index (d.drop res.bytesRead) [13, 10] = none) ∧
      (res.err = none → res.bytesRead = 0 → res.table = h)) ?_ ?_ ?_ ?_ ?_ h d
  · intro h d hI
    simp [hI]
  · intro h d hI
    have := (Index_some_split d 0 hI).2.1
    simp; omega
  · intro h d idx e hI h0 hp
    simp
  · intro h d idx name value hI h0 hp ht
    simp
  · intro h d idx name value hI h0 hp ht ⟨i1, i2, i3, i4, i5⟩
    have hlen := (Index_some_split d idx hI).2.1
    simp only [ParseResult.shift]
    cases he : (Headers.Parse uni (h.Set uni name value) (List.drop (idx + 2) d)).err with
    | some e =>
      have := i2 (by rw [he]; simp)
      simp [this]
    | none =>
      simp only [List.length_drop] at i1
      refine ⟨by simp only []; omega, by simp, ?_, ?_, ?_⟩
      · intro hd; simp only []; omega
      · intro _ hd
        have := i4 he hd
        simp only [List.drop_drop] at this
        simp only []
        exact this
      · intro _ hz
        simp only [] at hz
        omega

theorem ParseResult.shift_shift (a b : Nat) (s : ParseResult) :
    (s.shift b).shift a = s.shift (a + b) := by
  unfold ParseResult.shift
  cases s.err with
  | none => simp; omega
  | some e => simp

theorem Headers.Parse_shift_zero (uni : Bytes → Bytes) (h : Headers) (d : Bytes) :
    (Headers.Parse uni h d).shift 0 = Headers.Parse uni h d := by
  have hf := (Headers.Parse_facts uni h d).2.1
  unfold ParseResult.shift
  cases he : (Headers.Parse uni h d).err with
  | none => simp [← he]
  | some e =>
    have := (hf (by rw [he]; simp)).1
    simp only []
    rw [← this, ← he]

/-- Reading on: `Headers.Parse` on `d1 ++ d2` against `Headers.Parse` on `d1`.  An
error or the end of the headers found in `d1` stands; otherwise the call on the longer
buffer does what a second call on the remainder and `d2` does. -/
theorem Headers.Parse_append (uni : Bytes → Bytes) (d2 : Bytes) (h : Headers) (d1 : Bytes) :
    (((Headers.Parse uni h d1).err ≠ none ∨ (Headers.Parse uni h d1).done = true) →
      Headers.Parse uni h (d1 ++ d2) = Headers.Parse uni h d1) ∧
    ((Headers.Parse uni h d1).err = none → (Headers.Parse uni h d1).done = false →
      Headers.Parse uni h (d1 ++ d2) =
        (Headers.Parse uni (Headers.Parse uni h d1).table
          (d1.drop (Headers.Parse uni h d1).bytesRead ++ d2)).shift
          (Headers.Parse uni h d1).bytesRead) := by
  refine Headers.Parse_induct uni
    (fun h d1 res =>
      ((res.err ≠ none ∨ res.done = true) → Headers.Parse uni h (d1 ++ d2) = res) ∧
      (res.err = none → res.done = false →
        Headers.Parse uni h (d1 ++ d2) =
          (Headers.Parse uni res.table (d1.drop res.bytesRead ++ d2)).shift res.bytesRead))
    ?_ ?_ ?_ ?_ ?_ h d1
  · intro h d hI
    refine ⟨by simp, fun _ _ => ?_⟩
    simp only [List.drop_zero]
    rw [Headers.Parse_shift_zero]
  · intro h d hI
    refine ⟨fun _ => ?_, by simp⟩
    rw [Headers.Parse_eq, Index_append_of_some d d2 0 hI]
    simp
  · intro h d idx e hI h0 hp
    refine ⟨fun _ => ?_, by simp⟩
    have hlen := (Index_some_split d idx hI).2.1
    rw [Headers.Parse_eq, Index_append_of_some d d2 idx hI]
    simp only [if_neg h0, List.take_append_of_le_length (show idx ≤ d.length by omega), hp]
  · intro h d idx name value hI h0 hp ht
    refine ⟨fun _ => ?_, by simp⟩
    have hlen := (Index_some_split d idx hI).2.1
    rw [Headers.Parse_eq, Index_append_of_some d d2 idx hI]
    simp only [if_neg h0, List.take_append_of_le_length (show idx ≤ d.length by omega), hp, ht]
    simp
  · intro h d idx name value hI h0 hp ht ⟨i1, i2⟩
    have hlen := (Index_some_split d idx hI).2.1
    have e0 : Headers.Parse uni h (d ++ d2)
        = (Headers.Parse uni (h.Set uni name value) (d.drop (idx + 2) ++ d2)).shift (idx + 2) := by
      rw [Headers.Parse_eq, Index_append_of_some d d2 idx hI]
      simp only [if_neg h0, List.take_append_of_le_length (show idx ≤ d.length by omega), hp, ht]
      simp only [Bool.not_true, Bool.false_eq_true, if_false]
      rw [List.drop_append_of_le_length hlen]
    constructor
    · intro hc
      rw [e0, i1]
      simpa [ParseResult.shift] using hc
    · intro he hd
      have he' : (Headers.Parse uni (h.Set uni name value) (d.drop (idx + 2))).err = none := by
        simpa [ParseResult.shift] using he
      have hd' : (Headers.Parse uni (h.Set uni name value) (d.drop (idx + 2))).done = false := by
        simpa [ParseResult.shift] using hd
      rw [e0, i2 he' hd', ParseResult.shift_shift]
      simp only [ParseResult.shift, he', List.drop_drop]

/-! ### The driver loop without fuel -/

theorem StepResult.shift_add (a b : Nat) (s : StepResult) :
    (s.shift b).shift a = s.shift (a + b) := by
  unfold StepResult.shift
  cases s.err with
  | none => simp; omega
  | some e => simp

theorem parseRequestLine_n_le (b : Bytes) : (parseRequestLine b).n ≤ b.length := by
  unfold parseRequestLine
  cases hI : Index b [13, 10] with
  | none => simp
  | some idx =>
    have := (Index_some_split b idx hI).2.1
    simp only []
    split
    · split
      · split
        · simp
        · simpa using this
      · simp
    · simp

/-- A parser step consumes at most the bytes offered. -/
theorem Request.parseSingle_n_le (uni : Bytes → Bytes) (r : Request) (data : Bytes) :
    (r.parseSingle uni data).n ≤ data.length := by
  unfold Request.parseSingle
  split
  · simp
  · simp only []
    split
    · simp
    · split
      · simp
      · split
        · exact parseRequestLine_n_le data
        · simp
  · simp only []
    split
    · simp
    · split
      · exact (Headers.Parse_facts uni _ data).1
      · exact (Headers.Parse_facts uni _ data).1
  · simp only []
    split
    · simp
    · split
      · simp
      · split
        · simp
        · split <;> simp
  · simp

theorem Request.parseLoop_total (uni : Bytes → Bytes) (fuel : Nat) (r : Request) (rest : Bytes)
    (total : Nat) :
    Request.parseLoop uni fuel r rest total = (Request.parseLoop uni fuel r rest 0).shift total := by
  induction fuel generalizing r rest total with
  | zero => simp [Request.parseLoop, StepResult.shift]
  | succ k ih =>
    rw [Request.parseLoop, Request.parseLoop]
    by_cases hd : r.state = StateDone
    · simp [hd, StepResult.shift]
    · simp only [if_neg hd]
      cases he : (r.parseSingle uni rest).err with
      | some e => simp [StepResult.shift]
      | none =>
        simp only []
        by_cases h0 : (r.parseSingle uni rest).n = 0
        · simp [h0, StepResult.shift]
        · simp only [if_neg h0]
          rw [ih _ _ (total + _), ih _ _ (0 + _), StepResult.shift_add]
          congr 1
          omega

theorem Request.driverLoop_fuel_succ (uni : Bytes → Bytes) (fuel : Nat) (r : Request)
    (rest : Bytes) (total : Nat) (hf : rest.length < fuel) :
    Request.parseLoop uni (fuel + 1) r rest total = Request.parseLoop uni fuel r rest total := by
  induction fuel generalizing r rest total with
  | zero => omega
  | succ k ih =>
    rw [Request.parseLoop, Request.parseLoop]
    by_cases hd : r.state = StateDone
    · simp [hd]
    · simp only [if_neg hd]
      cases he : (r.parseSingle uni rest).err with
      | some e => rfl
      | none =>
        simp only []
        by_cases h0 : (r.parseSingle uni rest).n = 0
        · simp [h0]
        · simp only [if_neg h0]
          apply ih
          have := Request.parseSingle_n_le uni r rest
          simp only [List.length_drop]
          omega

theorem Request.driverLoop_fuel (uni : Bytes → Bytes) (fuel : Nat) (r : Request)
    (rest : Bytes) (total : Nat) (hf : rest.length < fuel) :
    Request.parseLoop uni fuel r rest total
      = Request.parseLoop uni (rest.length + 1) r rest total := by
  obtain ⟨d, rfl⟩ : ∃ d, fuel = rest.length + 1 + d := ⟨fuel - (rest.length + 1), by omega⟩
  clear hf
  induction d with
  | zero => rfl
  | succ d ih =>
    rw [← Nat.add_assoc, Request.driverLoop_fuel_succ uni _ r rest total (by omega), ih]

/-- `Request.parse` unfolded by one pass of its loop. -/
theorem Request.parse_eq (uni : Bytes → Bytes) (r : Request) (data : Bytes) :
    r.parse uni data =
      if r.state = StateDone then ⟨r, 0, none⟩
      else match (r.parseSingle uni data).err with
        | some e => ⟨(r.parseSingle uni data).req, 0, some e⟩
        | none =>
          if (r.parseSingle uni data).n = 0 then ⟨(r.parseSingle uni data).req, 0, none⟩
          else ((r.parseSingle uni data).req.parse uni
            (data.drop (r.parseSingle uni data).n)).shift (r.parseSingle uni data).n := by
  unfold Request.parse
  rw [Request.parseLoop]
  by_cases hd : r.state = StateDone
  · simp [hd]
  · simp only [if_neg hd]
    cases he : (r.parseSingle uni data).err with
    | some e => rfl
    | none =>
      simp only []
      by_cases h0 : (r.parseSingle uni data).n = 0
      · simp [h0]
      · simp only [if_neg h0]
        rw [Request.parseLoop_total, Request.driverLoop_fuel]
        · simp
        · have := Request.parseSingle_n_le uni r data
          simp only [List.length_drop]
          omega

theorem Request.parseLoop_err_n (uni : Bytes → Bytes) (fuel : Nat) (r : Request) (rest : Bytes)
    (total : Nat) (he : (Request.parseLoop uni fuel r rest total).err ≠ none) :
    (Request.parseLoop uni fuel r rest total).n = 0 := by
  induction fuel generalizing r rest total with
  | zero => simp [Request.parseLoop] at he
  | succ k ih =>
    rw [Request.parseLoop] at he ⊢
    by_cases hd : r.state = StateDone
    · simp [hd] at he
    · simp only [if_neg hd] at he ⊢
      cases hs : (r.parseSingle uni rest).err with
      | some e => simp
      | none =>
        simp only [hs] at he ⊢
        by_cases h0 : (r.parseSingle uni rest).n = 0
        · simp [h0] at he
        · simp only [if_neg h0] at he ⊢
          exact ih _ _ _ he

theorem Request.parse_shift_zero (uni : Bytes → Bytes) (r : Request) (d : Bytes) :
    (r.parse uni d).shift 0 = r.parse uni d := by
  unfold StepResult.shift
  cases he : (r.parse uni d).err with
  | none => simp [← he]
  | some e =>
    have := Request.parseLoop_err_n uni (d.length + 1) r d 0 (by
      have : (r.parse uni d).err ≠ none := by rw [he]; simp
      exact this)
    simp only []
    have h2 : (r.parse uni d).n = 0 := this
    rw [← h2, ← he]

/-- The driver on a request that is done. -/
theorem Request.parse_done (uni : Bytes → Bytes) (r : Request) (d : Bytes)
    (hs : r.state = StateDone) : r.parse uni d = ⟨r, 0, none⟩ := by
  rw [Request.parse_eq, if_pos hs]

/-- The step in state Body. -/
theorem Request.parseSingle_body (uni : Bytes → Bytes) (r : Request) (d : Bytes)
    (hs : r.state = StateBody) :
    r.parseSingle uni d =
      if r.Headers.Get uni (ascii "Content-Length") = [] then
        ⟨{ r with state := StateDone }, 0, none⟩
      else match Atoi (r.Headers.Get uni (ascii "Content-Length")) with
        | .error e => ⟨r, 0, some (.invalidContentLength e)⟩
        | .ok cl =>
          if ((r.Body ++ d).length : Int) > cl then
            ⟨{ r with Body := r.Body ++ d }, 0, some .ErrBodyTooLarge⟩
          else if ((r.Body ++ d).length : Int) = cl then
            ⟨{ r with Body := r.Body ++ d, state := StateDone }, d.length, none⟩
          else ⟨{ r with Body := r.Body ++ d }, d.length, none⟩ := by
  unfold Request.parseSingle
  rw [hs]

/-- The step in state Headers. -/
theorem Request.parseSingle_headers (uni : Bytes → Bytes) (r : Request) (d : Bytes)
    (hs : r.state = StateHeaders) :
    r.parseSingle uni d =
      match (r.Headers.Parse uni d).err with
      | some e => ⟨{ r with Headers := (r.Headers.Parse uni d).table }, 0, some e⟩
      | none =>
        if (r.Headers.Parse uni d).done = true then
          ⟨{ r with Headers := (r.Headers.Parse uni d).table, state := StateBody },
            (r.Headers.Parse uni d).bytesRead, none⟩
        else ⟨{ r with Headers := (r.Headers.Parse uni d).table },
          (r.Headers.Parse uni d).bytesRead, none⟩ := by
  unfold Request.parseSingle
  rw [hs]

/-- The step in state Init. -/
theorem Request.parseSingle_init (uni : Bytes → Bytes) (r : Request) (d : Bytes)
    (hs : r.state = StateInit) :
    r.parseSingle uni d =
      match (parseRequestLine d).err with
      | some e => ⟨r, 0, some e⟩
      | none =>
        if (parseRequestLine d).n = 0 then ⟨r, 0, none⟩
        else match (parseRequestLine d).rl with
          | some rl => ⟨{ r with RequestLine := rl, state := StateHeaders },
              (parseRequestLine d).n, none⟩
          | none => ⟨r, 0, none⟩ := by
  unfold Request.parseSingle
  rw [hs]

/-- The driver in state Body, in closed form. -/
theorem Request.parse_body (uni : Bytes → Bytes) (r : Request) (d : Bytes)
    (hs : r.state = StateBody) :
    r.parse uni d =
      if r.Headers.Get uni (ascii "Content-Length") = [] then
        ⟨{ r with state := StateDone }, 0, none⟩
      else match Atoi (r.Headers.Get uni (ascii "Content-Length")) with
        | .error e => ⟨r, 0, some (.invalidContentLength e)⟩
        | .ok cl =>
          if ((r.Body ++ d).length : Int) > cl then
            ⟨{ r with Body := r.Body ++ d }, 0, some .ErrBodyTooLarge⟩
          else if ((r.Body ++ d).length : Int) = cl then
            ⟨{ r with Body := r.Body ++ d, state := StateDone }, d.length, none⟩
          else ⟨{ r with Body := r.Body ++ d }, d.length, none⟩ := by
  have hnd : r.state ≠ StateDone := by rw [hs]; simp
  rw [Request.parse_eq, if_neg hnd, Request.parseSingle_body uni r d hs]
  by_cases hg : r.Headers.Get uni (ascii "Content-Length") = []
  · simp only [if_pos hg, if_true]
  · simp only [if_neg hg]
    cases ha : Atoi (r.Headers.Get uni (ascii "Content-Length")) with
    | error e => rfl
    | ok cl =>
      simp only []
      by_cases h1 : ((r.Body ++ d).length : Int) > cl
      · simp only [if_pos h1]
      · simp only [if_neg h1]
        by_cases h2 : ((r.Body ++ d).length : Int) = cl
        · simp only [if_pos h2]
          by_cases h0 : d.length = 0
          · simp only [h0, if_true]
          · simp only [if_neg h0, List.drop_length]
            rw [Request.parse_done uni _ _ rfl]
            simp only [StepResult.shift, Nat.add_zero]
        · simp only [if_neg h2]
          by_cases h0 : d.length = 0
          · simp only [h0, if_true]
          · simp only [if_neg h0, List.drop_length]
            rw [Request.parse_eq]
            have hnd2 : ({ r with Body := r.Body ++ d } : Request).state ≠ StateDone := hnd
            have hs2 : ({ r with Body := r.Body ++ d } : Request).state = StateBody := hs
            rw [if_neg hnd2, Request.parseSingle_body uni _ [] hs2]
            simp only [if_neg hg, ha, List.append_nil, if_neg h1, if_neg h2]
            simp only [List.length_nil, if_true, StepResult.shift, Nat.add_zero]

/-- The driver in state Headers, in terms of `Headers.Parse`. -/
theorem Request.parse_headers (uni : Bytes → Bytes) (r : Request) (d : Bytes)
    (hs : r.state = StateHeaders) :
    r.parse uni d =
      match (r.Headers.Parse uni d).err with
      | some e => ⟨{ r with Headers := (r.Headers.Parse uni d).table }, 0, some e⟩
      | none =>
        if (r.Headers.Parse uni d).done = true then
          (({ r with Headers := (r.Headers.Parse uni d).table, state := StateBody } :
            Request).parse uni (d.drop (r.Headers.Parse uni d).bytesRead)).shift
            (r.Headers.Parse uni d).bytesRead
        else ⟨{ r with Headers := (r.Headers.Parse uni d).table },
          (r.Headers.Parse uni d).bytesRead, none⟩ := by
  have hnd : r.state ≠ StateDone := by rw [hs]; simp
  have hf := Headers.Parse_facts uni r.Headers d
  rw [Request.parse_eq, if_neg hnd, Request.parseSingle_headers uni r d hs]
  cases he : (r.Headers.Parse uni d).err with
  | some e => rfl
  | none =>
    simp only []
    by_cases hd : (r.Headers.Parse uni d).done = true
    · have h2 := hf.2.2.1 hd
      have hn0 : (r.Headers.Parse uni d).bytesRead ≠ 0 := by omega
      simp only [hd, if_true, if_neg hn0]
    · have hd' : (r.Headers.Parse uni d).done = false := by simpa using hd
      simp only [hd', Bool.false_eq_true, if_false]
      by_cases h0 : (r.Headers.Parse uni d).bytesRead = 0
      · simp only [h0, if_true]
      · simp only [if_neg h0]
        rw [Request.parse_eq]
        have hnd2 : ({ r with Headers := (r.Headers.Parse uni d).table } : Request).state
            ≠ StateDone := hnd
        rw [if_neg hnd2]
        have hI := hf.2.2.2.1 he hd'
        have hp : Headers.Parse uni (r.Headers.Parse uni d).table
            (d.drop (r.Headers.Parse uni d).bytesRead)
            = ⟨(r.Headers.Parse uni d).table, 0, false, none⟩ := by
          rw [Headers.Parse_eq, hI]
        have hs2 : ({ r with Headers := (r.Headers.Parse uni d).table } : Request).state
            = StateHeaders := hs
        rw [Request.parseSingle_headers uni _ _ hs2]
        simp only [hp, Bool.false_eq_true, if_false, if_true, StepResult.shift, Nat.add_zero]

/-! ### Reading on: the driver on a longer buffer -/

theorem MergeSpec.shift (uni : Bytes → Bytes) (a m : StepResult) (d1 d2 : Bytes) (k : Nat)
    (hk : k ≤ d1.length) (h : MergeSpec uni a m (d1.drop k) d2) :
    MergeSpec uni (a.shift k) (m.shift k) d1 d2 := by
  obtain ⟨h0, h1, h2, h3⟩ := h
  simp only [List.length_drop] at h0
  refine ⟨?_, ?_, ?_, ?_⟩
  · unfold StepResult.shift
    cases a.err with
    | none => simp only []; omega
    | some e => simp
  · intro e he
    have : a.err = some e := by simpa [StepResult.shift] using he
    simpa [StepResult.shift] using h1 e this
  · intro he hs
    have he' : a.err = none := by simpa [StepResult.shift] using he
    have hs' : a.req.state ≠ StateDone := by simpa [StepResult.shift] using hs
    rw [h2 he' hs', StepResult.shift_add]
    simp only [StepResult.shift, he', List.drop_drop]
  · intro he hs
    have he' : a.err = none := by simpa [StepResult.shift] using he
    have hs' : a.req.state = StateDone := by simpa [StepResult.shift] using hs
    rcases h3 he' hs' with h | h
    · left; rw [h]
    · right; simpa [StepResult.shift] using h

/-- Reading on in state Body. -/
theorem Request.parse_append_body (uni : Bytes → Bytes) (r : Request) (d1 d2 : Bytes)
    (hs : r.state = StateBody) :
    MergeSpec uni (r.parse uni d1) (r.parse uni (d1 ++ d2)) d1 d2 := by
  rw [Request.parse_body uni r d1 hs, Request.parse_body uni r (d1 ++ d2) hs]
  by_cases hg : r.Headers.Get uni (ascii "Content-Length") = []
  · simp only [if_pos hg]
    exact ⟨Nat.zero_le _, by simp, by simp, fun _ _ => Or.inl rfl⟩
  · simp only [if_neg hg]
    cases ha : Atoi (r.Headers.Get uni (ascii "Content-Length")) with
    | error e => exact ⟨Nat.zero_le _, by simp, by simp, by simp⟩
    | ok cl =>
      simp only []
      have hlen : ((r.Body ++ (d1 ++ d2)).length : Int)
          = ((r.Body ++ d1).length : Int) + (d2.length : Int) := by
        simp only [List.length_append]; push_cast; ring
      by_cases h1 : ((r.Body ++ d1).length : Int) > cl
      · have h1' : ((r.Body ++ (d1 ++ d2)).length : Int) > cl := by rw [hlen]; omega
        simp only [if_pos h1, if_pos h1']
        exact ⟨Nat.zero_le _, by simp, by simp, by simp⟩
      · simp only [if_neg h1]
        by_cases h2 : ((r.Body ++ d1).length : Int) = cl
        · simp only [if_pos h2]
          refine ⟨Nat.le_refl _, by simp, by simp [hs], fun _ _ => ?_⟩
          cases d2 with
          | nil =>
            left
            simp only [List.append_nil, if_neg h1, if_pos h2]
          | cons x t =>
            right
            have h1' : ((r.Body ++ (d1 ++ x :: t)).length : Int) > cl := by
              rw [hlen]; simp only [List.length_cons]; push_cast; omega
            simp only [if_pos h1']
        · simp only [if_neg h2]
          refine ⟨Nat.le_refl _, by simp, fun _ _ => ?_, ?_⟩
          · have hs2 : ({ r with Body := r.Body ++ d1 } : Request).state = StateBody := hs
            simp only [List.drop_length, List.nil_append]
            rw [Request.parse_body uni _ d2 hs2]
            simp only [if_neg hg, ha, List.append_assoc]
            by_cases h3 : ((r.Body ++ (d1 ++ d2)).length : Int) > cl
            · simp only [if_pos h3, StepResult.shift]
            · simp only [if_neg h3]
              by_cases h4 : ((r.Body ++ (d1 ++ d2)).length : Int) = cl
              · simp only [if_pos h4, StepResult.shift]
                simp
              · simp only [if_neg h4, StepResult.shift]
                simp
          · intro _ hd
            simp only [hs] at hd
            cases hd

/-- Reading on in state Headers. -/
theorem Request.parse_append_headers (uni : Bytes → Bytes) (r : Request) (d1 d2 : Bytes)
    (hs : r.state = StateHeaders) :
    MergeSpec uni (r.parse uni d1) (r.parse uni (d1 ++ d2)) d1 d2 := by
  have hf := Headers.Parse_facts uni r.Headers d1
  have hm := Headers.Parse_append uni d2 r.Headers d1
  rw [Request.parse_headers uni r d1 hs, Request.parse_headers uni r (d1 ++ d2) hs]
  cases he : (r.Headers.Parse uni d1).err with
  | some e =>
    have e1 := hm.1 (Or.inl (by rw [he]; simp))
    rw [e1, he]
    exact ⟨Nat.zero_le _, by simp, by simp, by simp⟩
  | none =>
    by_cases hd : (r.Headers.Parse uni d1).done = true
    · have e1 := hm.1 (Or.inr hd)
      rw [e1, he]
      simp only [hd, if_true]
      rw [List.drop_append_of_le_length hf.1]
      apply MergeSpec.shift uni _ _ d1 d2 _ hf.1
      exact Request.parse_append_body uni _ _ _ rfl
    · have hd' : (r.Headers.Parse uni d1).done = false := by simpa using hd
      have e1 := hm.2 he hd'
      simp only [hd', Bool.false_eq_true, if_false]
      refine ⟨hf.1, by simp, fun _ _ => ?_, fun _ hdone => ?_⟩
      · simp only []
        have hs2 : ({ r with Headers := (r.Headers.Parse uni d1).table } : Request).state
            = StateHeaders := hs
        rw [Request.parse_headers uni _ _ hs2, e1]
        simp only []
        generalize Headers.Parse uni (r.Headers.Parse uni d1).table
          (List.drop (r.Headers.Parse uni d1).bytesRead d1 ++ d2) = q2
        cases he2 : q2.err with
        | some e => simp [ParseResult.shift, StepResult.shift, he2]
        | none =>
          by_cases hd2 : q2.done = true
          · simp only [ParseResult.shift, he2, hd2, if_true, StepResult.shift_add]
            rw [← List.drop_drop, List.drop_append_of_le_length hf.1]
          · have hd2' : q2.done = false := by simpa using hd2
            simp [ParseResult.shift, StepResult.shift, he2, hd2']
      · simp only [hs] at hdone
        cases hdone

theorem parseRequestLine_append (d1 d2 : Bytes) (idx : Nat)
    (hI : Index d1 [13, 10] = some idx) :
    parseRequestLine (d1 ++ d2) = parseRequestLine d1 := by
  have hlen := (Index_some_split d1 idx hI).2.1
  unfold parseRequestLine
  rw [Index_append_of_some d1 d2 idx hI, hI]
  simp only [List.take_append_of_le_length (show idx ≤ d1.length by omega)]

theorem parseRequestLine_some (d : Bytes) (idx : Nat) (hI : Index d [13, 10] = some idx) :
    parseRequestLine d = ⟨none, 0, some .ErrMalformedRequestLine⟩ ∨
    ∃ rl, parseRequestLine d = ⟨some rl, idx + 2, none⟩ := by
  unfold parseRequestLine
  rw [hI]
  simp only []
  split
  · split
    · split
      · left; rfl
      · right; exact ⟨_, rfl⟩
    · left; rfl
  · left; rfl

/-- Reading on in state Init. -/
theorem Request.parse_append_init (uni : Bytes → Bytes) (r : Request) (d1 d2 : Bytes)
    (hs : r.state = StateInit) :
    MergeSpec uni (r.parse uni d1) (r.parse uni (d1 ++ d2)) d1 d2 := by
  have hnd : r.state ≠ StateDone := by rw [hs]; simp
  cases hI : Index d1 [13, 10] with
  | none =>
    have hp : parseRequestLine d1 = ⟨none, 0, none⟩ := by
      unfold parseRequestLine; rw [hI]
    have ha : r.parse uni d1 = ⟨r, 0, none⟩ := by
      rw [Request.parse_eq, if_neg hnd, Request.parseSingle_init uni r d1 hs]
      simp only [hp, if_true]
    rw [ha]
    refine ⟨Nat.zero_le _, by simp, fun _ _ => ?_, fun _ hd => absurd hd hnd⟩
    simp only [List.drop_zero]
    rw [Request.parse_shift_zero]
  | some idx =>
    have hlen := (Index_some_split d1 idx hI).2.1
    have hp := parseRequestLine_append d1 d2 idx hI
    rw [Request.parse_eq uni r d1, Request.parse_eq uni r (d1 ++ d2)]
    simp only [if_neg hnd]
    rw [Request.parseSingle_init uni r d1 hs, Request.parseSingle_init uni r (d1 ++ d2) hs, hp]
    rcases parseRequestLine_some d1 idx hI with h | ⟨rl, h⟩
    · rw [h]
      exact ⟨Nat.zero_le _, by simp, by simp, by simp⟩
    · rw [h]
      simp only [Nat.add_eq_zero, OfNat.ofNat_ne_zero, and_false, if_false]
      rw [List.drop_append_of_le_length hlen]
      apply MergeSpec.shift uni _ _ d1 d2 _ hlen
      exact Request.parse_append_headers uni _ _ _ rfl

/-- Reading on: the driver on `d1 ++ d2` against the driver on `d1`, in every state. -/
theorem Request.parse_append (uni : Bytes → Bytes) (r : Request) (d1 d2 : Bytes) :
    MergeSpec uni (r.parse uni d1) (r.parse uni (d1 ++ d2)) d1 d2 := by
  cases hs : r.state with
  | StateInit => exact Request.parse_append_init uni r d1 d2 hs
  | StateHeaders => exact Request.parse_append_headers uni r d1 d2 hs
  | StateBody => exact Request.parse_append_body uni r d1 d2 hs
  | StateDone =>
    rw [Request.parse_done uni r d1 hs, Request.parse_done uni r (d1 ++ d2) hs]
    exact ⟨Nat.zero_le _, by simp, fun _ h => absurd hs h, fun _ _ => Or.inl rfl⟩
  | StateError =>
    have hnd : r.state ≠ StateDone := by rw [hs]; simp
    have e : ∀ d, r.parse uni d = ⟨r, 0, some .ErrorRequestInErrorState⟩ := by
      intro d
      rw [Request.parse_eq, if_neg hnd]
      have : r.parseSingle uni d = ⟨r, 0, some .ErrorRequestInErrorState⟩ := by
        unfold Request.parseSingle; rw [hs]
      rw [this]
    rw [e, e]
    exact ⟨Nat.zero_le _, by simp, by simp, by simp⟩

/-! ### The reader loop -/

theorem Request.parseSingle_not_error (uni : Bytes → Bytes) (r : Request) (d : Bytes)
    (h : r.state ≠ StateError) : (r.parseSingle uni d).req.state ≠ StateError := by
  cases hs : r.state with
  | StateError => exact absurd hs h
  | StateDone =>
    have : r.parseSingle uni d = ⟨r, 0, none⟩ := by
      unfold Request.parseSingle; rw [hs]
    rw [this]; exact h
  | StateInit =>
    rw [Request.parseSingle_init uni r d hs]
    split
    · exact h
    · split
      · exact h
      · split
        · simp
        · exact h
  | StateHeaders =>
    rw [Request.parseSingle_headers uni r d hs]
    split
    · exact h
    · split
      · simp
      · exact h
  | StateBody =>
    rw [Request.parseSingle_body uni r d hs]
    split
    · simp
    · split
      · exact h
      · split
        · exact h
        · split
          · simp
          · exact h

theorem Request.parseLoop_not_error (uni : Bytes → Bytes) (fuel : Nat) (r : Request)
    (rest : Bytes) (total : Nat) (h : r.state ≠ StateError) :
    (Request.parseLoop uni fuel r rest total).req.state ≠ StateError := by
  induction fuel generalizing r rest total with
  | zero => exact h
  | succ k ih =>
    rw [Request.parseLoop]
    have hs := Request.parseSingle_not_error uni r rest h
    split
    · exact h
    · simp only []
      split
      · exact hs
      · split
        · exact hs
        · exact ih _ _ _ hs

/-- The driver never puts a request into state Error. -/
theorem Request.parse_not_error (uni : Bytes → Bytes) (r : Request) (d : Bytes)
    (h : r.state ≠ StateError) : (r.parse uni d).req.state ≠ StateError :=
  Request.parseLoop_not_error uni _ r d 0 h

theorem finish_shift (k : Nat) (m : StepResult) : finish (m.shift k) = finish m := by
  unfold finish StepResult.shift
  cases m.err <;> rfl

/-- One pass of the reader loop over a read that fits the staging buffer. -/
theorem FromReaderLoop_cons (uni : Bytes → Bytes) (fuel : Nat) (c : Bytes) (cs : List Bytes)
    (r : Request) (buf : Bytes) (hd : r.done = false) (hlen : (buf ++ c).length ≤ 1024) :
    FromReaderLoop uni readChunks (fuel + 1) (c :: cs) r buf =
      match (r.parse uni (buf ++ c)).err with
      | some e => .fail e
      | none => FromReaderLoop uni readChunks fuel cs (r.parse uni (buf ++ c)).req
          ((buf ++ c).drop (r.parse uni (buf ++ c)).n) := by
  rw [FromReaderLoop]
  have hc : c.length ≤ 1024 - buf.length := by
    simp only [List.length_append] at hlen; omega
  have hn : ¬ (buf ++ c).length > 1024 := by omega
  simp only [hd, Bool.false_eq_true, if_false, readChunks, if_pos hc, if_neg hn]

theorem FromReaderLoop_nil (uni : Bytes → Bytes) (fuel : Nat) (r : Request) (buf : Bytes) :
    FromReaderLoop uni readChunks (fuel + 1) [] r buf =
      if r.done then (if r.error then .fail .requestParsingFailed else .ok r)
      else .fail .EOF := by
  rw [FromReaderLoop]
  simp only [readChunks]

/-- A single read followed by the end of the stream. -/
theorem FromReaderLoop_single (uni : Bytes → Bytes) (fuel : Nat) (c : Bytes)
    (r : Request) (buf : Bytes) (hd : r.done = false) (hlen : (buf ++ c).length ≤ 1024) :
    FromReaderLoop uni readChunks (fuel + 2) [c] r buf = finish (r.parse uni (buf ++ c)) := by
  rw [FromReaderLoop_cons uni _ c [] r buf hd hlen, FromReaderLoop_nil]
  unfold finish
  cases (r.parse uni (buf ++ c)).err <;> rfl

theorem Request.done_false_iff (r : Request) :
    r.done = false ↔ r.state ≠ StateDone ∧ r.state ≠ StateError := by
  unfold Request.done
  cases r.state <;> simp

/-- Any way of cutting a stream that fits the staging buffer into reads gives what
the driver gives on the whole stream, unless the whole stream is rejected as a body
that is too large. -/
theorem FromReaderLoop_chunks (uni : Bytes → Bytes) (cs : List Bytes) (c : Bytes) (fuel : Nat)
    (r : Request) (buf : Bytes) (hr : r.done = false)
    (hlen : (buf ++ (c :: cs).flatten).length ≤ 1024)
    (hfuel : (c :: cs).length < fuel)
    (hbig : (r.parse uni (buf ++ (c :: cs).flatten)).err ≠ some .ErrBodyTooLarge) :
    FromReaderLoop uni readChunks fuel (c :: cs) r buf
      = finish (r.parse uni (buf ++ (c :: cs).flatten)) := by
  induction cs generalizing c fuel r buf with
  | nil =>
    obtain ⟨k, rfl⟩ : ∃ k, fuel = k + 2 := ⟨fuel - 2, by simp at hfuel; omega⟩
    simp only [List.flatten_cons, List.flatten_nil, List.append_nil] at hlen ⊢
    exact FromReaderLoop_single uni k c r buf hr hlen
  | cons c2 cs ih =>
    obtain ⟨k, rfl⟩ : ∃ k, fuel = k + 1 := ⟨fuel - 1, by simp at hfuel; omega⟩
    have hfl : (c :: c2 :: cs).flatten = c ++ (c2 :: cs).flatten := by simp
    rw [hfl, ← List.append_assoc] at hlen hbig ⊢
    have hlen1 : (buf ++ c).length ≤ 1024 := by
      simp only [List.length_append] at hlen ⊢; omega
    rw [FromReaderLoop_cons uni k c (c2 :: cs) r buf hr hlen1]
    obtain ⟨m0, m1, m2, m3⟩ := Request.parse_append uni r (buf ++ c) (c2 :: cs).flatten
    have hne := Request.parse_not_error uni r (buf ++ c) ((Request.done_false_iff r).1 hr).2
    cases he : (r.parse uni (buf ++ c)).err with
    | some e =>
      simp only []
      unfold finish
      rw [m1 e he]
    | none =>
      simp only []
      by_cases hdone : (r.parse uni (buf ++ c)).req.state = StateDone
      · rcases m3 he hdone with h | h
        · rw [h]
          obtain ⟨k2, rfl⟩ : ∃ k2, k = k2 + 1 := ⟨k - 1, by simp at hfuel; omega⟩
          rw [FromReaderLoop]
          unfold finish
          simp only [he, Request.done, Request.error, hdone]
          simp
        · exact absurd h hbig
      · have hnd : (r.parse uni (buf ++ c)).req.done = false :=
          (Request.done_false_iff _).2 ⟨hdone, hne⟩
        have e2 := m2 he hdone
        rw [e2, finish_shift]
        apply ih
        · exact hnd
        · have : ((buf ++ c).drop (r.parse uni (buf ++ c)).n ++ (c2 :: cs).flatten).length
              ≤ (buf ++ c ++ (c2 :: cs).flatten).length := by
            simp only [List.length_append, List.length_drop]; omega
          omega
        · simp at hfuel ⊢; omega
        · intro hbad
          apply hbig
          rw [e2]
          simpa [StepResult.shift] using hbad

/-! ### A well-formed request -/

theorem no_crlf_of_no_cr (l : Bytes) (h : 13 ∉ l) : ¬ [13, 10] <:+: l := by
  rintro ⟨a, b, e⟩
  apply h
  rw [← e]; simp

theorem ascii_http11 : ascii "HTTP/1.1" = [72, 84, 84, 80, 47, 49, 46, 49] := by decide

theorem parseRequestLine_wellformed (m t rest : Bytes) (hm : plainWord m) (ht : plainWord t) :
    parseRequestLine (requestLine m t ++ 13 :: 10 :: rest)
      = ⟨some ⟨ascii "1.1", t, m⟩, (requestLine m t).length + 2, none⟩ := by
  have hcr : ¬ [13, 10] <:+: requestLine m t := by
    apply no_crlf_of_no_cr
    unfold requestLine
    rw [ascii_http11]
    simp only [List.mem_append, List.mem_cons, not_or]
    have := hm.2.1
    have := ht.2.1
    simp [*]
  unfold parseRequestLine
  rw [Index_line _ rest hcr]
  simp only [List.take_left']
  have hs : Split (requestLine m t) 32 = [m, t, ascii "HTTP/1.1"] := by
    unfold requestLine
    rw [Split_append m _ 32 hm.1, Split_append t _ 32 ht.1, Split_of_not_mem _ 32 (by decide)]
  rw [hs]
  simp only []
  have hs2 : Split (ascii "HTTP/1.1") 47 = [ascii "HTTP", ascii "1.1"] := by decide
  rw [hs2]
  simp

theorem Parse_block_blank (uni : Bytes → Bytes) (h : Headers) (fs : List (Bytes × Bytes))
    (rest : Bytes) (hgood : ∀ f ∈ fs, goodField f) :
    Headers.Parse uni h (headerBlock fs ++ 13 :: 10 :: rest)
      = ⟨setAll uni h fs, (headerBlock fs).length + 2, true, none⟩ := by
  obtain ⟨fuel, e⟩ := Parse_block uni fs hgood h (13 :: 10 :: rest)
  rw [e, parseLoop_blank]

theorem ToLower_of_token (uni : Bytes → Bytes) (name : Bytes) (h : isToken name = true) :
    ToLower uni name = asciiLower name := by
  unfold ToLower asciiLower
  have hall : name.all (fun c => decide (c < 128)) = true := by
    rw [List.all_eq_true]
    intro c hc
    have := (isTokenChar_facts c (((isToken_iff_chars name).1 h).2 c hc)).1
    simpa using this
  rw [if_pos hall]

theorem ToLower_content_length (uni : Bytes → Bytes) :
    ToLower uni (ascii "Content-Length") = ascii "content-length" := by
  rfl

theorem setAll_eq_foldl_apply (uni : Bytes → Bytes) (h : Headers) (fs : List (Bytes × Bytes)) :
    setAll uni h fs
      = (fs.map (fun f => Call.set f.1 (TrimSpace f.2))).foldl (Headers.apply uni) h := by
  unfold setAll
  rw [List.foldl_map]
  rfl

/-- The `Content-Length` entry of the table built from token-named header lines. -/
theorem Get_setAll (uni : Bytes → Bytes) (fs : List (Bytes × Bytes))
    (htok : ∀ f ∈ fs, isToken f.1 = true) :
    (setAll uni NewHeaders fs).Get uni (ascii "Content-Length") =
      ((fs.filter (fun f => isContentLength f.1)).foldl
        (fun acc f => replayStep acc (Call.set f.1 (TrimSpace f.2))) none).getD [] := by
  unfold Headers.Get
  rw [setAll_eq_foldl_apply, mapGet_foldl_apply, List.filter_map, List.foldl_map]
  have hf : fs.filter ((fun c => decide (ToLower uni c.name
        = ToLower uni (ascii "Content-Length"))) ∘ fun f => Call.set f.1 (TrimSpace f.2))
      = fs.filter (fun f => isContentLength f.1) := by
    apply List.filter_congr
    intro f hf
    simp only [Function.comp, Call.name, isContentLength, ToLower_content_length,
      ToLower_of_token uni f.1 (htok f hf)]
  rw [hf]
  rfl

theorem parse_wire_init (uni : Bytes → Bytes) (m t rest : Bytes)
    (hm : plainWord m) (ht : plainWord t) :
    newRequest.parse uni (requestLine m t ++ 13 :: 10 :: rest)
      = ((⟨⟨ascii "1.1", t, m⟩, NewHeaders, [], StateHeaders⟩ : Request).parse uni rest).shift
          ((requestLine m t).length + 2) := by
  have hnd : newRequest.state ≠ StateDone := by decide
  have h1 := parseRequestLine_wellformed m t rest hm ht
  have hstep : newRequest.parseSingle uni (requestLine m t ++ 13 :: 10 :: rest)
      = ⟨⟨⟨ascii "1.1", t, m⟩, NewHeaders, [], StateHeaders⟩,
          (requestLine m t).length + 2, none⟩ := by
    rw [Request.parseSingle_init uni _ _ rfl, h1]
    rfl
  rw [Request.parse_eq, if_neg hnd, hstep]
  dsimp only
  rw [if_neg (by omega), List.drop_append_eq_append_drop]
  simp only [List.drop_of_length_le (show (requestLine m t).length
    ≤ (requestLine m t).length + 2 by omega), List.nil_append]
  rw [show (requestLine m t).length + 2 - (requestLine m t).length = 2 by omega]
  rfl

theorem parse_wire_headers (uni : Bytes → Bytes) (l : Line) (fs : List (Bytes × Bytes))
    (rest : Bytes) (hgood : ∀ f ∈ fs, goodField f) :
    (⟨l, NewHeaders, [], StateHeaders⟩ : Request).parse uni (headerBlock fs ++ 13 :: 10 :: rest)
      = ((⟨l, setAll uni NewHeaders fs, [], StateBody⟩ : Request).parse uni rest).shift
          ((headerBlock fs).length + 2) := by
  have h2 := Parse_block_blank uni NewHeaders fs rest hgood
  rw [Request.parse_headers uni _ _ rfl]
  dsimp only
  rw [h2]
  dsimp only
  rw [if_pos rfl, List.drop_append_eq_append_drop]
  simp only [List.drop_of_length_le (show (headerBlock fs).length
    ≤ (headerBlock fs).length + 2 by omega), List.nil_append]
  rw [show (headerBlock fs).length + 2 - (headerBlock fs).length = 2 by omega]
  rfl

theorem parse_wire_body (uni : Bytes → Bytes) (l : Line) (fs : List (Bytes × Bytes))
    (b : Bytes) (htok : ∀ f ∈ fs, isToken f.1 = true) (hb : announces (trimmed fs) b) :
    (⟨l, setAll uni NewHeaders fs, [], StateBody⟩ : Request).parse uni b
      = ⟨⟨l, setAll uni NewHeaders fs, b, StateDone⟩, b.length, none⟩ := by
  rw [Request.parse_body uni _ _ rfl]
  dsimp only
  have hget := Get_setAll uni fs htok
  have hfm : (trimmed fs).filter (fun f => isContentLength f.1)
      = trimmed (fs.filter (fun f => isContentLength f.1)) := by
    unfold trimmed; rw [List.filter_map]; rfl
  unfold announces at hb
  rw [hfm] at hb
  cases hfil : fs.filter (fun f => isContentLength f.1) with
  | nil =>
    rw [hfil] at hb hget
    simp only [List.foldl_nil, Option.getD_none, trimmed, List.map_nil] at hget hb
    subst hb
    rw [if_pos hget]
    rfl
  | cons f rest =>
    cases rest with
    | cons g gs => rw [hfil] at hb; exact absurd hb (by simp [trimmed])
    | nil =>
      rw [hfil] at hb hget
      simp only [List.foldl_cons, List.foldl_nil, replayStep, Option.getD_some, trimmed,
        List.map_cons, List.map_nil] at hget hb
      have hne : TrimSpace f.2 ≠ [] := by
        intro e; rw [e] at hb; simp [Atoi] at hb
      rw [hget, if_neg hne, hb]
      dsimp only
      rw [List.nil_append, if_neg (by omega), if_pos rfl]

/-- The driver on a well-formed request: everything is consumed, the request is
done and holds the request line, the headers and the body. -/
theorem parse_wire (uni : Bytes → Bytes) (m t : Bytes) (fs : List (Bytes × Bytes)) (b : Bytes)
    (hm : plainWord m) (ht : plainWord t) (hgood : ∀ f ∈ fs, goodField f)
    (hb : announces (trimmed fs) b) :
    newRequest.parse uni (wire m t fs b)
      = ⟨⟨⟨ascii "1.1", t, m⟩, setAll uni NewHeaders fs, b, StateDone⟩,
          (wire m t fs b).length, none⟩ := by
  unfold wire
  rw [parse_wire_init uni m t _ hm ht, parse_wire_headers uni _ fs b hgood,
    parse_wire_body uni _ fs b (fun f hf => (hgood f hf).1) hb]
  simp only [StepResult.shift, List.length_append, List.length_cons]
  congr 1
  omega

theorem parse_newRequest_nil (uni : Bytes → Bytes) :
    newRequest.parse uni [] = ⟨newRequest, 0, none⟩ := by
  rfl

/-- `FromReader` on a stream that fits the staging buffer, cut into reads in any way:
the outcome is that of the driver on the whole stream followed by the end of the
stream, unless the whole stream is rejected as a body that is too large. -/
theorem FromReader_stream (uni : Bytes → Bytes) (chunks : List Bytes) (fuel : Nat)
    (hlen : chunks.flatten.length ≤ 1024) (hfuel : chunks.length < fuel)
    (hbig : (newRequest.parse uni chunks.flatten).err ≠ some .ErrBodyTooLarge) :
    FromReader uni readChunks fuel chunks = finish (newRequest.parse uni chunks.flatten) := by
  unfold FromReader
  cases chunks with
  | nil =>
    obtain ⟨k, rfl⟩ : ∃ k, fuel = k + 1 := ⟨fuel - 1, by simp at hfuel; omega⟩
    rw [FromReaderLoop_nil]
    simp only [List.flatten_nil, parse_newRequest_nil]
    rfl
  | cons c cs =>
    have := FromReaderLoop_chunks uni cs c fuel newRequest [] rfl (by simpa using hlen) hfuel
      (by simpa using hbig)
    simpa using this

theorem finish_too_large (m : StepResult) :
    finish m = .fail .ErrBodyTooLarge ↔ m.err = some .ErrBodyTooLarge := by
  unfold finish
  cases he : m.err with
  | some e => simp
  | none =>
    simp only []
    split
    · split <;> simp
    · simp

theorem FromReader_one_read (uni : Bytes → Bytes) (s : Bytes) (hlen : s.length ≤ 1024) :
    FromReader uni readChunks 2 [s] = finish (newRequest.parse uni s) := by
  unfold FromReader
  rw [FromReaderLoop_single uni 0 s newRequest [] rfl (by simpa using hlen)]
  simp

theorem setAll_plain (uni : Bytes → Bytes) (h : Headers) (hs : List (Bytes × Bytes))
    (hvals : ∀ f ∈ hs, ¬ startsWithSpace f.2 ∧ ¬ endsWithSpace f.2) :
    setAll uni h (hs.map (fun f => (f.1, 32 :: f.2)))
      = hs.foldl (fun t f => t.Set uni f.1 f.2) h := by
  induction hs generalizing h with
  | nil => rfl
  | cons f fs ih =>
    have hv := hvals f (List.mem_cons_self _ _)
    have e : TrimSpace (32 :: f.2) = f.2 := by
      unfold TrimSpace
      rw [trimLeft_cons1 32 f.2 (by decide), trimLeft_id f.2 hv.1, trimRight_id f.2 hv.2]
    have ih2 := ih (h.Set uni f.1 f.2) (fun g hg => hvals g (List.mem_cons_of_mem _ hg))
    simp only [setAll, List.map_cons, List.foldl_cons, e] at ih2 ⊢
    exact ih2

theorem trimmed_plain (hs : List (Bytes × Bytes))
    (hvals : ∀ f ∈ hs, ¬ startsWithSpace f.2 ∧ ¬ endsWithSpace f.2) :
    trimmed (hs.map (fun f => (f.1, 32 :: f.2))) = hs := by
  induction hs with
  | nil => rfl
  | cons f fs ih =>
    have hv := hvals f (List.mem_cons_self _ _)
    have e : TrimSpace (32 :: f.2) = f.2 := by
      unfold TrimSpace
      rw [trimLeft_cons1 32 f.2 (by decide), trimLeft_id f.2 hv.1, trimRight_id f.2 hv.2]
    have ih2 := ih (fun g hg => hvals g (List.mem_cons_of_mem _ hg))
    simp only [trimmed, List.map_cons, List.map_map] at ih2 ⊢
    rw [ih2]
    simp [e]

/-! ### The reader loop on streams of any length -/

/-- What the driver leaves unconsumed, it leaves unconsumed when called again. -/
theorem Request.parse_leftover_stable (uni : Bytes → Bytes) (r : Request) (d : Bytes)
    (he : (r.parse uni d).err = none) (hs : (r.parse uni d).req.state ≠ StateDone) :
    Stable uni (r.parse uni d).req (d.drop (r.parse uni d).n) := by
  have h := (Request.parse_append uni r d []).2.2.1 he hs
  simp only [List.append_nil] at h
  unfold Stable
  generalize r.parse uni d = a at h he hs
  generalize a.req.parse uni (d.drop a.n) = x at h
  obtain ⟨xr, xn, xe⟩ := x
  obtain ⟨ar, an, ae⟩ := a
  simp only [StepResult.shift] at h
  simp only at he
  subst he
  injection h with h1 h2 h3
  subst h3
  simp only at h2
  subst h1
  congr
  omega

/-- A read larger than the room left in the staging buffer is delivered as two. -/
theorem FromReaderLoop_long (uni : Bytes → Bytes) (fuel : Nat) (c : Bytes) (cs : List Bytes)
    (r : Request) (buf : Bytes) (hc : 1024 - buf.length < c.length) :
    FromReaderLoop uni readChunks (fuel + 1) (c :: cs) r buf =
      FromReaderLoop uni readChunks (fuel + 1)
        (c.take (1024 - buf.length) :: c.drop (1024 - buf.length) :: cs) r buf := by
  rw [FromReaderLoop, FromReaderLoop]
  have h1 : ¬ c.length ≤ 1024 - buf.length := by omega
  have h2 : (c.take (1024 - buf.length)).length ≤ 1024 - buf.length := by
    simp only [List.length_take]; omega
  simp only [readChunks, if_neg h1, if_pos h2]

/-- With the staging buffer full and nothing in it to consume, the loop reads nothing
for ever. -/
theorem FromReaderLoop_stuck (uni : Bytes → Bytes) (fuel : Nat) (c : Bytes) (cs : List Bytes)
    (r : Request) (buf : Bytes) (hd : r.done = false) (hst : Stable uni r buf)
    (hfull : buf.length = 1024) (hc : c ≠ []) :
    FromReaderLoop uni readChunks fuel (c :: cs) r buf = .outOfFuel := by
  induction fuel with
  | zero => rfl
  | succ k ih =>
    have hlen : 0 < c.length := List.length_pos.2 hc
    rw [FromReaderLoop_long uni k c cs r buf (by omega), hfull]
    simp only [Nat.sub_self, List.take_zero, List.drop_zero]
    rw [FromReaderLoop_cons uni k [] (c :: cs) r buf hd (by simp; omega)]
    simp only [List.append_nil]
    rw [hst]
    simpa using ih

theorem FromReaderLoop_nil_fuel (uni : Bytes → Bytes) (f1 f2 : Nat) (r : Request) (buf : Bytes)
    (h1 : 0 < f1) (h2 : 0 < f2) :
    FromReaderLoop uni readChunks f1 [] r buf = FromReaderLoop uni readChunks f2 [] r buf := by
  obtain ⟨k1, rfl⟩ : ∃ k, f1 = k + 1 := ⟨f1 - 1, by omega⟩
  obtain ⟨k2, rfl⟩ : ∃ k, f2 = k + 1 := ⟨f2 - 1, by omega⟩
  rw [FromReaderLoop_nil, FromReaderLoop_nil]

theorem FromReaderLoop_done (uni : Bytes → Bytes) (fuel : Nat) (cs : List Bytes)
    (r : Request) (buf : Bytes) (hs : r.state = StateDone) :
    FromReaderLoop uni readChunks (fuel + 1) cs r buf = .ok r := by
  rw [FromReaderLoop]
  simp [Request.done, Request.error, hs]

/-- One pass of the reader loop: the read delivers what fits of its first chunk. -/
theorem FromReaderLoop_iter (uni : Bytes → Bytes) (fuel : Nat) (c : Bytes) (cs : List Bytes)
    (r : Request) (buf : Bytes) (hd : r.done = false) (hbuf : buf.length ≤ 1024) :
    FromReaderLoop uni readChunks (fuel + 1) (c :: cs) r buf =
      match (r.parse uni (buf ++ c.take (1024 - buf.length))).err with
      | some e => .fail e
      | none => FromReaderLoop uni readChunks fuel (restOf (1024 - buf.length) c cs)
          (r.parse uni (buf ++ c.take (1024 - buf.length))).req
          ((buf ++ c.take (1024 - buf.length)).drop
            (r.parse uni (buf ++ c.take (1024 - buf.length))).n) := by
  by_cases hc : c.length ≤ 1024 - buf.length
  · rw [List.take_of_length_le hc, restOf, if_pos hc]
    exact FromReaderLoop_cons uni fuel c cs r buf hd (by simp only [List.length_append]; omega)
  · rw [FromReaderLoop_long uni fuel c cs r buf (by omega), restOf, if_neg hc]
    exact FromReaderLoop_cons uni fuel _ _ r buf hd
      (by simp only [List.length_append, List.length_take]; omega)

theorem restOf_flatten (room : Nat) (c : Bytes) (cs : List Bytes) :
    c.take room ++ (restOf room c cs).flatten = (c :: cs).flatten := by
  unfold restOf
  by_cases hc : c.length ≤ room
  · rw [if_pos hc, List.take_of_length_le hc]; simp
  · rw [if_neg hc]
    simp only [List.flatten_cons, ← List.append_assoc, List.take_append_drop]

theorem restOf_nonempty (room : Nat) (c : Bytes) (cs : List Bytes)
    (h : ∀ x ∈ cs, x ≠ []) : ∀ x ∈ restOf room c cs, x ≠ [] := by
  unfold restOf
  by_cases hc : c.length ≤ room
  · rw [if_pos hc]; exact h
  · rw [if_neg hc]
    intro x hx
    rcases List.mem_cons.1 hx with rfl | hx
    · intro e
      have := congrArg List.length e
      simp only [List.length_drop, List.length_nil] at this
      omega
    · exact h x hx

theorem oneRead_flatten (t : Bytes) : (oneRead t).flatten = t := by
  unfold oneRead
  by_cases h : t = []
  · simp [h]
  · simp [h]

theorem oneRead_nonempty (t : Bytes) : ∀ x ∈ oneRead t, x ≠ [] := by
  unfold oneRead
  by_cases h : t = []
  · simp [h]
  · simp [h]

/-- Any way of cutting a stream into non-empty reads gives what the stream gives as
one read, for streams of any length, unless the whole stream is rejected as a body
that is too large.  Longer than the staging buffer, a read is delivered in pieces;
with the buffer full of bytes that cannot be consumed, both runs go on for ever. -/
theorem FromReaderLoop_canon (uni : Bytes → Bytes) (n : Nat) :
    ∀ (t : Bytes), t.length = n → ∀ (A : List Bytes) (r : Request) (buf : Bytes)
      (f1 f2 : Nat), A.flatten = t → (∀ c ∈ A, c ≠ []) → r.done = false →
      buf.length ≤ 1024 → Stable uni r buf →
      (r.parse uni (buf ++ t)).err ≠ some .ErrBodyTooLarge → t.length < f1 → t.length < f2 →
      FromReaderLoop uni readChunks f1 A r buf
        = FromReaderLoop uni readChunks f2 (oneRead t) r buf := by
  induction n using Nat.strong_induction_on with
  | _ n IH =>
  intro t htn A r buf f1 f2 hA hne hd hbuf hst hbig hf1 hf2
  cases A with
  | nil =>
    simp only [List.flatten_nil] at hA
    subst hA
    simp only [oneRead, if_true]
    exact FromReaderLoop_nil_fuel uni f1 f2 r buf (by omega) (by omega)
  | cons a A' =>
    have ha : a ≠ [] := hne a (List.mem_cons_self _ _)
    have hA' : ∀ c ∈ A', c ≠ [] := fun c hc => hne c (List.mem_cons_of_mem _ hc)
    have halen : 0 < a.length := List.length_pos.2 ha
    have htne : t ≠ [] := by
      intro e; rw [e] at hA; simp at hA; exact ha hA.1
    have htlen : 0 < t.length := List.length_pos.2 htne
    have hone : oneRead t = [t] := by simp [oneRead, htne]
    rw [hone]
    by_cases hfull : buf.length = 1024
    · rw [FromReaderLoop_stuck uni f1 a A' r buf hd hst hfull ha,
        FromReaderLoop_stuck uni f2 t [] r buf hd hst hfull htne]
    · obtain ⟨k1, rfl⟩ : ∃ k, f1 = k + 1 := ⟨f1 - 1, by omega⟩
      obtain ⟨k2, rfl⟩ : ∃ k, f2 = k + 1 := ⟨f2 - 1, by omega⟩
      rw [FromReaderLoop_iter uni k1 a A' r buf hd hbuf,
        FromReaderLoop_iter uni k2 t [] r buf hd hbuf]
      -- the two first reads and what is left after them
      generalize hroom : 1024 - buf.length = room
      have hroompos : 0 < room := by omega
      have hLa : a.take room ++ (restOf room a A').flatten = t := by
        rw [restOf_flatten, hA]
      have hLane := restOf_nonempty room a A' hA'
      generalize hga : a.take room = ga at hLa
      generalize hLaE : restOf room a A' = La at hLa hLane
      generalize hta : La.flatten = ta at hLa
      have hgalen : ga.length ≤ room := by rw [← hga]; simp
      have hgapos : 0 < ga.length := by
        rw [← hga, List.length_take]; omega
      have htalen : ta.length < t.length := by
        rw [← hLa, List.length_append]; omega
      have hgt : t.take room = ga ++ ta.take (room - ga.length) := by
        rw [← hLa, List.take_append_eq_append_take, List.take_of_length_le hgalen]
      have hLt : (restOf room t []).flatten = ta.drop (room - ga.length) := by
        have h1 := restOf_flatten room t []
        rw [hgt] at h1
        simp only [List.flatten_cons, List.flatten_nil, List.append_nil] at h1
        rw [List.append_assoc] at h1
        have h2 := List.append_cancel_left (h1.trans hLa.symm)
        have h3 : ta.take (room - ga.length) ++ (restOf room t []).flatten
            = ta.take (room - ga.length) ++ ta.drop (room - ga.length) := by
          rw [h2, List.take_append_drop]
        exact List.append_cancel_left h3
      have hLtne := restOf_nonempty room t [] (by simp)
      generalize hLtE : restOf room t [] = Lt at hLt hLtne
      generalize hd' : ta.take (room - ga.length) = d at hgt
      have hdlen : d.length ≤ room - ga.length := by rw [← hd']; simp
      rw [hgt, ← List.append_assoc]
      -- the driver on the two buffers
      obtain ⟨m0, m1, m2, m3⟩ := Request.parse_append uni r (buf ++ ga) d
      have hbt : buf ++ t = (buf ++ ga) ++ ta := by rw [← hLa, List.append_assoc]
      have hnerr := Request.parse_not_error uni r (buf ++ ga)
        ((Request.done_false_iff r).1 hd).2
      cases he : (r.parse uni (buf ++ ga)).err with
      | some e =>
        rw [m1 e he]
      | none =>
        simp only []
        by_cases hdone : (r.parse uni (buf ++ ga)).req.state = StateDone
        · have hk1 : 0 < k1 := by omega
          obtain ⟨j1, rfl⟩ : ∃ j, k1 = j + 1 := ⟨k1 - 1, by omega⟩
          rw [FromReaderLoop_done uni j1 _ _ _ hdone]
          rcases m3 he hdone with h | h
          · rw [h, he]
            simp only []
            obtain ⟨j2, rfl⟩ : ∃ j, k2 = j + 1 := ⟨k2 - 1, by omega⟩
            rw [FromReaderLoop_done uni j2 _ _ _ hdone]
          · exfalso
            apply hbig
            have hbt2 : buf ++ t = ((buf ++ ga) ++ d) ++ ta.drop (room - ga.length) := by
              rw [hbt, List.append_assoc (buf ++ ga), ← hd', List.take_append_drop]
            rw [hbt2]
            exact (Request.parse_append uni r ((buf ++ ga) ++ d) _).2.1 _ h
        · -- the request is not done after the first read
          have e2 := m2 he hdone
          have hstA := Request.parse_leftover_stable uni r (buf ++ ga) he hdone
          have hndA : (r.parse uni (buf ++ ga)).req.done = false :=
            (Request.done_false_iff _).2 ⟨hdone, hnerr⟩
          have e3 := (Request.parse_append uni r (buf ++ ga) ta).2.2.1 he hdone
          have hbufA : ((buf ++ ga).drop (r.parse uni (buf ++ ga)).n).length ≤ 1024 := by
            simp only [List.length_drop, List.length_append]; omega
          have hbigA : ((r.parse uni (buf ++ ga)).req.parse uni
              ((buf ++ ga).drop (r.parse uni (buf ++ ga)).n ++ ta)).err
              ≠ some .ErrBodyTooLarge := by
            intro hbad
            apply hbig
            rw [hbt, e3]
            simpa [StepResult.shift] using hbad
          have ih1 := fun f3 (hf3 : ta.length < f3) =>
            IH ta.length (by omega) ta rfl La _ _ k1 f3 hta hLane hndA hbufA hstA hbigA
              (by omega) hf3
          by_cases hdnil : d = []
          · -- the whole stream gave no more in its first read
            subst hdnil
            have hLtone : Lt = oneRead ta := by
              rw [← hLtE]
              unfold restOf oneRead
              by_cases hta0 : ta = []
              · have : t.length ≤ room := by
                  rw [← hLa, hta0]; simpa using hgalen
                rw [if_pos this, if_pos hta0]
              · have htapos : 0 < ta.length := List.length_pos.2 hta0
                have hz : room - ga.length = 0 := by
                  by_contra hz
                  have := congrArg List.length hd'
                  simp only [List.length_take, List.length_nil] at this
                  omega
                have hlt : ¬ t.length ≤ room := by
                  rw [← hLa, List.length_append]; omega
                rw [if_neg hlt, if_neg hta0]
                have hr : room = ga.length := by omega
                rw [hr, ← hLa, List.drop_left']
                rfl
            simp only [List.append_nil, he]
            rw [hLtone]
            exact ih1 k2 (by omega)
          · -- the whole stream gave `d` more in its first read
            have hB : (d :: Lt).flatten = ta := by
              simp only [List.flatten_cons]
              rw [hLt, ← hd', List.take_append_drop]
            have hBne : ∀ c ∈ d :: Lt, c ≠ [] := by
              intro c hc
              rcases List.mem_cons.1 hc with rfl | hc
              · exact hdnil
              · exact hLtne c hc
            have ih2 := IH ta.length (by omega) ta rfl (d :: Lt) _ _ (k2 + 1) (ta.length + 1)
              hB hBne hndA hbufA hstA hbigA (by omega) (by omega)
            rw [ih1 (ta.length + 1) (by omega), ← ih2,
              FromReaderLoop_cons uni k2 d Lt _ _ hndA
                (by simp only [List.length_append, List.length_drop]; omega), e2]
            cases hq : ((r.parse uni (buf ++ ga)).req.parse uni
                ((buf ++ ga).drop (r.parse uni (buf ++ ga)).n ++ d)).err with
            | some e => simp [StepResult.shift, hq]
            | none =>
              simp only [StepResult.shift, hq]
              rw [← List.drop_drop, List.drop_append_of_le_length m0]

/-! ### Decimal numbers -/

theorem parseUintLoop_digit (d : Nat) (acc : Bytes) (m : Nat) (hd : d < 10)
    (hm : m * 10 + d < 2 ^ 64) :
    parseUintLoop ((48 + d) :: acc) m = parseUintLoop acc (m * 10 + d) := by
  rw [parseUintLoop]
  have h1 : ¬ ¬ (48 ≤ 48 + d ∧ 48 + d ≤ 57) := by omega
  have h2 : ¬ (m * 10 + (48 + d - 48) ≥ 2 ^ 64) := by
    rw [Nat.add_sub_cancel_left]; omega
  rw [if_neg h1, if_neg h2, Nat.add_sub_cancel_left]

theorem parseUintLoop_decimalAux (fuel n : Nat) (acc : Bytes) (hf : n < fuel)
    (hn : n < 2 ^ 64) :
    parseUintLoop (decimalAux fuel n acc) 0 = parseUintLoop acc n := by
  induction fuel generalizing n acc with
  | zero => omega
  | succ k ih =>
    rw [decimalAux]
    by_cases h : n < 10
    · rw [if_pos h, parseUintLoop_digit n acc 0 h (by omega)]
      simp
    · rw [if_neg h, ih (n / 10) _ (by omega) (by omega),
        parseUintLoop_digit (n % 10) acc (n / 10) (Nat.mod_lt _ (by omega)) (by omega)]
      congr 1
      omega

theorem decimalAux_head (fuel n : Nat) (acc : Bytes) (hf : n < fuel) :
    ∃ c rest, decimalAux fuel n acc = c :: rest ∧ 48 ≤ c ∧ c ≤ 57 := by
  induction fuel generalizing n acc with
  | zero => omega
  | succ k ih =>
    rw [decimalAux]
    by_cases h : n < 10
    · rw [if_pos h]; exact ⟨48 + n, acc, rfl, by omega, by omega⟩
    · rw [if_neg h]; exact ih (n / 10) _ (by omega)

/-- `strconv.Atoi` reads the decimal representation of a length back. -/
theorem Atoi_decimal (n : Nat) (hn : n < 2 ^ 63) : Atoi (decimal n) = .ok (n : Int) := by
  obtain ⟨c, rest, e, h1, h2⟩ := decimalAux_head (n + 1) n [] (by omega)
  have hp := parseUintLoop_decimalAux (n + 1) n [] (by omega) (by omega)
  unfold decimal
  rw [e] at hp ⊢
  rw [Atoi, if_neg (by omega), if_neg (by omega)]
  unfold atoiDigits
  rw [hp]
  simp only [List.length_cons, Nat.add_one_ne_zero, if_false, parseUintLoop]
  have h3 : n < 9223372036854775808 := by
    have : (2 : Nat) ^ 63 = 9223372036854775808 := by norm_num
    omega
  simp [h3]

/-! ### The protocol version of the request line -/

theorem Split_singleton (s : Bytes) (sep : Nat) (x : Bytes) (h : Split s sep = [x]) :
    x = s := by
  have hl := Split_length s sep
  rw [h] at hl
  have h0 : s.count sep = 0 := by simpa using hl.symm
  have hmem : sep ∉ s := List.count_eq_zero.1 h0
  rw [Split_of_not_mem s sep hmem] at h
  simpa using h.symm

/-- A line of three fields whose third is `HTTP/v` with `v` other than `1.1`. -/
theorem parseRequestLine_version (m t v rest : Bytes) (hm : plainWord m) (ht : plainWord t)
    (hv : plainWord v) (hne : v ≠ ascii "1.1") :
    parseRequestLine (m ++ 32 :: (t ++ 32 :: (ascii "HTTP/" ++ v)) ++ 13 :: 10 :: rest)
      = ⟨none, 0, some .ErrMalformedRequestLine⟩ := by
  have hcr : ¬ [13, 10] <:+: m ++ 32 :: (t ++ 32 :: (ascii "HTTP/" ++ v)) := by
    apply no_crlf_of_no_cr
    have h1 := hm.2.1
    have h2 := ht.2.1
    have h3 := hv.2.1
    have h4 : (13 : Nat) ∉ ascii "HTTP/" := by decide
    simp only [List.mem_append, List.mem_cons, not_or]
    exact ⟨h1, by decide, h2, by decide, h4, h3⟩
  unfold parseRequestLine
  rw [Index_line _ rest hcr]
  simp only [List.take_left']
  have h5 : (32 : Nat) ∉ ascii "HTTP/" ++ v := by
    have h4 : (32 : Nat) ∉ ascii "HTTP/" := by decide
    simp only [List.mem_append, not_or]
    exact ⟨h4, hv.1⟩
  have hs : Split (m ++ 32 :: (t ++ 32 :: (ascii "HTTP/" ++ v))) 32
      = [m, t, ascii "HTTP/" ++ v] := by
    rw [Split_append m _ 32 hm.1, Split_append t _ 32 ht.1, Split_of_not_mem _ 32 h5]
  rw [hs]
  simp only []
  have hs2 : Split (ascii "HTTP/" ++ v) 47 = ascii "HTTP" :: Split v 47 :=
    Split_append (ascii "HTTP") v 47 (by decide)
  rw [hs2]
  cases hsv : Split v 47 with
  | nil => rfl
  | cons h1 tl =>
    cases tl with
    | cons a b => rfl
    | nil =>
      have := Split_singleton v 47 h1 hsv
      subst this
      simp only []
      rw [if_pos (Or.inr hne)]

/-! ### A request without a Content-Length header -/

/-- The step in state Body when the table has no `content-length` key. -/
theorem Request.parseSingle_body_absent (uni : Bytes → Bytes) (r : Request) (d : Bytes)
    (hs : r.state = StateBody)
    (hno : mapGet r.Headers.headers (ascii "content-length") = none) :
    r.parseSingle uni d = ⟨{ r with state := StateDone }, 0, none⟩ := by
  have hg : r.Headers.Get uni (ascii "Content-Length") = [] := by
    unfold Headers.Get
    rw [ToLower_content_length, hno]
    rfl
  rw [Request.parseSingle_body uni r d hs, if_pos hg]

theorem Get_setAll_absent (uni : Bytes → Bytes) (fs : List (Bytes × Bytes))
    (htok : ∀ f ∈ fs, isToken f.1 = true) (hno : ∀ f ∈ fs, isContentLength f.1 = false) :
    (setAll uni NewHeaders fs).Get uni (ascii "Content-Length") = [] := by
  rw [Get_setAll uni fs htok]
  have : fs.filter (fun f => isContentLength f.1) = [] := by
    rw [List.filter_eq_nil_iff]
    intro f hf
    simp [hno f hf]
  rw [this]
  rfl

/-- The driver on a request without a Content-Length header, whatever follows the
blank line. -/
theorem parse_wire_absent (uni : Bytes → Bytes) (m t : Bytes) (fs : List (Bytes × Bytes))
    (rest : Bytes) (hm : plainWord m) (ht : plainWord t) (hgood : ∀ f ∈ fs, goodField f)
    (hno : ∀ f ∈ fs, isContentLength f.1 = false) :
    newRequest.parse uni (wire m t fs rest)
      = ⟨⟨⟨ascii "1.1", t, m⟩, setAll uni NewHeaders fs, [], StateDone⟩,
          (wire m t fs []).length, none⟩ := by
  unfold wire
  rw [parse_wire_init uni m t _ hm ht, parse_wire_headers uni _ fs rest hgood,
    Request.parse_body uni _ _ rfl]
  dsimp only
  rw [if_pos (Get_setAll_absent uni fs (fun f hf => (hgood f hf).1) hno)]
  simp only [StepResult.shift, List.length_append, List.length_cons, List.length_nil]
  congr 1
  omega

/-! ### The value of Content-Length -/

/-- The step in state Body when the value of Content-Length is not empty and
`strconv.Atoi` rejects it. -/
theorem Request.parseSingle_body_invalid (uni : Bytes → Bytes) (r : Request) (d : Bytes)
    (e : NumError) (hs : r.state = StateBody)
    (hne : r.Headers.Get uni (ascii "Content-Length") ≠ [])
    (he : Atoi (r.Headers.Get uni (ascii "Content-Length")) = .error e) :
    r.parseSingle uni d = ⟨r, 0, some (.invalidContentLength e)⟩ := by
  rw [Request.parseSingle_body uni r d hs, if_neg hne, he]

theorem Request.steps_fixed (uni : Bytes → Bytes) (r : Request)
    (h : ∀ d, (r.parseSingle uni d).req = r) (ds : List Bytes) : r.steps uni ds = r := by
  unfold Request.steps
  induction ds with
  | nil => rfl
  | cons d ds ih => rw [List.foldl_cons, h d, ih]

/-! ### The length of the body -/

theorem BodyInv_step (uni : Bytes → Bytes) (r : Request) (d : Bytes) (h : BodyInv uni r)
    (he : (r.parseSingle uni d).err = none) : BodyInv uni (r.parseSingle uni d).req := by
  cases hs : r.state with
  | StateError => unfold BodyInv at h; rw [hs] at h; exact h.elim
  | StateDone =>
    have : r.parseSingle uni d = ⟨r, 0, none⟩ := by
      unfold Request.parseSingle; rw [hs]
    rw [this]; exact h
  | StateInit =>
    have hb : r.Body = [] := by unfold BodyInv at h; rw [hs] at h; exact h
    rw [Request.parseSingle_init uni r d hs]
    split
    · exact h
    · split
      · exact h
      · split
        · unfold BodyInv; exact hb
        · exact h
  | StateHeaders =>
    have hb : r.Body = [] := by unfold BodyInv at h; rw [hs] at h; exact h
    rw [Request.parseSingle_headers uni r d hs]
    split
    · unfold BodyInv; simp only []; rw [hs]; exact hb
    · split
      · unfold BodyInv; exact Or.inl hb
      · unfold BodyInv; simp only []; rw [hs]; exact hb
  | StateBody =>
    have hb : r.Body = [] ∨
      (r.Headers.Get uni (ascii "Content-Length") ≠ [] ∧
        ∃ cl : Int, Atoi (r.Headers.Get uni (ascii "Content-Length")) = .ok cl ∧
          (r.Body.length : Int) < cl) := by unfold BodyInv at h; rw [hs] at h; exact h
    rw [Request.parseSingle_body uni r d hs] at he ⊢
    by_cases hg : r.Headers.Get uni (ascii "Content-Length") = []
    · rw [if_pos hg]
      unfold BodyInv
      rcases hb with hb | hb
      · exact Or.inl ⟨hb, hg⟩
      · exact absurd hg hb.1
    · rw [if_neg hg] at he ⊢
      cases ha : Atoi (r.Headers.Get uni (ascii "Content-Length")) with
      | error e => rw [ha] at he; simp at he
      | ok cl =>
        rw [ha] at he
        simp only [] at he ⊢
        by_cases h1 : ((r.Body ++ d).length : Int) > cl
        · rw [if_pos h1] at he; simp at he
        · rw [if_neg h1]
          by_cases h2 : ((r.Body ++ d).length : Int) = cl
          · rw [if_pos h2]
            unfold BodyInv
            exact Or.inr ⟨hg, by rw [ha, ← h2]⟩
          · rw [if_neg h2]
            unfold BodyInv
            simp only []
            rw [hs]
            exact Or.inr ⟨hg, cl, ha, by omega⟩

theorem BodyInv_steps (uni : Bytes → Bytes) (ds : List Bytes) (r : Request)
    (h : BodyInv uni r) (hq : r.quiet uni ds = true) : BodyInv uni (r.steps uni ds) := by
  induction ds generalizing r with
  | nil => exact h
  | cons d ds ih =>
    rw [Request.quiet, Bool.and_eq_true] at hq
    have he : (r.parseSingle uni d).err = none := by
      cases hx : (r.parseSingle uni d).err with
      | none => rfl
      | some e => rw [hx] at hq; simp at hq
    exact ih _ (BodyInv_step uni r d h he) hq.2

theorem BodyInv_bound (uni : Bytes → Bytes) (r : Request) (h : BodyInv uni r) :
    (∀ cl : Int, r.Headers.Get uni (ascii "Content-Length") ≠ [] →
      Atoi (r.Headers.Get uni (ascii "Content-Length")) = .ok cl → 0 ≤ cl →
      (r.Body.length : Int) ≤ cl) ∧
    (r.state = StateDone → r.Headers.Get uni (ascii "Content-Length") ≠ [] →
      Atoi (r.Headers.Get uni (ascii "Content-Length")) = .ok (r.Body.length : Int)) := by
  unfold BodyInv at h
  cases hs : r.state <;> rw [hs] at h <;> simp only [] at h
  · exact ⟨fun cl _ _ h0 => by rw [h]; simpa using h0, fun hd => by simp at hd⟩
  · exact ⟨fun cl _ _ h0 => by rw [h]; simpa using h0, fun hd => by simp at hd⟩
  · refine ⟨fun cl hne ha h0 => ?_, fun hd => by simp at hd⟩
    rcases h with h | ⟨_, cl2, ha2, hlt⟩
    · rw [h]; simpa using h0
    · rw [ha] at ha2
      have : cl = cl2 := by injection ha2
      omega
  · refine ⟨fun cl hne ha h0 => ?_, fun _ hne => ?_⟩
    · rcases h with h | ⟨_, ha2⟩
      · exact absurd h.2 hne
      · rw [ha] at ha2
        have : cl = (r.Body.length : Int) := by injection ha2
        omega
    · rcases h with h | ⟨_, ha2⟩
      · exact absurd h.2 hne
      · exact ha2

/-! ### A body shorter than announced -/

/-- The driver in state Body on data that leave the body shorter than announced. -/
theorem Request.parse_body_short (uni : Bytes → Bytes) (r : Request) (d : Bytes) (n : Nat)
    (hs : r.state = StateBody)
    (hcl : Atoi (r.Headers.Get uni (ascii "Content-Length")) = .ok (n : Int))
    (hlt : r.Body.length + d.length < n) :
    r.parse uni d = ⟨{ r with Body := r.Body ++ d }, d.length, none⟩ := by
  have hne : r.Headers.Get uni (ascii "Content-Length") ≠ [] := by
    intro e; rw [e] at hcl; simp [Atoi] at hcl
  have h1 : ¬ (((r.Body ++ d).length : Int) > (n : Int)) := by
    rw [List.length_append]; omega
  have h2 : ¬ (((r.Body ++ d).length : Int) = (n : Int)) := by
    rw [List.length_append]; omega
  rw [Request.parse_body uni r d hs, if_neg hne, hcl]
  dsimp only
  rw [if_neg h1, if_neg h2]

theorem restOf_nil (room : Nat) (t : Bytes) : restOf room t [] = oneRead (t.drop room) := by
  unfold restOf oneRead
  by_cases h : t.length ≤ room
  · rw [if_pos h, if_pos (List.drop_of_length_le h)]
  · rw [if_neg h, if_neg]
    intro e
    have := congrArg List.length e
    simp only [List.length_drop, List.length_nil] at this
    omega

/-- The reader loop in state Body, with an empty staging buffer, when what is left
of the stream is shorter than what is missing of the body: the read after the last
byte reports the end of the stream. -/
theorem FromReaderLoop_body_short (uni : Bytes → Bytes) (n : Nat) :
    ∀ (k : Nat) (t : Bytes), t.length = k → ∀ (r : Request) (fuel : Nat),
      r.state = StateBody →
      Atoi (r.Headers.Get uni (ascii "Content-Length")) = .ok (n : Int) →
      r.Body.length + t.length < n → t.length < fuel →
      FromReaderLoop uni readChunks fuel (oneRead t) r [] = .fail .EOF := by
  intro k
  induction k using Nat.strong_induction_on with
  | _ k IH =>
  intro t htk r fuel hs hcl hlt hfuel
  obtain ⟨f, rfl⟩ : ∃ f, fuel = f + 1 := ⟨fuel - 1, by omega⟩
  have hd : r.done = false := (Request.done_false_iff r).2 (by rw [hs]; simp)
  by_cases ht : t = []
  · subst ht
    simp only [oneRead, if_true]
    rw [FromReaderLoop_nil, hd]
    rfl
  · have htl : 0 < t.length := List.length_pos.2 ht
    simp only [oneRead, if_neg ht]
    rw [FromReaderLoop_iter uni f t [] r [] hd (by simp)]
    simp only [List.length_nil, Nat.sub_zero, List.nil_append]
    have hle : (t.take 1024).length ≤ t.length := by
      rw [List.length_take]; omega
    rw [Request.parse_body_short uni r (t.take 1024) n hs hcl (by omega)]
    dsimp only
    rw [List.drop_length, restOf_nil]
    have hdl : (t.drop 1024).length < t.length := by
      rw [List.length_drop]; omega
    apply IH (t.drop 1024).length (by omega) (t.drop 1024) rfl
    · exact hs
    · exact hcl
    · show (r.Body ++ t.take 1024).length + (t.drop 1024).length < n
      rw [List.length_append, List.length_take, List.length_drop]; omega
    · omega

theorem wire_append (m t : Bytes) (fs : List (Bytes × Bytes)) (b : Bytes) :
    wire m t fs b = wire m t fs [] ++ b := by
  simp [wire]

theorem wire_length_pos (m t : Bytes) (fs : List (Bytes × Bytes)) (b : Bytes) :
    0 < (wire m t fs b).length := by
  simp [wire]

/-- The driver on a request whose body is shorter than announced: everything is
consumed and the request waits in state Body. -/
theorem parse_wire_short (uni : Bytes → Bytes) (m t : Bytes) (fs : List (Bytes × Bytes))
    (b : Bytes) (n : Nat) (hm : plainWord m) (ht : plainWord t)
    (hgood : ∀ f ∈ fs, goodField f)
    (hcl : Atoi ((setAll uni NewHeaders fs).Get uni (ascii "Content-Length")) = .ok (n : Int))
    (hlt : b.length < n) :
    newRequest.parse uni (wire m t fs b)
      = ⟨⟨⟨ascii "1.1", t, m⟩, setAll uni NewHeaders fs, b, StateBody⟩,
          (wire m t fs b).length, none⟩ := by
  unfold wire
  rw [parse_wire_init uni m t _ hm ht, parse_wire_headers uni _ fs b hgood,
    Request.parse_body_short uni _ b n rfl hcl (by simpa using hlt)]
  simp only [StepResult.shift, List.length_append, List.length_cons, List.nil_append]
  congr 1
  omega

/-- The reader loop on a request whose head fits the staging buffer and whose body
is shorter than announced, read in any way. -/
theorem FromReader_short (uni : Bytes → Bytes) (m t : Bytes) (fs : List (Bytes × Bytes))
    (b : Bytes) (n : Nat) (chunks : List Bytes) (fuel : Nat)
    (hm : plainWord m) (ht : plainWord t) (hgood : ∀ f ∈ fs, goodField f)
    (hcl : Atoi ((setAll uni NewHeaders fs).Get uni (ascii "Content-Length")) = .ok (n : Int))
    (hlt : b.length < n) (hhead : (wire m t fs []).length ≤ 1024)
    (hne : ∀ c ∈ chunks, c ≠ []) (hsplit : chunks.flatten = wire m t fs b)
    (hfuel : (wire m t fs b).length < fuel) :
    FromReader uni readChunks fuel chunks = .fail .EOF := by
  have hp := parse_wire_short uni m t fs b n hm ht hgood hcl hlt
  have hpos := wire_length_pos m t fs b
  have hnil : wire m t fs b ≠ [] := List.length_pos.1 hpos
  unfold FromReader
  rw [FromReaderLoop_canon uni _ (wire m t fs b) rfl chunks newRequest [] fuel
    ((wire m t fs b).length + 1) hsplit hne rfl (by simp) (parse_newRequest_nil uni)
    (by rw [List.nil_append, hp]; simp) hfuel (by omega)]
  simp only [oneRead, if_neg hnil]
  rw [FromReaderLoop_iter uni _ _ [] newRequest [] rfl (by simp)]
  simp only [List.length_nil, Nat.sub_zero, List.nil_append]
  have htake : (wire m t fs b).take 1024
      = wire m t fs (b.take (1024 - (wire m t fs []).length)) := by
    rw [wire_append m t fs b, List.take_append_eq_append_take, List.take_of_length_le hhead,
      ← wire_append]
  have hdrop : (wire m t fs b).drop 1024 = b.drop (1024 - (wire m t fs []).length) := by
    rw [wire_append m t fs b, List.drop_append_eq_append_drop, List.drop_of_length_le hhead,
      List.nil_append]
  have hle : (b.take (1024 - (wire m t fs []).length)).length ≤ b.length := by
    rw [List.length_take]; omega
  rw [htake, parse_wire_short uni m t fs _ n hm ht hgood hcl (by omega)]
  dsimp only
  rw [List.drop_length, restOf_nil, hdrop]
  apply FromReaderLoop_body_short uni n _ _ rfl
  · rfl
  · exact hcl
  · show (b.take (1024 - (wire m t fs []).length)).length
        + (b.drop (1024 - (wire m t fs []).length)).length < n
    rw [List.length_take, List.length_drop]; omega
  · have h1 : (wire m t fs b).length = (wire m t fs []).length + b.length := by
      rw [wire_append m t fs b, List.length_append]
    have h2 := wire_length_pos m t fs []
    rw [List.length_drop]
    omega

/-! ### The state after a failing step -/

/-- A step that returns an error consumes nothing and leaves the state it found. -/
theorem Request.parseSingle_error_state (uni : Bytes → Bytes) (r : Request) (d : Bytes)
    (he : (r.parseSingle uni d).err ≠ none) :
    (r.parseSingle uni d).req.state = r.state ∧ (r.parseSingle uni d).n = 0 := by
  cases hs : r.state with
  | StateError =>
    have : r.parseSingle uni d = ⟨r, 0, some .ErrorRequestInErrorState⟩ := by
      unfold Request.parseSingle; rw [hs]
    rw [this]; exact ⟨hs, rfl⟩
  | StateDone =>
    have : r.parseSingle uni d = ⟨r, 0, none⟩ := by
      unfold Request.parseSingle; rw [hs]
    rw [this]; exact ⟨hs, rfl⟩
  | StateInit =>
    rw [Request.parseSingle_init uni r d hs] at he ⊢
    split
    · exact ⟨hs, rfl⟩
    · rename_i hn
      rw [hn] at he
      simp only [] at he
      split
      · exact ⟨hs, rfl⟩
      · rename_i hz
        rw [if_neg hz] at he
        split
        · rename_i rl hrl
          rw [hrl] at he
          exact absurd rfl he
        · exact ⟨hs, rfl⟩
  | StateHeaders =>
    rw [Request.parseSingle_headers uni r d hs] at he ⊢
    split
    · exact ⟨hs, rfl⟩
    · rename_i hn
      rw [hn] at he
      simp only [] at he
      split
      · rename_i hdn
        rw [if_pos hdn] at he
        exact absurd rfl he
      · rename_i hdn
        rw [if_neg hdn] at he
        exact absurd rfl he
  | StateBody =>
    rw [Request.parseSingle_body uni r d hs] at he ⊢
    by_cases hg : r.Headers.Get uni (ascii "Content-Length") = []
    · rw [if_pos hg] at he
      exact absurd rfl he
    · rw [if_neg hg] at he ⊢
      cases ha : Atoi (r.Headers.Get uni (ascii "Content-Length")) with
      | error e => exact ⟨hs, rfl⟩
      | ok cl =>
        rw [ha] at he
        simp only [] at he ⊢
        by_cases h1 : ((r.Body ++ d).length : Int) > cl
        · rw [if_pos h1]; exact ⟨hs, rfl⟩
        · rw [if_neg h1] at he
          by_cases h2 : ((r.Body ++ d).length : Int) = cl
          · rw [if_pos h2] at he; exact absurd rfl he
          · rw [if_neg h2] at he; exact absurd rfl he

theorem Request.steps_not_error (uni : Bytes → Bytes) (ds : List Bytes) (r : Request)
    (h : r.state ≠ StateError) : (r.steps uni ds).state ≠ StateError := by
  unfold Request.steps
  induction ds generalizing r with
  | nil => exact h
  | cons d ds ih =>
    rw [List.foldl_cons]
    exact ih _ (Request.parseSingle_not_error uni r d h)

/-! ### The fields of an accepted request line -/

/-- The first field of a split holds no separator, and the other fields are the split
of what follows the first separator. -/
theorem Split_cons_inv (s : Bytes) (sep : Nat) : ∀ (a : Bytes) (rest : List Bytes),
    Split s sep = a :: rest →
    sep ∉ a ∧ ((rest = [] ∧ s = a) ∨ ∃ t, s = a ++ sep :: t ∧ Split t sep = rest) := by
  induction s with
  | nil =>
    intro a rest h
    simp only [Split, List.cons.injEq] at h
    obtain ⟨rfl, rfl⟩ := h
    exact ⟨by simp, Or.inl ⟨rfl, rfl⟩⟩
  | cons c cs ih =>
    intro a rest h
    by_cases hc : c = sep
    · rw [Split, if_pos hc] at h
      simp only [List.cons.injEq] at h
      obtain ⟨rfl, rfl⟩ := h
      exact ⟨by simp, Or.inr ⟨cs, by simp [hc], rfl⟩⟩
    · rw [Split, if_neg hc] at h
      cases hsp : Split cs sep with
      | nil => exact absurd hsp (Split_ne_nil cs sep)
      | cons p ps =>
        rw [hsp] at h
        simp only [List.cons.injEq] at h
        obtain ⟨rfl, rfl⟩ := h
        obtain ⟨h1, h2⟩ := ih p ps hsp
        refine ⟨?_, ?_⟩
        · simp only [List.mem_cons, not_or]
          exact ⟨fun e => hc e.symm, h1⟩
        · rcases h2 with ⟨rfl, rfl⟩ | ⟨t, rfl, ht⟩
          · exact Or.inl ⟨rfl, rfl⟩
          · exact Or.inr ⟨t, by simp, ht⟩

theorem Split_three_inv (s : Bytes) (sep : Nat) (a b c : Bytes)
    (h : Split s sep = [a, b, c]) :
    s = a ++ sep :: (b ++ sep :: c) ∧ sep ∉ a ∧ sep ∉ b ∧ sep ∉ c := by
  obtain ⟨ha, h1⟩ := Split_cons_inv s sep a [b, c] h
  rcases h1 with ⟨e, _⟩ | ⟨t1, rfl, ht1⟩
  · simp at e
  obtain ⟨hb, h2⟩ := Split_cons_inv t1 sep b [c] ht1
  rcases h2 with ⟨e, _⟩ | ⟨t2, rfl, ht2⟩
  · simp at e
  obtain ⟨hcm, h3⟩ := Split_cons_inv t2 sep c [] ht2
  rcases h3 with ⟨_, rfl⟩ | ⟨t3, _, ht3⟩
  · exact ⟨rfl, ha, hb, hcm⟩
  · exact absurd ht3 (Split_ne_nil t3 sep)

theorem Split_two_inv (s : Bytes) (sep : Nat) (a b : Bytes) (h : Split s sep = [a, b]) :
    s = a ++ sep :: b := by
  obtain ⟨_, h1⟩ := Split_cons_inv s sep a [b] h
  rcases h1 with ⟨e, _⟩ | ⟨t1, rfl, ht1⟩
  · simp at e
  obtain ⟨_, h2⟩ := Split_cons_inv t1 sep b [] ht1
  rcases h2 with ⟨_, rfl⟩ | ⟨t2, _, ht2⟩
  · rfl
  · exact absurd ht2 (Split_ne_nil t2 sep)

/-- What an accepted request line looks like. -/
theorem parseRequestLine_accepted (b : Bytes) (l : Line) (n : Nat)
    (h : parseRequestLine b = ⟨some l, n, none⟩) :
    ∃ idx, Index b [13, 10] = some idx ∧ n = idx + 2 ∧
      b.take idx = requestLine l.Method l.RequestTarget ∧
      32 ∉ l.Method ∧ 32 ∉ l.RequestTarget ∧ l.HttpVersion = ascii "1.1" := by
  unfold parseRequestLine at h
  cases hI : Index b [13, 10] with
  | none => rw [hI] at h; simp at h
  | some idx =>
    rw [hI] at h
    simp only [] at h
    split at h
    · rename_i p0 p1 p2 hs
      split at h
      · rename_i h0 h1 hs2
        split at h
        · simp at h
        · rename_i hcond
          simp only [not_or, not_not] at hcond
          simp only [LineResult.mk.injEq, Option.some.injEq] at h
          obtain ⟨rfl, rfl, _⟩ := h
          obtain ⟨e, ha, hb, _⟩ := Split_three_inv _ 32 p0 p1 p2 hs
          have e2 := Split_two_inv p2 47 h0 h1 hs2
          refine ⟨idx, rfl, rfl, ?_, ha, hb, hcond.2⟩
          rw [e, e2, hcond.1, hcond.2]
          rfl
      · simp at h
    · simp at h

open writerState

open writerState

/-! ### The response writer on a buffer -/

theorem hexDigit_value (d : Nat) (h : d < 16) (cs : Bytes) (acc : Nat) :
    upperHexValue (hexDigit d :: cs) acc = upperHexValue cs (acc * 16 + d) := by
  unfold hexDigit
  by_cases h10 : d < 10
  · rw [if_pos h10, upperHexValue, if_pos (by omega)]
    congr 2
    omega
  · rw [if_neg h10, upperHexValue, if_neg (by omega), if_pos (by omega)]
    congr 2
    omega

/-- Reading the digits written by the loop of `%X` gives the number back. -/
theorem formatXAux_value (fuel : Nat) : ∀ (n : Nat) (acc : Bytes), n < fuel →
    upperHexValue (formatXAux fuel n acc) 0 = upperHexValue acc n := by
  induction fuel with
  | zero => intro n acc h; omega
  | succ fuel ih =>
    intro n acc h
    rw [formatXAux]
    by_cases h16 : n < 16
    · rw [if_pos h16, hexDigit_value n h16]
      simp
    · rw [if_neg h16, ih (n / 16) _ (by omega), hexDigit_value _ (Nat.mod_lt _ (by omega))]
      congr 1
      omega

theorem formatXAux_head (fuel : Nat) : ∀ (n : Nat) (acc : Bytes), n < fuel →
    ∃ c rest, formatXAux fuel n acc = c :: rest ∧ (0 < n → c ≠ 48) := by
  induction fuel with
  | zero => intro n acc h; omega
  | succ fuel ih =>
    intro n acc h
    rw [formatXAux]
    by_cases h16 : n < 16
    · rw [if_pos h16]
      refine ⟨hexDigit n, acc, rfl, fun hn => ?_⟩
      unfold hexDigit
      split <;> omega
    · rw [if_neg h16]
      obtain ⟨c, rest, e, hc⟩ := ih (n / 16) (hexDigit (n % 16) :: acc) (by omega)
      exact ⟨c, rest, e, fun _ => hc (by omega)⟩

/-- The text of `%X`: upper-case hexadecimal digits that read as the number, the first
of them not `0` unless the number is 0. -/
theorem formatX_spec (n : Nat) :
    upperHexValue (formatX n) 0 = some n ∧ (0 < n → (formatX n).head? ≠ some 48) := by
  unfold formatX
  refine ⟨by rw [formatXAux_value (n + 1) n [] (by omega)]; rfl, fun hn => ?_⟩
  obtain ⟨c, rest, e, hc⟩ := formatXAux_head (n + 1) n [] (by omega)
  rw [e]
  simpa using hc hn

/-- One chunk written to a buffer. -/
theorem WriteChunkedBody_buffer (w : Writer Bytes) (p : Bytes)
    (hs : w.state = stateHeaders ∨ w.state = stateBody) :
    w.WriteChunkedBody bufferWrite p =
      if p = [] then ⟨w, 0, none⟩ else ⟨⟨w.writer ++ chunk p, stateBody⟩, p.length, none⟩ := by
  have h1 : ¬ (w.state ≠ stateHeaders ∧ w.state ≠ stateBody) := by
    rcases hs with h | h <;> rw [h] <;> decide
  rw [Writer.WriteChunkedBody, if_neg h1]
  by_cases hp : p = []
  · subst hp
    rw [if_pos rfl]
    rfl
  · have hl : ¬ p.length = 0 := fun e => hp (List.length_eq_zero.1 e)
    rw [if_neg hl, if_neg hp]
    simp only [bufferWrite, chunk, List.append_assoc]

/-- Chunks written to a buffer, one call after the other. -/
theorem writeChunks_buffer (ps : List Bytes) : ∀ (w : Writer Bytes),
    (w.state = stateHeaders ∨ w.state = stateBody) →
    ∃ w2, Writer.writeChunks bufferWrite w ps = some w2 ∧
      w2.writer = w.writer ++ ((ps.filter (fun p => decide (p ≠ []))).map chunk).flatten ∧
      (w2.state = stateHeaders ∨ w2.state = stateBody) := by
  induction ps with
  | nil => intro w hs; exact ⟨w, rfl, by simp, hs⟩
  | cons p ps ih =>
    intro w hs
    rw [Writer.writeChunks, WriteChunkedBody_buffer w p hs]
    by_cases hp : p = []
    · rw [if_pos hp]
      obtain ⟨w2, e, ho, hst⟩ := ih w hs
      refine ⟨w2, e, ?_, hst⟩
      rw [ho, List.filter_cons_of_neg (by simpa using hp)]
    · rw [if_neg hp]
      obtain ⟨w2, e, ho, hst⟩ := ih ⟨w.writer ++ chunk p, stateBody⟩ (Or.inr rfl)
      refine ⟨w2, e, ?_, hst⟩
      rw [ho, List.filter_cons_of_pos (by simpa using hp)]
      simp

theorem WriteChunkedBodyDone_buffer (w : Writer Bytes)
    (hs : w.state = stateHeaders ∨ w.state = stateBody) :
    w.WriteChunkedBodyDone bufferWrite = ⟨⟨w.writer ++ ascii "0\r\n\r\n", stateBody⟩, 5, none⟩ := by
  have h1 : ¬ (w.state ≠ stateHeaders ∧ w.state ≠ stateBody) := by
    rcases hs with h | h <;> rw [h] <;> decide
  rw [Writer.WriteChunkedBodyDone, if_neg h1]
  rfl

open writerState

/-! ### A response written to a buffer -/

theorem writeLines_buffer (msg : String) (es : List (Bytes × Bytes)) : ∀ (s : Bytes),
    writeLines bufferWrite msg es s = (s ++ (es.map headerLine).flatten, none) := by
  induction es with
  | nil => intro s; simp [writeLines]
  | cons e es ih =>
    intro s
    obtain ⟨k, v⟩ := e
    rw [writeLines]
    simp only [bufferWrite]
    rw [ih]
    simp [headerLine, List.append_assoc]

theorem WriteStatusLine_buffer (w : Writer Bytes) (statusCode : Bytes)
    (hs : w.state = stateInit) :
    w.WriteStatusLine bufferWrite statusCode
      = ⟨⟨w.writer ++ (statusLine statusCode ++ ascii "\r\n"), stateStatus⟩, 0, none⟩ := by
  rw [Writer.WriteStatusLine, if_neg (by rw [hs]; decide)]
  rfl

theorem WriteHeaders_buffer (order : List (Bytes × Bytes) → List (Bytes × Bytes))
    (w : Writer Bytes) (h : Headers) (hs : w.state = stateStatus) :
    w.WriteHeaders bufferWrite order h
      = ⟨⟨w.writer ++ ((order h.headers).map headerLine).flatten ++ ascii "\r\n",
          stateHeaders⟩, 0, none⟩ := by
  rw [Writer.WriteHeaders, if_neg (by rw [hs]; decide)]
  simp only [Headers.All, writeLines_buffer]
  rfl

theorem WriteBody_buffer (w : Writer Bytes) (p : Bytes) (hs : w.state = stateHeaders) :
    w.WriteBody bufferWrite p = ⟨⟨w.writer ++ p, stateBody⟩, p.length, none⟩ := by
  rw [Writer.WriteBody, if_neg (by rw [hs]; decide)]
  rfl

/-! ### The entries of the header table -/

theorem mapPut_keys (m : List (Bytes × Bytes)) (k v : Bytes) :
    (mapPut m k v).map Prod.fst
      = if k ∈ m.map Prod.fst then m.map Prod.fst else m.map Prod.fst ++ [k] := by
  induction m with
  | nil => simp [mapPut]
  | cons p rest ih =>
    obtain ⟨k1, v1⟩ := p
    by_cases h : k1 = k
    · subst h
      simp [mapPut]
    · have h2 : ¬ k = k1 := fun e => h e.symm
      simp only [mapPut, if_neg h, List.map_cons, ih, List.mem_cons, h2, false_or]
      split <;> simp

theorem mapPut_nodup (m : List (Bytes × Bytes)) (k v : Bytes)
    (h : (m.map Prod.fst).Nodup) : ((mapPut m k v).map Prod.fst).Nodup := by
  rw [mapPut_keys]
  split
  · exact h
  · rename_i hk
    rw [List.nodup_append]
    refine ⟨h, by simp, ?_⟩
    intro a ha hb
    simp only [List.mem_singleton] at hb
    subst hb
    exact hk ha

theorem apply_nodup (uni : Bytes → Bytes) (h : Headers) (c : Call)
    (hn : (h.headers.map Prod.fst).Nodup) : ((h.apply uni c).headers.map Prod.fst).Nodup := by
  cases c with
  | set n v =>
    simp only [Headers.apply, Headers.Set]
    split <;> exact mapPut_nodup _ _ _ hn
  | override n v => exact mapPut_nodup _ _ _ hn

theorem foldl_apply_nodup (uni : Bytes → Bytes) (calls : List Call) : ∀ (h : Headers),
    (h.headers.map Prod.fst).Nodup →
    ((calls.foldl (Headers.apply uni) h).headers.map Prod.fst).Nodup := by
  induction calls with
  | nil => intro h hn; exact hn
  | cons c cs ih => intro h hn; exact ih _ (apply_nodup uni h c hn)

/-- In a table without repeated keys the entries are what the lookup finds. -/
theorem mem_iff_mapGet (m : List (Bytes × Bytes)) (hn : (m.map Prod.fst).Nodup)
    (k v : Bytes) : (k, v) ∈ m ↔ mapGet m k = some v := by
  induction m with
  | nil => simp [mapGet]
  | cons p rest ih =>
    obtain ⟨k1, v1⟩ := p
    simp only [List.map_cons, List.nodup_cons] at hn
    by_cases h : k1 = k
    · subst h
      simp only [mapGet, if_true, List.mem_cons, Prod.mk.injEq, true_and, Option.some.injEq]
      constructor
      · rintro (e | hm)
        · exact e.symm
        · exact absurd (List.mem_map_of_mem Prod.fst hm) hn.1
      · intro e; exact Or.inl e.symm
    · simp only [mapGet, if_neg h, List.mem_cons, Prod.mk.injEq]
      rw [← ih hn.2]
      constructor
      · rintro (⟨e, _⟩ | hm)
        · exact absurd e.symm h
        · exact hm
      · intro hm; exact Or.inr hm

open writerState

/-! ### The state of the response writer after an operation -/

theorem writeLines_err {σ : Type} (write : σ → Bytes → WriteResult σ) (msg : String)
    (es : List (Bytes × Bytes)) : ∀ (s : σ) (x : WriterError),
    (writeLines write msg es s).2 = some x → ∃ e, x = .wrapf msg e := by
  induction es with
  | nil => intro s x h; simp [writeLines] at h
  | cons kv es ih =>
    intro s x h
    obtain ⟨k, v⟩ := kv
    rw [writeLines] at h
    cases he : (write s (k ++ ascii ": " ++ v ++ ascii "\r\n")).err with
    | some e =>
      simp only [he] at h
      exact ⟨e, by simpa using h.symm⟩
    | none =>
      simp only [he] at h
      exact ih _ x h

/-- What `WriteStatusLine` returns and leaves behind. -/
theorem WriteStatusLine_cases {σ : Type} (write : σ → Bytes → WriteResult σ) (w : Writer σ)
    (statusCode : Bytes) :
    (w.state ≠ stateInit ∧ w.WriteStatusLine write statusCode
        = ⟨w, 0, some (.errorf "WriteStatusLine must be called first")⟩) ∨
    (w.state = stateInit ∧ ∃ e,
      (write w.writer (statusLine statusCode ++ ascii "\r\n")).err = some e ∧
      w.WriteStatusLine write statusCode
        = ⟨⟨(write w.writer (statusLine statusCode ++ ascii "\r\n")).next, w.state⟩, 0,
            some (.wrapf "error writing status line: " e)⟩) ∨
    (w.state = stateInit ∧
      (write w.writer (statusLine statusCode ++ ascii "\r\n")).err = none ∧
      w.WriteStatusLine write statusCode
        = ⟨⟨(write w.writer (statusLine statusCode ++ ascii "\r\n")).next, stateStatus⟩, 0,
            none⟩) := by
  by_cases hs : w.state = stateInit
  · right
    cases he : (write w.writer (statusLine statusCode ++ ascii "\r\n")).err with
    | some e =>
      left
      refine ⟨hs, e, rfl, ?_⟩
      rw [Writer.WriteStatusLine, if_neg (by simpa using hs)]
      simp only [he]
    | none =>
      right
      refine ⟨hs, rfl, ?_⟩
      rw [Writer.WriteStatusLine, if_neg (by simpa using hs)]
      simp only [he]
  · left
    exact ⟨hs, by rw [Writer.WriteStatusLine, if_pos hs]⟩

/-- What `WriteBody` returns and leaves behind. -/
theorem WriteBody_cases {σ : Type} (write : σ → Bytes → WriteResult σ) (w : Writer σ)
    (p : Bytes) :
    (w.state ≠ stateHeaders ∧ w.WriteBody write p
        = ⟨w, 0, some (.errorf "WriteBody must be called after WriteHeaders")⟩) ∨
    (w.state = stateHeaders ∧ ∃ e, (write w.writer p).err = some e ∧
      w.WriteBody write p
        = ⟨⟨(write w.writer p).next, w.state⟩, (write w.writer p).n,
            some (.wrapf "error writing body: " e)⟩) ∨
    (w.state = stateHeaders ∧ (write w.writer p).err = none ∧
      w.WriteBody write p
        = ⟨⟨(write w.writer p).next, stateBody⟩, (write w.writer p).n, none⟩) := by
  by_cases hs : w.state = stateHeaders
  · right
    cases he : (write w.writer p).err with
    | some e =>
      left
      refine ⟨hs, e, rfl, ?_⟩
      rw [Writer.WriteBody, if_neg (by simpa using hs)]
      simp only [he]
    | none =>
      right
      refine ⟨hs, rfl, ?_⟩
      rw [Writer.WriteBody, if_neg (by simpa using hs)]
      simp only [he]
  · left
    exact ⟨hs, by rw [Writer.WriteBody, if_pos hs]⟩

/-- What `WriteChunkedBodyDone` returns and leaves behind. -/
theorem WriteChunkedBodyDone_cases {σ : Type} (write : σ → Bytes → WriteResult σ)
    (w : Writer σ) :
    ((w.state ≠ stateHeaders ∧ w.state ≠ stateBody) ∧ w.WriteChunkedBodyDone write
        = ⟨w, 0, some (.errorf
            "WriteChunkedBodyDone muse be called after WriteHeaders or WriteChunkedBody")⟩) ∨
    ((w.state = stateHeaders ∨ w.state = stateBody) ∧ ∃ e,
      (write w.writer (ascii "0\r\n\r\n")).err = some e ∧
      w.WriteChunkedBodyDone write
        = ⟨⟨(write w.writer (ascii "0\r\n\r\n")).next, w.state⟩,
            (write w.writer (ascii "0\r\n\r\n")).n,
            some (.wrapf "error writing final chunk: " e)⟩) ∨
    ((w.state = stateHeaders ∨ w.state = stateBody) ∧
      (write w.writer (ascii "0\r\n\r\n")).err = none ∧
      w.WriteChunkedBodyDone write
        = ⟨⟨(write w.writer (ascii "0\r\n\r\n")).next, stateBody⟩,
            (write w.writer (ascii "0\r\n\r\n")).n, none⟩) := by
  by_cases hs : w.state ≠ stateHeaders ∧ w.state ≠ stateBody
  · left
    exact ⟨hs, by rw [Writer.WriteChunkedBodyDone, if_pos hs]⟩
  · right
    have hv : w.state = stateHeaders ∨ w.state = stateBody := by
      by_cases h1 : w.state = stateHeaders
      · exact Or.inl h1
      · by_cases h2 : w.state = stateBody
        · exact Or.inr h2
        · exact absurd ⟨h1, h2⟩ hs
    cases he : (write w.writer (ascii "0\r\n\r\n")).err with
    | some e =>
      left
      refine ⟨hv, e, rfl, ?_⟩
      rw [Writer.WriteChunkedBodyDone, if_neg hs]
      simp only [he]
    | none =>
      right
      refine ⟨hv, rfl, ?_⟩
      rw [Writer.WriteChunkedBodyDone, if_neg hs]
      simp only [he]

/-- What `WriteHeaders` returns and leaves behind, the sink apart. -/
theorem WriteHeaders_cases {σ : Type} (write : σ → Bytes → WriteResult σ)
    (order : List (Bytes × Bytes) → List (Bytes × Bytes)) (w : Writer σ) (h : Headers) :
    (w.state ≠ stateStatus ∧ w.WriteHeaders write order h
        = ⟨w, 0, some (.errorf "WriteHeaders must be called after WriteStatusLine")⟩) ∨
    (w.state = stateStatus ∧ (w.WriteHeaders write order h).w.state = w.state ∧
      ∃ e, (w.WriteHeaders write order h).err = some (.wrapf "error writing header: " e) ∨
        (w.WriteHeaders write order h).err
          = some (.wrapf "error writing header separator: " e)) ∨
    (w.state = stateStatus ∧ (w.WriteHeaders write order h).w.state = stateHeaders ∧
      (w.WriteHeaders write order h).err = none) := by
  by_cases hs : w.state = stateStatus
  · right
    rw [Writer.WriteHeaders, if_neg (by simpa using hs)]
    simp only [Headers.All]
    cases hl : writeLines write "error writing header: " (order h.headers) w.writer with
    | mk s ox =>
      cases ox with
      | some x =>
        left
        obtain ⟨e, rfl⟩ := writeLines_err write _ _ _ x (by rw [hl])
        exact ⟨hs, rfl, e, Or.inl rfl⟩
      | none =>
        simp only []
        cases he : (write s (ascii "\r\n")).err with
        | some e => left; exact ⟨hs, rfl, e, Or.inr rfl⟩
        | none => right; exact ⟨hs, rfl, rfl⟩
  · left
    exact ⟨hs, by rw [Writer.WriteHeaders, if_pos hs]⟩

/-- What `WriteTrailers` returns and leaves behind, the sink apart. -/
theorem WriteTrailers_cases {σ : Type} (write : σ → Bytes → WriteResult σ)
    (order : List (Bytes × Bytes) → List (Bytes × Bytes)) (w : Writer σ) (h : Headers) :
    (w.state ≠ stateBody ∧ w.WriteTrailers write order h
        = ⟨w, 0, some (.errorf "WriteTrailers must be called after WriteChunkedBodyDone")⟩) ∨
    (w.state = stateBody ∧ (w.WriteTrailers write order h).w.state = w.state ∧
      ∃ e, (w.WriteTrailers write order h).err = some (.wrapf "error writing trailer: " e) ∨
        (w.WriteTrailers write order h).err
          = some (.wrapf "error writing trailer separator: " e)) ∨
    (w.state = stateBody ∧ (w.WriteTrailers write order h).w.state = stateTrailers ∧
      (w.WriteTrailers write order h).err = none) := by
  by_cases hs : w.state = stateBody
  · right
    rw [Writer.WriteTrailers, if_neg (by simpa using hs)]
    simp only [Headers.All]
    cases hl : writeLines write "error writing trailer: " (order h.headers) w.writer with
    | mk s ox =>
      cases ox with
      | some x =>
        left
        obtain ⟨e, rfl⟩ := writeLines_err write _ _ _ x (by rw [hl])
        exact ⟨hs, rfl, e, Or.inl rfl⟩
      | none =>
        simp only []
        cases he : (write s (ascii "\r\n")).err with
        | some e => left; exact ⟨hs, rfl, e, Or.inr rfl⟩
        | none => right; exact ⟨hs, rfl, rfl⟩
  · left
    exact ⟨hs, by rw [Writer.WriteTrailers, if_pos hs]⟩

/-- What `WriteChunkedBody` returns and leaves behind, the sink apart. -/
theorem WriteChunkedBody_cases {σ : Type} (write : σ → Bytes → WriteResult σ)
    (w : Writer σ) (p : Bytes) :
    ((w.state ≠ stateHeaders ∧ w.state ≠ stateBody) ∧ w.WriteChunkedBody write p
        = ⟨w, 0, some (.errorf "WriteChunkedBody must be called after WriteHeaders")⟩) ∨
    ((w.state = stateHeaders ∨ w.state = stateBody) ∧ p = [] ∧
      w.WriteChunkedBody write p = ⟨w, 0, none⟩) ∨
    ((w.state = stateHeaders ∨ w.state = stateBody) ∧ p ≠ [] ∧
      (w.WriteChunkedBody write p).w.state = w.state ∧
      ∃ e, (w.WriteChunkedBody write p).err = some (.wrapf "error writing chunk size: " e) ∨
        (w.WriteChunkedBody write p).err = some (.wrapf "error writing chunk data: " e) ∨
        (w.WriteChunkedBody write p).err
          = some (.wrapf "error writing chunk trailing CRLF: " e)) ∨
    ((w.state = stateHeaders ∨ w.state = stateBody) ∧ p ≠ [] ∧
      (w.WriteChunkedBody write p).w.state = stateBody ∧
      (w.WriteChunkedBody write p).err = none) := by
  by_cases hs : w.state ≠ stateHeaders ∧ w.state ≠ stateBody
  · left
    exact ⟨hs, by rw [Writer.WriteChunkedBody, if_pos hs]⟩
  · right
    have hv : w.state = stateHeaders ∨ w.state = stateBody := by
      by_cases h1 : w.state = stateHeaders
      · exact Or.inl h1
      · by_cases h2 : w.state = stateBody
        · exact Or.inr h2
        · exact absurd ⟨h1, h2⟩ hs
    by_cases hp : p = []
    · left
      subst hp
      refine ⟨hv, rfl, ?_⟩
      rw [Writer.WriteChunkedBody, if_neg hs]
      rfl
    · right
      have hl : ¬ p.length = 0 := fun e => hp (List.length_eq_zero.1 e)
      rw [Writer.WriteChunkedBody, if_neg hs, if_neg hl]
      simp only []
      cases h1 : (write w.writer (formatX p.length ++ ascii "\r\n")).err with
      | some e => left; exact ⟨hv, hp, rfl, e, Or.inl rfl⟩
      | none =>
        simp only []
        cases h2 : (write (write w.writer (formatX p.length ++ ascii "\r\n")).next p).err with
        | some e => left; exact ⟨hv, hp, rfl, e, Or.inr (Or.inl rfl)⟩
        | none =>
          simp only []
          cases h3 : (write (write (write w.writer (formatX p.length ++ ascii "\r\n")).next
              p).next (ascii "\r\n")).err with
          | some e => left; exact ⟨hv, hp, rfl, e, Or.inr (Or.inr rfl)⟩
          | none => right; exact ⟨hv, hp, rfl, rfl⟩

open writerState

theorem WriteStatusLine_err_state {σ : Type} (write : σ → Bytes → WriteResult σ)
    (w : Writer σ) (statusCode : Bytes) (he : (w.WriteStatusLine write statusCode).err ≠ none) :
    (w.WriteStatusLine write statusCode).w.state = w.state := by
  rcases WriteStatusLine_cases write w statusCode with ⟨_, e⟩ | ⟨_, _, _, e⟩ | ⟨_, _, e⟩
  · rw [e]
  · rw [e]
  · rw [e] at he; exact absurd rfl he

theorem WriteBody_err_state {σ : Type} (write : σ → Bytes → WriteResult σ)
    (w : Writer σ) (p : Bytes) (he : (w.WriteBody write p).err ≠ none) :
    (w.WriteBody write p).w.state = w.state := by
  rcases WriteBody_cases write w p with ⟨_, e⟩ | ⟨_, _, _, e⟩ | ⟨_, _, e⟩
  · rw [e]
  · rw [e]
  · rw [e] at he; exact absurd rfl he

theorem WriteChunkedBodyDone_err_state {σ : Type} (write : σ → Bytes → WriteResult σ)
    (w : Writer σ) (he : (w.WriteChunkedBodyDone write).err ≠ none) :
    (w.WriteChunkedBodyDone write).w.state = w.state := by
  rcases WriteChunkedBodyDone_cases write w with ⟨_, e⟩ | ⟨_, _, _, e⟩ | ⟨_, _, e⟩
  · rw [e]
  · rw [e]
  · rw [e] at he; exact absurd rfl he

theorem WriteHeaders_err_state {σ : Type} (write : σ → Bytes → WriteResult σ)
    (order : List (Bytes × Bytes) → List (Bytes × Bytes)) (w : Writer σ) (h : Headers)
    (he : (w.WriteHeaders write order h).err ≠ none) :
    (w.WriteHeaders write order h).w.state = w.state := by
  rcases WriteHeaders_cases write order w h with ⟨_, e⟩ | ⟨_, e, _⟩ | ⟨_, _, e⟩
  · rw [e]
  · exact e
  · exact absurd e he

theorem WriteTrailers_err_state {σ : Type} (write : σ → Bytes → WriteResult σ)
    (order : List (Bytes × Bytes) → List (Bytes × Bytes)) (w : Writer σ) (h : Headers)
    (he : (w.WriteTrailers write order h).err ≠ none) :
    (w.WriteTrailers write order h).w.state = w.state := by
  rcases WriteTrailers_cases write order w h with ⟨_, e⟩ | ⟨_, e, _⟩ | ⟨_, _, e⟩
  · rw [e]
  · exact e
  · exact absurd e he

theorem WriteChunkedBody_err_state {σ : Type} (write : σ → Bytes → WriteResult σ)
    (w : Writer σ) (p : Bytes) (he : (w.WriteChunkedBody write p).err ≠ none) :
    (w.WriteChunkedBody write p).w.state = w.state := by
  rcases WriteChunkedBody_cases write w p with ⟨_, e⟩ | ⟨_, _, e⟩ | ⟨_, _, e, _⟩ | ⟨_, _, _, e⟩
  · rw [e]
  · rw [e]
  · exact e
  · exact absurd e he

open writerState

open writerState

/-! ### The count of consumed bytes -/

/-- The total returned by the driver loop stays within what it was given. -/
theorem Request.parseLoop_n_le (uni : Bytes → Bytes) (fuel : Nat) : ∀ (r : Request)
    (rest : Bytes) (total : Nat),
    (Request.parseLoop uni fuel r rest total).n ≤ total + rest.length := by
  induction fuel with
  | zero => intro r rest total; simp [Request.parseLoop]
  | succ k ih =>
    intro r rest total
    rw [Request.parseLoop]
    by_cases hd : r.state = StateDone
    · rw [if_pos hd]; simp
    · rw [if_neg hd]
      simp only []
      have hn := Request.parseSingle_n_le uni r rest
      cases he : (r.parseSingle uni rest).err with
      | some e => simp
      | none =>
        simp only []
        by_cases h0 : (r.parseSingle uni rest).n = 0
        · rw [if_pos h0]; simp
        · rw [if_neg h0]
          have := ih (r.parseSingle uni rest).req (rest.drop (r.parseSingle uni rest).n)
            (total + (r.parseSingle uni rest).n)
          rw [List.length_drop] at this
          omega

open writerState

/-! ### readInt64 on decimal numbers -/

theorem readInt64_tests :
    readInt64 (ascii ":123\r\n") = ⟨123, 6, none⟩ ∧
    readInt64 (ascii ":-456\r\n") = ⟨-456, 7, none⟩ ∧
    readInt64 (ascii ":+789\r\n") = ⟨789, 7, none⟩ ∧
    readInt64 (ascii ":\r\n") = ⟨0, 0, some .inputTooShort⟩ ∧
    readInt64 (ascii ":9223372036854775808\r\n") = ⟨0, 0, some .integerOverflow⟩ ∧
    readInt64 (ascii ":9223372036854775807\r\n") = ⟨9223372036854775807, 22, none⟩ ∧
    readInt64 (ascii ":-9223372036854775808\r\n") = ⟨0, 0, some .integerOverflow⟩ := by
  refine ⟨by decide, by decide, by decide, by decide, by decide, by decide, by decide⟩

theorem wrapInt64_id (x : Int) (h1 : -9223372036854775808 ≤ x) (h2 : x ≤ MaxInt64) :
    wrapInt64 x = x := by
  unfold wrapInt64
  unfold MaxInt64 at h2
  omega

theorem readDigits_digit (d : Nat) (acc : Bytes) (res : Int) (pos dc : Nat) (hd : d < 10)
    (h0 : 0 ≤ res) (hm : res * 10 + (d : Int) ≤ MaxInt64) :
    readDigits ((48 + d) :: acc) res pos dc
      = readDigits acc (res * 10 + (d : Int)) (pos + 1) (dc + 1) := by
  have h1 : 48 ≤ 48 + d ∧ 48 + d ≤ 57 := by omega
  have h2 : ¬ (res > (MaxInt64 - (d : Int)) / 10) := by
    unfold MaxInt64 at hm ⊢
    omega
  rw [readDigits, if_pos h1, Nat.add_sub_cancel_left, if_neg h2,
    wrapInt64_id _ (by omega) hm]

theorem decimalAux_append (fuel : Nat) : ∀ (n : Nat) (acc t : Bytes),
    decimalAux fuel n acc ++ t = decimalAux fuel n (acc ++ t) := by
  induction fuel with
  | zero => intro n acc t; rfl
  | succ k ih =>
    intro n acc t
    rw [decimalAux, decimalAux]
    by_cases h : n < 10
    · rw [if_pos h, if_pos h]; rfl
    · rw [if_neg h, if_neg h, ih]; rfl

/-- The digit loop on the decimal representation of `n`: it reads `n` and counts the
digits. -/
theorem readDigits_decimalAux (fuel : Nat) : ∀ (n : Nat) (acc : Bytes), n < fuel →
    (n : Int) ≤ MaxInt64 →
    ∃ k, 1 ≤ k ∧ (decimalAux fuel n acc).length = acc.length + k ∧
      ∀ pos dc, readDigits (decimalAux fuel n acc) 0 pos dc
        = readDigits acc (n : Int) (pos + k) (dc + k) := by
  induction fuel with
  | zero => intro n acc hf; omega
  | succ f ih =>
    intro n acc hf hn
    rw [decimalAux]
    by_cases h : n < 10
    · rw [if_pos h]
      refine ⟨1, le_refl _, by simp, fun pos dc => ?_⟩
      rw [readDigits_digit n acc 0 pos dc h (le_refl _) (by simpa using hn)]
      simp
    · rw [if_neg h]
      have hn2 : ((n / 10 : Nat) : Int) ≤ MaxInt64 := by
        unfold MaxInt64 at hn ⊢
        omega
      obtain ⟨k, hk, hl, hr⟩ := ih (n / 10) ((48 + n % 10) :: acc) (by omega) hn2
      refine ⟨k + 1, by omega, by rw [hl]; simp; omega, fun pos dc => ?_⟩
      rw [hr, readDigits_digit (n % 10) acc _ _ _ (Nat.mod_lt _ (by omega)) (by omega)
        (by unfold MaxInt64 at hn ⊢; omega)]
      have e : ((n / 10 : Nat) : Int) * 10 + ((n % 10 : Nat) : Int) = (n : Int) := by omega
      rw [e]
      rfl

open writerState


theorem getD_after (a : Bytes) (x y : Nat) :
    (a ++ [x, y]).getD a.length 0 = x ∧ (a ++ [x, y]).getD (a.length + 1) 0 = y := by
  induction a with
  | nil => exact ⟨rfl, rfl⟩
  | cons c cs ih => simpa using ih

/-- The decimal representation followed by CRLF, as the digit loop sees it. -/
theorem readDigits_decimal (n : Nat) (hn : (n : Int) ≤ MaxInt64) :
    ∃ c rest, decimal n = c :: rest ∧ 48 ≤ c ∧ c ≤ 57 ∧
      ∀ pos, readDigits (decimal n ++ [13, 10]) 0 pos 0
        = ⟨(n : Int), pos + (decimal n).length, (decimal n).length, false⟩ := by
  obtain ⟨c, rest, e, h1, h2⟩ := decimalAux_head (n + 1) n [] (by omega)
  obtain ⟨k, hk, hl, hr⟩ := readDigits_decimalAux (n + 1) n [13, 10] (by omega) hn
  obtain ⟨k2, _, hl2, _⟩ := readDigits_decimalAux (n + 1) n [] (by omega) hn
  have happ := decimalAux_append (n + 1) n [] [13, 10]
  simp only [List.nil_append] at happ
  have hkk : k2 = k := by
    have := congrArg List.length happ
    rw [List.length_append, hl, hl2] at this
    simp at this
    omega
  subst hkk
  refine ⟨c, rest, e, h1, h2, fun pos => ?_⟩
  unfold decimal
  rw [happ, hr, hl2]
  simp [readDigits]

theorem readInt64_signed (pre : Bytes) (sign : Int) (n : Nat)
    (hpre : (pre = [58] ∧ sign = 1) ∨ (pre = [58, 43] ∧ sign = 1) ∨
      (pre = [58, 45] ∧ sign = -1))
    (hn : (n : Int) ≤ MaxInt64) :
    readInt64 (pre ++ (decimal n ++ [13, 10]))
      = ⟨(n : Int) * sign, pre.length + (decimal n).length + 2, none⟩ := by
  obtain ⟨c, rest, e, h1, h2, hr⟩ := readDigits_decimal n hn
  have hlen : 1 ≤ (decimal n).length := by rw [e]; simp
  have hg := getD_after (pre ++ decimal n) 13 10
  rw [List.append_assoc, List.length_append] at hg
  have hw : wrapInt64 ((n : Int) * sign) = (n : Int) * sign := by
    apply wrapInt64_id
    · unfold MaxInt64 at hn
      rcases hpre with ⟨_, rfl⟩ | ⟨_, rfl⟩ | ⟨_, rfl⟩ <;> omega
    · unfold MaxInt64 at hn ⊢
      rcases hpre with ⟨_, rfl⟩ | ⟨_, rfl⟩ | ⟨_, rfl⟩ <;> omega
  rcases hpre with ⟨rfl, rfl⟩ | ⟨rfl, rfl⟩ | ⟨rfl, rfl⟩
  · have hc : ¬ c = 45 ∧ ¬ c = 43 := by omega
    have hd : ([58] ++ (decimal n ++ [13, 10])).getD 1 0 = c := by rw [e]; rfl
    unfold readInt64
    rw [if_neg (by simp only [List.length_append, List.length_cons, List.length_nil]; omega),
      if_neg (by simp)]
    simp only [hd, if_neg hc.1, if_neg hc.2]
    rw [show List.drop 1 ([58] ++ (decimal n ++ [13, 10])) = decimal n ++ [13, 10] from rfl,
      hr 1]
    simp only [List.length_cons, List.length_nil] at hg
    simp only [Bool.false_eq_true, if_false, hg.1, hg.2, hw]
    rw [if_neg (by omega), if_neg (by
      simp only [List.length_append, List.length_cons, List.length_nil]; omega)]
    simp
  · unfold readInt64
    rw [if_neg (by simp only [List.length_append, List.length_cons, List.length_nil]; omega),
      if_neg (by simp)]
    have hd : ([58, 43] ++ (decimal n ++ [13, 10])).getD 1 0 = 43 := rfl
    simp only [hd, show ¬ ((43 : Nat) = 45) from by decide, if_false, if_true]
    rw [show List.drop 2 ([58, 43] ++ (decimal n ++ [13, 10])) = decimal n ++ [13, 10]
      from rfl, hr 2]
    simp only [List.length_cons, List.length_nil] at hg
    simp only [Bool.false_eq_true, if_false, hg.1, hg.2, hw]
    rw [if_neg (by omega), if_neg (by
      simp only [List.length_append, List.length_cons, List.length_nil]; omega)]
    simp
  · unfold readInt64
    rw [if_neg (by simp only [List.length_append, List.length_cons, List.length_nil]; omega),
      if_neg (by simp)]
    have hd : ([58, 45] ++ (decimal n ++ [13, 10])).getD 1 0 = 45 := rfl
    simp only [hd, if_true]
    rw [show List.drop 2 ([58, 45] ++ (decimal n ++ [13, 10])) = decimal n ++ [13, 10]
      from rfl, hr 2]
    simp only [List.length_cons, List.length_nil] at hg
    simp only [Bool.false_eq_true, if_false, hg.1, hg.2, hw]
    rw [if_neg (by omega), if_neg (by
      simp only [List.length_append, List.length_cons, List.length_nil]; omega)]
    simp

open writerState

/-! ### The staging buffer -/

theorem goCopy_length (dst src : Bytes) (h : src.length ≤ dst.length) :
    (goCopy dst src).length = dst.length := by
  unfold goCopy
  rw [List.length_append, List.length_take, List.length_drop]
  omega

theorem goCopy_take (dst src : Bytes) (h : src.length ≤ dst.length) :
    (goCopy dst src).take src.length = src := by
  unfold goCopy
  rw [List.take_of_length_le h, List.take_left']
  rfl

theorem readChunks_contract : ReadContract readChunks := by
  intro rd room
  cases rd with
  | nil => simp [readChunks]
  | cons c cs =>
    rw [readChunks]
    split
    · assumption
    · simp only [List.length_take]; omega

open writerState

theorem Staging.filled_length (s : Staging) (h1 : s.buf.length = 1024) (h2 : s.bufLen ≤ 1024) :
    s.filled.length = s.bufLen := by
  unfold Staging.filled
  rw [List.length_take]
  omega

theorem Staging.filled_mk (b : Bytes) (k : Nat) : (⟨b, k⟩ : Staging).filled = b.take k := rfl

/-- The array after a read that obeys the contract: the filled prefix grows by the
bytes read. -/
theorem Staging.read_facts (s : Staging) (bytes : Bytes) (h1 : s.buf.length = 1024)
    (h2 : s.bufLen ≤ 1024) (hb : bytes.length ≤ s.buf.length - s.bufLen) :
    (s.buf.take s.bufLen ++ goCopy (s.buf.drop s.bufLen) bytes).length = 1024 ∧
    (s.buf.take s.bufLen ++ goCopy (s.buf.drop s.bufLen) bytes).take
        (s.bufLen + bytes.length) = s.filled ++ bytes := by
  have hl : (s.buf.take s.bufLen).length = s.bufLen := by
    rw [List.length_take]; omega
  have hd : bytes.length ≤ (s.buf.drop s.bufLen).length := by
    rw [List.length_drop]; exact hb
  constructor
  · rw [List.length_append, hl, goCopy_length _ _ hd, List.length_drop]
    omega
  · rw [List.take_append_eq_append_take, hl, List.take_of_length_le (by omega)]
    rw [show s.bufLen + bytes.length - s.bufLen = bytes.length by omega, goCopy_take _ _ hd]
    rfl

/-- The loop on the staging array makes the passes of the loop on the filled prefix,
and a reader that obeys the read contract keeps every pass in bounds. -/
theorem FromReaderStaged_spec {σ : Type} (uni : Bytes → Bytes)
    (read : σ → Nat → ReadResult σ) (hread : ReadContract read) (fuel : Nat) :
    ∀ (rd : σ) (request : Request) (s : Staging) (seen : Bytes) (consumed : Nat),
      s.buf.length = 1024 → s.bufLen ≤ 1024 → consumed ≤ seen.length →
      s.filled = seen.drop consumed →
      (FromReaderStaged uni read fuel rd request s seen consumed).1
        = FromReaderLoop uni read fuel rd request s.filled ∧
      (FromReaderStaged uni read fuel rd request s seen consumed).1 ≠ .panic ∧
      ∀ p ∈ (FromReaderStaged uni read fuel rd request s seen consumed).2, p.inBounds := by
  induction fuel with
  | zero =>
    intro rd request s seen consumed h1 h2 h3 h4
    simp [FromReaderStaged, FromReaderLoop]
  | succ fuel ih =>
    intro rd request s seen consumed h1 h2 h3 h4
    have hfl := Staging.filled_length s h1 h2
    have hbl : s.bufLen = seen.length - consumed := by
      have := congrArg List.length h4
      rw [hfl, List.length_drop] at this
      exact this
    rw [FromReaderStaged, FromReaderLoop]
    by_cases hd : request.done = true
    · simp only [hd, if_true]
      refine ⟨?_, ?_, by simp⟩
      · first | rfl | trivial
      · split <;> simp
    · simp only [hd, Bool.false_eq_true, if_false]
      have hroom : 1024 - s.filled.length = s.buf.length - s.bufLen := by omega
      rw [hroom]
      have hb := hread rd (s.buf.length - s.bufLen)
      cases he : (read rd (s.buf.length - s.bufLen)).err with
      | some e => simp
      | none =>
        simp only []
        obtain ⟨hl1, ht1⟩ := Staging.read_facts s _ h1 h2 hb
        have hlen2 : (s.filled ++ (read rd (s.buf.length - s.bufLen)).bytes).length
            = s.bufLen + (read rd (s.buf.length - s.bufLen)).bytes.length := by
          rw [List.length_append, hfl]
        rw [hl1, ht1, hlen2]
        have hnp : ¬ (s.bufLen + (read rd (s.buf.length - s.bufLen)).bytes.length > 1024) := by
          omega
        simp only [if_neg hnp]
        have hn := Request.parseLoop_n_le uni
          ((s.filled ++ (read rd (s.buf.length - s.bufLen)).bytes).length + 1) request
          (s.filled ++ (read rd (s.buf.length - s.bufLen)).bytes) 0
        have hn2 : (request.parse uni
            (s.filled ++ (read rd (s.buf.length - s.bufLen)).bytes)).n
            ≤ s.bufLen + (read rd (s.buf.length - s.bufLen)).bytes.length := by
          unfold Request.parse
          omega
        have hseen : s.filled ++ (read rd (s.buf.length - s.bufLen)).bytes
            = (seen ++ (read rd (s.buf.length - s.bufLen)).bytes).drop consumed := by
          rw [h4, List.drop_append_of_le_length h3]
        cases hpe : (request.parse uni
            (s.filled ++ (read rd (s.buf.length - s.bufLen)).bytes)).err with
        | some e =>
          simp only []
          refine ⟨trivial, by simp, ?_⟩
          intro p hp
          simp only [List.mem_singleton] at hp
          subst hp
          have hz := Request.parseLoop_err_n uni _ request
            (s.filled ++ (read rd (s.buf.length - s.bufLen)).bytes) 0
            (by
              have : (request.parse uni
                (s.filled ++ (read rd (s.buf.length - s.bufLen)).bytes)).err ≠ none := by
                rw [hpe]; simp
              exact this)
          have hz2 : (request.parse uni
              (s.filled ++ (read rd (s.buf.length - s.bufLen)).bytes)).n = 0 := hz
          unfold Pass.inBounds
          dsimp only
          rw [hz2]
          refine ⟨by omega, by omega, hl1, by omega,
            by rw [List.length_append]; omega, ?_⟩
          simp only [Staging.filled, ht1, Nat.add_zero]
          exact hseen
        | none =>
          simp only []
          have hsrc : ((s.filled ++ (read rd (s.buf.length - s.bufLen)).bytes).drop
              (request.parse uni
                (s.filled ++ (read rd (s.buf.length - s.bufLen)).bytes)).n).length
              = s.bufLen + (read rd (s.buf.length - s.bufLen)).bytes.length
                - (request.parse uni
                    (s.filled ++ (read rd (s.buf.length - s.bufLen)).bytes)).n := by
            rw [List.length_drop, hlen2]
          have hfill2 : (⟨goCopy (s.buf.take s.bufLen
                ++ goCopy (s.buf.drop s.bufLen) (read rd (s.buf.length - s.bufLen)).bytes)
              ((s.filled ++ (read rd (s.buf.length - s.bufLen)).bytes).drop
                (request.parse uni
                  (s.filled ++ (read rd (s.buf.length - s.bufLen)).bytes)).n),
              s.bufLen + (read rd (s.buf.length - s.bufLen)).bytes.length
                - (request.parse uni
                    (s.filled ++ (read rd (s.buf.length - s.bufLen)).bytes)).n⟩ :
              Staging).filled
              = (s.filled ++ (read rd (s.buf.length - s.bufLen)).bytes).drop
                (request.parse uni
                  (s.filled ++ (read rd (s.buf.length - s.bufLen)).bytes)).n := by
            rw [Staging.filled_mk, ← hsrc]
            exact goCopy_take _ _ (by rw [hl1, hsrc]; omega)
          have hlen3 : (goCopy (s.buf.take s.bufLen
                ++ goCopy (s.buf.drop s.bufLen) (read rd (s.buf.length - s.bufLen)).bytes)
              ((s.filled ++ (read rd (s.buf.length - s.bufLen)).bytes).drop
                (request.parse uni
                  (s.filled ++ (read rd (s.buf.length - s.bufLen)).bytes)).n)).length
              = 1024 := by
            rw [goCopy_length _ _ (by rw [hl1, hsrc]; omega), hl1]
          have hdrop : (s.filled ++ (read rd (s.buf.length - s.bufLen)).bytes).drop
                (request.parse uni
                  (s.filled ++ (read rd (s.buf.length - s.bufLen)).bytes)).n
              = (seen ++ (read rd (s.buf.length - s.bufLen)).bytes).drop
                (consumed + (request.parse uni
                  (s.filled ++ (read rd (s.buf.length - s.bufLen)).bytes)).n) := by
            rw [hseen, List.drop_drop]
          obtain ⟨i1, i2, i3⟩ := ih (read rd (s.buf.length - s.bufLen)).next
            (request.parse uni (s.filled ++ (read rd (s.buf.length - s.bufLen)).bytes)).req
            ⟨goCopy (s.buf.take s.bufLen
                ++ goCopy (s.buf.drop s.bufLen) (read rd (s.buf.length - s.bufLen)).bytes)
              ((s.filled ++ (read rd (s.buf.length - s.bufLen)).bytes).drop
                (request.parse uni
                  (s.filled ++ (read rd (s.buf.length - s.bufLen)).bytes)).n),
              s.bufLen + (read rd (s.buf.length - s.bufLen)).bytes.length
                - (request.parse uni
                    (s.filled ++ (read rd (s.buf.length - s.bufLen)).bytes)).n⟩
            (seen ++ (read rd (s.buf.length - s.bufLen)).bytes)
            (consumed + (request.parse uni
              (s.filled ++ (read rd (s.buf.length - s.bufLen)).bytes)).n)
            hlen3 (by simp only []; omega)
            (by rw [List.length_append]; omega)
            (by rw [hfill2, hdrop])
          rw [hfill2] at i1
          refine ⟨i1, i2, ?_⟩
          intro p hp
          simp only [List.mem_cons] at hp
          rcases hp with rfl | hp
          · unfold Pass.inBounds
            dsimp only
            exact ⟨by omega, hn2, hlen3, rfl, by rw [List.length_append]; omega,
              by rw [hfill2, hdrop]⟩
          · exact i3 p hp

open writerState

open writerState

/-! ### A write that fails in the middle of an operation -/

theorem writeLines_of_writeAll {σ : Type} (write : σ → Bytes → WriteResult σ) (msg : String)
    (es : List (Bytes × Bytes)) : ∀ (s s1 : σ),
    writeAll write (es.map headerLine) s = some s1 → writeLines write msg es s = (s1, none) := by
  induction es with
  | nil =>
    intro s s1 h
    simp only [List.map_nil, writeAll, Option.some.injEq] at h
    rw [writeLines, h]
  | cons kv es ih =>
    intro s s1 h
    obtain ⟨k, v⟩ := kv
    rw [List.map_cons, writeAll] at h
    rw [writeLines]
    have hl : headerLine (k, v) = k ++ ascii ": " ++ v ++ ascii "\r\n" := rfl
    rw [hl] at h
    cases he : (write s (k ++ ascii ": " ++ v ++ ascii "\r\n")).err with
    | some e => rw [he] at h; simp at h
    | none =>
      rw [he] at h
      simp only [] at h ⊢
      exact ih _ _ h

/-- The loop over the lines stops at the first line whose write fails and returns
the failure wrapped. -/
theorem writeLines_fail {σ : Type} (write : σ → Bytes → WriteResult σ) (msg : String)
    (pre : List (Bytes × Bytes)) (kv : Bytes × Bytes) (post : List (Bytes × Bytes))
    (e : Error) : ∀ (s s1 : σ),
    writeAll write (pre.map headerLine) s = some s1 →
    (write s1 (headerLine kv)).err = some e →
    writeLines write msg (pre ++ kv :: post) s
      = ((write s1 (headerLine kv)).next, some (.wrapf msg e)) := by
  induction pre with
  | nil =>
    intro s s1 h he
    simp only [List.map_nil, writeAll, Option.some.injEq] at h
    subst h
    obtain ⟨k, v⟩ := kv
    have hl : headerLine (k, v) = k ++ ascii ": " ++ v ++ ascii "\r\n" := rfl
    rw [hl] at he ⊢
    rw [List.nil_append, writeLines]
    simp only [he]
  | cons kv0 pre ih =>
    intro s s1 h he
    obtain ⟨k, v⟩ := kv0
    rw [List.map_cons, writeAll] at h
    have hl : headerLine (k, v) = k ++ ascii ": " ++ v ++ ascii "\r\n" := rfl
    rw [hl] at h
    rw [List.cons_append, writeLines]
    cases he0 : (write s (k ++ ascii ": " ++ v ++ ascii "\r\n")).err with
    | some e0 => rw [he0] at h; simp at h
    | none =>
      rw [he0] at h
      simp only [] at h ⊢
      exact ih _ _ h he

/-- `WriteHeaders` when the write of one of the lines fails. -/
theorem WriteHeaders_line_fails {σ : Type} (write : σ → Bytes → WriteResult σ)
    (order : List (Bytes × Bytes) → List (Bytes × Bytes)) (w : Writer σ) (h : Headers)
    (pre : List (Bytes × Bytes)) (kv : Bytes × Bytes) (post : List (Bytes × Bytes))
    (s1 : σ) (e : Error) (hs : w.state = stateStatus)
    (ho : order h.All = pre ++ kv :: post)
    (hpre : writeAll write (pre.map headerLine) w.writer = some s1)
    (he : (write s1 (headerLine kv)).err = some e) :
    w.WriteHeaders write order h
      = ⟨⟨(write s1 (headerLine kv)).next, stateStatus⟩, 0,
          some (.wrapf "error writing header: " e)⟩ := by
  rw [Writer.WriteHeaders, if_neg (by simpa using hs)]
  simp only [ho, writeLines_fail write _ pre kv post e _ s1 hpre he, hs]

/-- `WriteHeaders` when the lines are written and the write of the blank line fails. -/
theorem WriteHeaders_separator_fails {σ : Type} (write : σ → Bytes → WriteResult σ)
    (order : List (Bytes × Bytes) → List (Bytes × Bytes)) (w : Writer σ) (h : Headers)
    (s1 : σ) (e : Error) (hs : w.state = stateStatus)
    (hall : writeAll write ((order h.All).map headerLine) w.writer = some s1)
    (he : (write s1 (ascii "\r\n")).err = some e) :
    w.WriteHeaders write order h
      = ⟨⟨(write s1 (ascii "\r\n")).next, stateStatus⟩, 0,
          some (.wrapf "error writing header separator: " e)⟩ := by
  rw [Writer.WriteHeaders, if_neg (by simpa using hs)]
  simp only [writeLines_of_writeAll write _ _ _ s1 hall, he, hs]

/-- `WriteTrailers` when the write of one of the lines fails. -/
theorem WriteTrailers_line_fails {σ : Type} (write : σ → Bytes → WriteResult σ)
    (order : List (Bytes × Bytes) → List (Bytes × Bytes)) (w : Writer σ) (h : Headers)
    (pre : List (Bytes × Bytes)) (kv : Bytes × Bytes) (post : List (Bytes × Bytes))
    (s1 : σ) (e : Error) (hs : w.state = stateBody)
    (ho : order h.All = pre ++ kv :: post)
    (hpre : writeAll write (pre.map headerLine) w.writer = some s1)
    (he : (write s1 (headerLine kv)).err = some e) :
    w.WriteTrailers write order h
      = ⟨⟨(write s1 (headerLine kv)).next, stateBody⟩, 0,
          some (.wrapf "error writing trailer: " e)⟩ := by
  rw [Writer.WriteTrailers, if_neg (by simpa using hs)]
  simp only [ho, writeLines_fail write _ pre kv post e _ s1 hpre he, hs]

/-- `WriteTrailers` when the lines are written and the write of the blank line
fails. -/
theorem WriteTrailers_separator_fails {σ : Type} (write : σ → Bytes → WriteResult σ)
    (order : List (Bytes × Bytes) → List (Bytes × Bytes)) (w : Writer σ) (h : Headers)
    (s1 : σ) (e : Error) (hs : w.state = stateBody)
    (hall : writeAll write ((order h.All).map headerLine) w.writer = some s1)
    (he : (write s1 (ascii "\r\n")).err = some e) :
    w.WriteTrailers write order h
      = ⟨⟨(write s1 (ascii "\r\n")).next, stateBody⟩, 0,
          some (.wrapf "error writing trailer separator: " e)⟩ := by
  rw [Writer.WriteTrailers, if_neg (by simpa using hs)]
  simp only [writeLines_of_writeAll write _ _ _ s1 hall, he, hs]

/-- `WriteChunkedBody` of a non-empty chunk when one of its three writes fails. -/
theorem WriteChunkedBody_write_fails {σ : Type} (write : σ → Bytes → WriteResult σ)
    (w : Writer σ) (p : Bytes) (e : Error)
    (hs : w.state = stateHeaders ∨ w.state = stateBody) (hp : p ≠ []) :
    ((write w.writer (formatX p.length ++ ascii "\r\n")).err = some e →
      w.WriteChunkedBody write p
        = ⟨⟨(write w.writer (formatX p.length ++ ascii "\r\n")).next, w.state⟩, 0,
            some (.wrapf "error writing chunk size: " e)⟩) ∧
    ((write w.writer (formatX p.length ++ ascii "\r\n")).err = none →
      (write (write w.writer (formatX p.length ++ ascii "\r\n")).next p).err = some e →
      w.WriteChunkedBody write p
        = ⟨⟨(write (write w.writer (formatX p.length ++ ascii "\r\n")).next p).next, w.state⟩,
            (write (write w.writer (formatX p.length ++ ascii "\r\n")).next p).n,
            some (.wrapf "error writing chunk data: " e)⟩) ∧
    ((write w.writer (formatX p.length ++ ascii "\r\n")).err = none →
      (write (write w.writer (formatX p.length ++ ascii "\r\n")).next p).err = none →
      (write (write (write w.writer (formatX p.length ++ ascii "\r\n")).next p).next
        (ascii "\r\n")).err = some e →
      w.WriteChunkedBody write p
        = ⟨⟨(write (write (write w.writer (formatX p.length ++ ascii "\r\n")).next p).next
              (ascii "\r\n")).next, w.state⟩,
            (write (write w.writer (formatX p.length ++ ascii "\r\n")).next p).n,
            some (.wrapf "error writing chunk trailing CRLF: " e)⟩) := by
  have h1 : ¬ (w.state ≠ stateHeaders ∧ w.state ≠ stateBody) := by
    rcases hs with h | h <;> rw [h] <;> decide
  have hl : ¬ p.length = 0 := fun e => hp (List.length_eq_zero.1 e)
  refine ⟨fun e1 => ?_, fun e1 e2 => ?_, fun e1 e2 e3 => ?_⟩
  · rw [Writer.WriteChunkedBody, if_neg h1, if_neg hl]
    simp only [e1]
  · rw [Writer.WriteChunkedBody, if_neg h1, if_neg hl]
    simp only [e1, e2]
  · rw [Writer.WriteChunkedBody, if_neg h1, if_neg hl]
    simp only [e1, e2, e3]

open writerState

/-! ### A request read line by line -/

/-- The driver in state Headers on complete well-formed lines followed by bytes
without a CRLF. -/
theorem parse_header_lines (uni : Bytes → Bytes) (l : Line) (h : Headers)
    (fs : List (Bytes × Bytes)) (tail : Bytes) (hgood : ∀ f ∈ fs, goodField f)
    (htail : ¬ [13, 10] <:+: tail) :
    (⟨l, h, [], StateHeaders⟩ : Request).parse uni (headerBlock fs ++ tail)
      = ⟨⟨l, setAll uni h fs, [], StateHeaders⟩, (headerBlock fs).length, none⟩ := by
  obtain ⟨fuel, e⟩ := Parse_block uni fs hgood h tail
  rw [parseLoop_no_crlf uni _ _ tail _ htail] at e
  rw [Request.parse_headers uni _ _ rfl]
  dsimp only
  rw [e]
  dsimp only
  rw [if_neg (by simp)]

theorem lineReads_flatten (m t : Bytes) (fs : List (Bytes × Bytes)) (b : Bytes) :
    (lineReads m t fs b).flatten = wire m t fs b := by
  unfold lineReads wire headerBlock
  simp [oneRead_flatten]

theorem lineReads_nonempty (m t : Bytes) (fs : List (Bytes × Bytes)) (b : Bytes) :
    ∀ c ∈ lineReads m t fs b, c ≠ [] := by
  intro c hc
  unfold lineReads at hc
  simp only [List.mem_cons, List.mem_append, List.mem_map] at hc
  rcases hc with rfl | ⟨f, _, rfl⟩ | rfl | hc
  · simp
  · simp
  · simp
  · exact oneRead_nonempty b c hc

/-- One pass of the reader loop over the read of the request line. -/
theorem FromReaderLoop_request_line (uni : Bytes → Bytes) (fuel : Nat) (m t : Bytes)
    (cs : List Bytes) (hm : plainWord m) (ht : plainWord t)
    (hlen : (requestLine m t).length + 2 ≤ 1024) :
    FromReaderLoop uni readChunks (fuel + 1) ((requestLine m t ++ [13, 10]) :: cs) newRequest []
      = FromReaderLoop uni readChunks fuel cs
          ⟨⟨ascii "1.1", t, m⟩, NewHeaders, [], StateHeaders⟩ [] := by
  have hp : newRequest.parse uni ([] ++ (requestLine m t ++ [13, 10]))
      = ⟨⟨⟨ascii "1.1", t, m⟩, NewHeaders, [], StateHeaders⟩,
          (requestLine m t ++ [13, 10]).length, none⟩ := by
    have h0 := parse_header_lines uni ⟨ascii "1.1", t, m⟩ NewHeaders [] []
      (by simp) (by simp)
    simp only [headerBlock, List.map_nil, List.flatten_nil, List.append_nil, setAll,
      List.foldl_nil, List.length_nil] at h0
    rw [List.nil_append, show requestLine m t ++ [13, 10] = requestLine m t ++ 13 :: 10 :: []
      from rfl, parse_wire_init uni m t [] hm ht, h0]
    simp [StepResult.shift]
  rw [FromReaderLoop_cons uni fuel _ cs newRequest [] rfl
    (by simp only [List.nil_append, List.length_append, List.length_cons, List.length_nil]
        omega), hp]
  dsimp only
  rw [List.nil_append, List.drop_length]

/-- One pass of the reader loop over the read of one header line. -/
theorem FromReaderLoop_header_line (uni : Bytes → Bytes) (fuel : Nat) (l : Line) (h : Headers)
    (f : Bytes × Bytes) (cs : List Bytes) (hf : goodField f)
    (hlen : (fieldLine f).length + 2 ≤ 1024) :
    FromReaderLoop uni readChunks (fuel + 1) ((fieldLine f ++ [13, 10]) :: cs)
        ⟨l, h, [], StateHeaders⟩ []
      = FromReaderLoop uni readChunks fuel cs
          ⟨l, h.Set uni f.1 (TrimSpace f.2), [], StateHeaders⟩ [] := by
  have hp : (⟨l, h, [], StateHeaders⟩ : Request).parse uni ([] ++ (fieldLine f ++ [13, 10]))
      = ⟨⟨l, h.Set uni f.1 (TrimSpace f.2), [], StateHeaders⟩,
          (fieldLine f ++ [13, 10]).length, none⟩ := by
    have h0 := parse_header_lines uni l h [f] []
      (by intro g hg; simp only [List.mem_singleton] at hg; subst hg; exact hf) (by simp)
    simp only [headerBlock, List.map_cons, List.map_nil, List.flatten_cons, List.flatten_nil,
      List.append_nil, setAll, List.foldl_cons, List.foldl_nil] at h0
    rw [List.nil_append, h0]
  rw [FromReaderLoop_cons uni fuel _ cs ⟨l, h, [], StateHeaders⟩ [] rfl
    (by simp only [List.nil_append, List.length_append, List.length_cons, List.length_nil]
        omega), hp]
  dsimp only
  rw [List.nil_append, List.drop_length]

/-- The passes of the reader loop over the reads of the header lines. -/
theorem FromReaderLoop_header_lines (uni : Bytes → Bytes) (l : Line)
    (fs : List (Bytes × Bytes)) : ∀ (h : Headers) (fuel : Nat) (cs : List Bytes),
    (∀ f ∈ fs, goodField f) → (∀ f ∈ fs, (fieldLine f).length + 2 ≤ 1024) →
    FromReaderLoop uni readChunks (fuel + fs.length)
        (fs.map (fun f => fieldLine f ++ [13, 10]) ++ cs) ⟨l, h, [], StateHeaders⟩ []
      = FromReaderLoop uni readChunks fuel cs ⟨l, setAll uni h fs, [], StateHeaders⟩ [] := by
  induction fs with
  | nil => intro h fuel cs _ _; rfl
  | cons f fs ih =>
    intro h fuel cs hgood hlen
    rw [List.length_cons, ← Nat.add_assoc, List.map_cons, List.cons_append,
      FromReaderLoop_header_line uni _ l h f _ (hgood f (List.mem_cons_self _ _))
        (hlen f (List.mem_cons_self _ _)),
      ih _ fuel cs (fun g hg => hgood g (List.mem_cons_of_mem _ hg))
        (fun g hg => hlen g (List.mem_cons_of_mem _ hg))]
    rfl

/-- One pass of the reader loop over the read of the blank line, when a body is
announced. -/
theorem FromReaderLoop_blank_line (uni : Bytes → Bytes) (fuel : Nat) (l : Line) (h : Headers)
    (cs : List Bytes) (n : Nat)
    (hcl : Atoi (h.Get uni (ascii "Content-Length")) = .ok (n : Int)) (hn : 0 < n) :
    FromReaderLoop uni readChunks (fuel + 1) ([13, 10] :: cs) ⟨l, h, [], StateHeaders⟩ []
      = FromReaderLoop uni readChunks fuel cs ⟨l, h, [], StateBody⟩ [] := by
  have hp : (⟨l, h, [], StateHeaders⟩ : Request).parse uni ([] ++ [13, 10])
      = ⟨⟨l, h, [], StateBody⟩, 2, none⟩ := by
    have hb := Parse_block_blank uni h [] [] (by simp)
    simp only [headerBlock, List.map_nil, List.flatten_nil, List.nil_append, setAll,
      List.foldl_nil, List.length_nil, Nat.zero_add] at hb
    rw [List.nil_append, Request.parse_headers uni _ _ rfl]
    dsimp only
    rw [hb]
    dsimp only
    rw [if_pos rfl, show List.drop 2 [13, 10] = ([] : Bytes) from rfl,
      Request.parse_body_short uni ⟨l, h, [], StateBody⟩ [] n rfl hcl (by simpa using hn)]
    rfl
  rw [FromReaderLoop_cons uni fuel _ cs ⟨l, h, [], StateHeaders⟩ [] rfl (by simp), hp]
  rfl

open writerState

/-- The reader loop on a request whose lines each fit the staging buffer and whose
body is shorter than announced, read in any way. -/
theorem FromReader_short_lines (uni : Bytes → Bytes) (m t : Bytes)
    (fs : List (Bytes × Bytes)) (b : Bytes) (n : Nat) (chunks : List Bytes) (fuel : Nat)
    (hm : plainWord m) (ht : plainWord t) (hgood : ∀ f ∈ fs, goodField f)
    (hcl : Atoi ((setAll uni NewHeaders fs).Get uni (ascii "Content-Length")) = .ok (n : Int))
    (hlt : b.length < n) (hline : (requestLine m t).length + 2 ≤ 1024)
    (hlines : ∀ f ∈ fs, (fieldLine f).length + 2 ≤ 1024)
    (hne : ∀ c ∈ chunks, c ≠ []) (hsplit : chunks.flatten = wire m t fs b)
    (hfuel : (wire m t fs b).length < fuel) :
    FromReader uni readChunks fuel chunks = .fail .EOF := by
  have hp := parse_wire_short uni m t fs b n hm ht hgood hcl hlt
  have hbig : (newRequest.parse uni ([] ++ wire m t fs b)).err ≠ some .ErrBodyTooLarge := by
    rw [List.nil_append, hp]; simp
  have hbl : b.length < (wire m t fs b).length := by
    have h1 : (wire m t fs b).length = (wire m t fs []).length + b.length := by
      rw [wire_append m t fs b, List.length_append]
    have h2 := wire_length_pos m t fs []
    omega
  have e1 := FromReaderLoop_canon uni _ (wire m t fs b) rfl chunks newRequest [] fuel
    ((wire m t fs b).length + 1) hsplit hne rfl (by simp) (parse_newRequest_nil uni) hbig hfuel
    (by omega)
  have e2 := FromReaderLoop_canon uni _ (wire m t fs b) rfl (lineReads m t fs b) newRequest []
    (((wire m t fs b).length + 1 + fs.length) + 1) ((wire m t fs b).length + 1)
    (lineReads_flatten m t fs b) (lineReads_nonempty m t fs b) rfl (by simp)
    (parse_newRequest_nil uni) hbig (by omega) (by omega)
  unfold FromReader
  rw [e1, ← e2]
  unfold lineReads
  rw [FromReaderLoop_request_line uni _ m t _ hm ht hline,
    FromReaderLoop_header_lines uni _ fs NewHeaders ((wire m t fs b).length + 1) _ hgood hlines,
    FromReaderLoop_blank_line uni (wire m t fs b).length _ _ _ n hcl (by omega)]
  exact FromReaderLoop_body_short uni n _ b rfl _ _ rfl hcl (by simpa using hlt) hbl

/-- A header line that does not fit the staging buffer: once the buffer is full of
it, the loop reads nothing for ever. -/
theorem FromReaderLoop_long_line (fuel : Nat) :
    FromReader id readChunks fuel
        [ascii "POST / HTTP/1.1\r\nContent-Length: 20\r\n",
          ascii "X: " ++ List.replicate 1021 97,
          List.replicate 80 97 ++ ascii "\r\n\r\npartial content"]
      = .outOfFuel := by
  have hp1 : newRequest.parse id ([] ++ ascii "POST / HTTP/1.1\r\nContent-Length: 20\r\n")
      = ⟨⟨⟨ascii "1.1", ascii "/", ascii "POST"⟩, ⟨[(ascii "content-length", ascii "20")]⟩,
          [], StateHeaders⟩, 37, none⟩ := by decide
  have hcr : (13 : Nat) ∉ ascii "X: " ++ List.replicate 1021 97 := by
    intro h
    rcases List.mem_append.1 h with h1 | h2
    · revert h1; decide
    · have := (List.mem_replicate.1 h2).2
      omega
  have hlen : (ascii "X: " ++ List.replicate 1021 97).length = 1024 := by
    rw [List.length_append, List.length_replicate]; rfl
  have hp2 : (⟨⟨ascii "1.1", ascii "/", ascii "POST"⟩,
        ⟨[(ascii "content-length", ascii "20")]⟩, [], StateHeaders⟩ : Request).parse id
        (ascii "X: " ++ List.replicate 1021 97)
      = ⟨⟨⟨ascii "1.1", ascii "/", ascii "POST"⟩, ⟨[(ascii "content-length", ascii "20")]⟩,
          [], StateHeaders⟩, 0, none⟩ := by
    have h0 := parse_header_lines id ⟨ascii "1.1", ascii "/", ascii "POST"⟩
      ⟨[(ascii "content-length", ascii "20")]⟩ [] (ascii "X: " ++ List.replicate 1021 97)
      (by simp) (no_crlf_of_no_cr _ hcr)
    simp only [headerBlock, List.map_nil, List.flatten_nil, List.nil_append, setAll,
      List.foldl_nil, List.length_nil] at h0
    exact h0
  cases fuel with
  | zero => rfl
  | succ k =>
    unfold FromReader
    rw [FromReaderLoop_cons id k _ _ newRequest [] rfl (by decide), hp1]
    dsimp only
    rw [show List.drop 37 ([] ++ ascii "POST / HTTP/1.1\r\nContent-Length: 20\r\n")
      = ([] : Bytes) from by decide]
    cases k with
    | zero => rfl
    | succ k2 =>
      rw [FromReaderLoop_cons id k2 _ _
        ⟨⟨ascii "1.1", ascii "/", ascii "POST"⟩, ⟨[(ascii "content-length", ascii "20")]⟩,
          [], StateHeaders⟩ [] rfl (by rw [List.nil_append, hlen]), List.nil_append, hp2]
      dsimp only
      rw [List.drop_zero]
      exact FromReaderLoop_stuck id k2 _ [] _ _ rfl hp2 hlen (by simp)

open writerState

theorem long_line_stream :
    [ascii "POST / HTTP/1.1\r\nContent-Length: 20\r\n", ascii "X: " ++ List.replicate 1021 97,
        List.replicate 80 97 ++ ascii "\r\n\r\npartial content"].flatten
      = wire (ascii "POST") (ascii "/")
          [(ascii "Content-Length", ascii " 20"), (ascii "X", 32 :: List.replicate 1101 97)]
          (ascii "partial content") := by
  have hr : List.replicate 1101 97 = List.replicate 1021 97 ++ List.replicate 80 97 := by
    exact List.replicate_add 1021 80 97
  rw [hr]
  generalize List.replicate 1021 97 = A
  generalize List.replicate 80 97 = B
  simp [wire, requestLine, headerBlock, fieldLine, ascii]

theorem long_line_length :
    Atoi ((setAll id NewHeaders
        [(ascii "Content-Length", ascii " 20"),
          (ascii "X", 32 :: List.replicate 1101 97)]).Get id (ascii "Content-Length"))
      = .ok 20 := by
  generalize (32 :: List.replicate 1101 97 : Bytes) = v
  rfl

/-! # The claims -/

/-- C1: for every well-formed request of at most 1024 bytes (request line, header
lines with token names, blank line, then the announced number of body bytes, or no
`Content-Length` header and no body) and every way of cutting it into successive
reads, `FromReader` succeeds with the request line, header table and body of the
request: the same result as when the whole string arrives in a single read. -/
theorem FromReader_wellformed_split (uni : Bytes → Bytes) (m t : Bytes)
    (fs : List (Bytes × Bytes)) (b : Bytes) (chunks : List Bytes) (fuel : Nat)
    (hm : plainWord m) (ht : plainWord t) (hgood : ∀ f ∈ fs, goodField f)
    (hb : announces (trimmed fs) b) (hlen : (wire m t fs b).length ≤ 1024)
    (hne : ∀ c ∈ chunks, c ≠ []) (hsplit : chunks.flatten = wire m t fs b)
    (hfuel : chunks.length < fuel) :
    FromReader uni readChunks fuel chunks
      = .ok ⟨⟨ascii "1.1", t, m⟩, setAll uni NewHeaders fs, b, StateDone⟩ ∧
    FromReader uni readChunks fuel chunks = FromReader uni readChunks 2 [wire m t fs b] := by
  have _ := hne
  have hp := parse_wire uni m t fs b hm ht hgood hb
  have e1 : FromReader uni readChunks fuel chunks
      = .ok ⟨⟨ascii "1.1", t, m⟩, setAll uni NewHeaders fs, b, StateDone⟩ := by
    rw [FromReader_stream uni chunks fuel (by rw [hsplit]; exact hlen) hfuel
      (by rw [hsplit, hp]; simp), hsplit, hp]
    rfl
  have e2 : FromReader uni readChunks 2 [wire m t fs b]
      = .ok ⟨⟨ascii "1.1", t, m⟩, setAll uni NewHeaders fs, b, StateDone⟩ := by
    rw [FromReader_one_read uni _ hlen, hp]
    rfl
  exact ⟨e1, by rw [e1, e2]⟩

/-- C1 on a request cut in the middle of a header name, of a CRLF and of the body. -/
theorem FromReader_wellformed_split_witness :
    FromReader id readChunks 5 [ascii "POST /x HTTP/1.1\r\nContent-Le", ascii "ngth: 5\r",
        ascii "\n\r\nhe", ascii "llo"]
      = .ok ⟨⟨ascii "1.1", ascii "/x", ascii "POST"⟩,
          setAll id NewHeaders [(ascii "Content-Length", ascii " 5")], ascii "hello",
          StateDone⟩ ∧
    FromReader id readChunks 5 [ascii "POST /x HTTP/1.1\r\nContent-Le", ascii "ngth: 5\r",
        ascii "\n\r\nhe", ascii "llo"]
      = FromReader id readChunks 2 [wire (ascii "POST") (ascii "/x")
          [(ascii "Content-Length", ascii " 5")] (ascii "hello")] :=
  FromReader_wellformed_split id (ascii "POST") (ascii "/x")
    [(ascii "Content-Length", ascii " 5")] (ascii "hello")
    [ascii "POST /x HTTP/1.1\r\nContent-Le", ascii "ngth: 5\r", ascii "\n\r\nhe", ascii "llo"] 5
    ⟨by decide, by decide, by decide⟩ ⟨by decide, by decide, by decide⟩
    (by
      intro f hf; simp only [List.mem_singleton] at hf; subst hf
      exact ⟨by decide, (Index_none_iff _).1 (by decide)⟩)
    (show Atoi (TrimSpace (ascii " 5")) = .ok ((ascii "hello").length : Int) from rfl)
    (by decide) (by decide) (by decide) (by decide)

/-- C2: the driver `parse` on the bytes `m SP t SP HTTP/1.1 CRLF (name ": " value CRLF)*
CRLF b` - method and target free of space, CR and LF, token names, values free of
CR, LF and surrounding white space, body length announced by a single
`Content-Length` header or empty body without one - consumes all the bytes, ends in
state Done and yields the request line `{m, t, "1.1"}`, the table of `Set(name,
value)` applied in order to an empty table, and the body `b`. -/
theorem parse_wellformed_request (uni : Bytes → Bytes) (m t : Bytes)
    (hs : List (Bytes × Bytes)) (b : Bytes) (hm : plainWord m) (ht : plainWord t)
    (hnames : ∀ f ∈ hs, isToken f.1 = true)
    (hvals : ∀ f ∈ hs, 13 ∉ f.2 ∧ 10 ∉ f.2 ∧ ¬ startsWithSpace f.2 ∧ ¬ endsWithSpace f.2)
    (hb : announces hs b) :
    newRequest.parse uni (wire m t (hs.map (fun f => (f.1, 32 :: f.2))) b)
      = ⟨⟨⟨ascii "1.1", t, m⟩, hs.foldl (fun tbl f => tbl.Set uni f.1 f.2) NewHeaders, b,
            StateDone⟩,
          (wire m t (hs.map (fun f => (f.1, 32 :: f.2))) b).length, none⟩ := by
  have hv2 : ∀ f ∈ hs, ¬ startsWithSpace f.2 ∧ ¬ endsWithSpace f.2 :=
    fun f hf => ⟨(hvals f hf).2.2.1, (hvals f hf).2.2.2⟩
  have hgood : ∀ f ∈ hs.map (fun f => (f.1, 32 :: f.2)), goodField f := by
    intro g hg
    obtain ⟨f, hf, rfl⟩ := List.mem_map.1 hg
    refine ⟨hnames f hf, no_crlf_of_no_cr _ ?_⟩
    have h13 : (13 : Nat) ∉ f.1 := fun h =>
      (isTokenChar_facts 13 (((isToken_iff_chars f.1).1 (hnames f hf)).2 13 h)).2.2.2.1 rfl
    have := (hvals f hf).1
    simp [fieldLine, h13, this]
  rw [parse_wire uni m t _ b hm ht hgood (by rw [trimmed_plain hs hv2]; exact hb),
    setAll_plain uni NewHeaders hs hv2]

/-- C2 on `POST /x HTTP/1.1`, `Content-Length: 5`, body `hello`. -/
theorem parse_wellformed_request_witness :
    newRequest.parse id (wire (ascii "POST") (ascii "/x")
        ([(ascii "Content-Length", ascii "5")].map (fun f => (f.1, 32 :: f.2))) (ascii "hello"))
      = ⟨⟨⟨ascii "1.1", ascii "/x", ascii "POST"⟩,
            [(ascii "Content-Length", ascii "5")].foldl (fun tbl f => tbl.Set id f.1 f.2)
              NewHeaders, ascii "hello", StateDone⟩,
          (wire (ascii "POST") (ascii "/x")
            ([(ascii "Content-Length", ascii "5")].map (fun f => (f.1, 32 :: f.2)))
            (ascii "hello")).length, none⟩ :=
  parse_wellformed_request id (ascii "POST") (ascii "/x") [(ascii "Content-Length", ascii "5")]
    (ascii "hello") ⟨by decide, by decide, by decide⟩ ⟨by decide, by decide, by decide⟩
    (by intro f hf; simp only [List.mem_singleton] at hf; subst hf; decide)
    (by
      intro f hf; simp only [List.mem_singleton] at hf; subst hf
      refine ⟨by decide, by decide, ?_, ?_⟩
      · rw [startsWithSpace_iff]; simp [ascii, isSpace1, isSpace2, isSpace3]
      · rw [endsWithSpace_iff]; simp [ascii, isSpace1, isSpace2, isSpace3])
    (show Atoi (ascii "5") = .ok ((ascii "hello").length : Int) from rfl)

/-- C3, as stated, fails: the same bytes, with five bytes after a body of the declared
five, make `FromReader` succeed when the read ends with the body and fail with
`ErrBodyTooLarge` when they arrive in one read. -/
theorem FromReader_split_dependent :
    [ascii "POST /x HTTP/1.1\r\nContent-Length: 5\r\n\r\nhello", ascii "EXTRA"].flatten
      = [ascii "POST /x HTTP/1.1\r\nContent-Length: 5\r\n\r\nhelloEXTRA"].flatten ∧
    FromReader id readChunks 3
        [ascii "POST /x HTTP/1.1\r\nContent-Length: 5\r\n\r\nhello", ascii "EXTRA"]
      = .ok ⟨⟨ascii "1.1", ascii "/x", ascii "POST"⟩,
          ⟨[(ascii "content-length", ascii "5")]⟩, ascii "hello", StateDone⟩ ∧
    FromReader id readChunks 3
        [ascii "POST /x HTTP/1.1\r\nContent-Length: 5\r\n\r\nhelloEXTRA"]
      = .fail .ErrBodyTooLarge := by
  decide

/-- C3, amended: for every byte stream, of any length, that does not carry more
bytes after the headers than the declared `Content-Length` (the driver run over the
whole stream does not reject it with `ErrBodyTooLarge`), any two ways of cutting it
into successive non-empty reads followed by the end of the stream give `FromReader`
the same outcome: the same error, the same request, or on both a loop that never
ends (the staging buffer full of bytes that cannot be consumed). -/
theorem FromReader_split_invariant (uni : Bytes → Bytes) (chunks1 chunks2 : List Bytes)
    (fuel1 fuel2 : Nat) (hsame : chunks1.flatten = chunks2.flatten)
    (hne1 : ∀ c ∈ chunks1, c ≠ []) (hne2 : ∀ c ∈ chunks2, c ≠ [])
    (hbig : (newRequest.parse uni chunks1.flatten).err ≠ some .ErrBodyTooLarge)
    (hf1 : chunks1.flatten.length < fuel1) (hf2 : chunks1.flatten.length < fuel2) :
    FromReader uni readChunks fuel1 chunks1 = FromReader uni readChunks fuel2 chunks2 := by
  unfold FromReader
  have hst : Stable uni newRequest [] := parse_newRequest_nil uni
  rw [FromReaderLoop_canon uni _ chunks1.flatten rfl chunks1 newRequest [] fuel1 fuel1 rfl hne1
      rfl (by simp) hst (by simpa using hbig) hf1 hf1,
    FromReaderLoop_canon uni _ chunks1.flatten rfl chunks2 newRequest [] fuel2 fuel1 hsame.symm
      hne2 rfl (by simp) hst (by simpa using hbig) hf2 hf1]

/-- C3, amended, on a request with a malformed header line read in two ways. -/
theorem FromReader_split_invariant_witness :
    FromReader id readChunks 40
        [ascii "GET / HTTP/1.1\r", ascii "\nHost localhost\r\n", ascii "\r\n"]
      = FromReader id readChunks 50 [ascii "GET / HT", ascii "TP/1.1\r\nHost localhost\r\n\r\n"] :=
  FromReader_split_invariant id
    [ascii "GET / HTTP/1.1\r", ascii "\nHost localhost\r\n", ascii "\r\n"]
    [ascii "GET / HT", ascii "TP/1.1\r\nHost localhost\r\n\r\n"] 40 50
    (by decide) (by decide) (by decide) (by decide) (by decide) (by decide)

/-- C4: for every sequence of `Set` and `Override` calls on an empty table and every
name `n`, `Get(n)` is the replay of the calls whose name equals `n` ignoring letter
case (first `Set` stores, later `Set` appends `", "` and its value, `Override`
replaces), and the empty string when there is no such call; `Set("Host","a")` then
`Set("HOST","b")` gives `Get("host") = "a, b"`. -/
theorem Get_eq_replay (uni : Bytes → Bytes) (calls : List Call) (n : Bytes) :
    (calls.foldl (Headers.apply uni) NewHeaders).Get uni n = (replay uni n calls).getD [] ∧
    ((∀ c ∈ calls, ToLower uni c.name ≠ ToLower uni n) →
      (calls.foldl (Headers.apply uni) NewHeaders).Get uni n = []) ∧
    ((NewHeaders.Set uni (ascii "Host") (ascii "a")).Set uni (ascii "HOST") (ascii "b")).Get uni
        (ascii "host") = ascii "a, b" := by
  have h1 : (calls.foldl (Headers.apply uni) NewHeaders).Get uni n
      = (replay uni n calls).getD [] := by
    unfold Headers.Get replay
    rw [mapGet_foldl_apply]
    simp [NewHeaders, mapGet]
  refine ⟨h1, ?_, ?_⟩
  · intro hno
    rw [h1]
    unfold replay
    have : calls.filter (fun c => decide (ToLower uni c.name = ToLower uni n)) = [] := by
      rw [List.filter_eq_nil_iff]
      intro c hc
      simpa using hno c hc
    rw [this]
    rfl
  · rfl

/-- C5: on well-formed header lines followed by a blank line and any further bytes,
`Headers.Parse` returns no error and `headersComplete = true`, consumes the lines and
the blank line's CRLF and nothing after it, and leaves the table with
`Set(name, trimmed value)` applied for each line in order. -/
theorem Parse_complete (uni : Bytes → Bytes) (h : Headers) (fs : List (Bytes × Bytes))
    (rest : Bytes) (hgood : ∀ f ∈ fs, goodField f) :
    Headers.Parse uni h (headerBlock fs ++ 13 :: 10 :: rest)
      = ⟨setAll uni h fs, (headerBlock fs).length + 2, true, none⟩ ∧
    (headerBlock fs ++ 13 :: 10 :: rest).drop ((headerBlock fs).length + 2) = rest := by
  obtain ⟨fuel, e⟩ := Parse_block uni fs hgood h (13 :: 10 :: rest)
  refine ⟨by rw [e, parseLoop_blank], ?_⟩
  rw [List.drop_append_eq_append_drop]
  simp

/-- C5 on the two header lines of the repository's test. -/
theorem Parse_complete_witness :
    Headers.Parse id NewHeaders
        (headerBlock [(ascii "Host", ascii " localhost:42069"),
          (ascii "Content-Type", ascii " text/html")] ++ 13 :: 10 :: ascii "xx")
      = ⟨setAll id NewHeaders [(ascii "Host", ascii " localhost:42069"),
          (ascii "Content-Type", ascii " text/html")],
        (headerBlock [(ascii "Host", ascii " localhost:42069"),
          (ascii "Content-Type", ascii " text/html")]).length + 2, true, none⟩ ∧
    (headerBlock [(ascii "Host", ascii " localhost:42069"),
          (ascii "Content-Type", ascii " text/html")] ++ 13 :: 10 :: ascii "xx").drop
        ((headerBlock [(ascii "Host", ascii " localhost:42069"),
          (ascii "Content-Type", ascii " text/html")]).length + 2) = ascii "xx" :=
  Parse_complete id NewHeaders _ (ascii "xx") (by
    intro f hf
    simp only [List.mem_cons, List.mem_singleton, List.not_mem_nil, or_false] at hf
    rcases hf with rfl | rfl
    · exact ⟨by decide, (Index_none_iff _).1 (by decide)⟩
    · exact ⟨by decide, (Index_none_iff _).1 (by decide)⟩)

/-- C6: on well-formed header lines followed by bytes that hold no CRLF,
`Headers.Parse` returns `headersComplete = false` and no error and consumes exactly
the complete lines: the count is the offset just after the last CRLF of the buffer
(0 when there is none) and the unconsumed remainder is the unterminated tail. -/
theorem Parse_incomplete (uni : Bytes → Bytes) (h : Headers) (fs : List (Bytes × Bytes))
    (tail : Bytes) (hgood : ∀ f ∈ fs, goodField f) (htail : ¬ [13, 10] <:+: tail) :
    Headers.Parse uni h (headerBlock fs ++ tail)
      = ⟨setAll uni h fs, (headerBlock fs).length, false, none⟩ ∧
    (headerBlock fs ++ tail).drop (headerBlock fs).length = tail ∧
    (∀ pre post, headerBlock fs ++ tail = pre ++ 13 :: 10 :: post →
      pre.length + 2 ≤ (headerBlock fs).length) ∧
    ((headerBlock fs).length = 0 ∨
      ∃ pre post, headerBlock fs ++ tail = pre ++ 13 :: 10 :: post
        ∧ pre.length + 2 = (headerBlock fs).length) := by
  obtain ⟨fuel, e⟩ := Parse_block uni fs hgood h tail
  have hb : headerBlock fs = [] ∨ ∃ p, headerBlock fs = p ++ [13, 10] := by
    cases fs with
    | nil => left; rfl
    | cons f fs => right; exact headerBlock_ends _ (by simp)
  refine ⟨by rw [e, parseLoop_no_crlf uni _ _ tail _ htail], by simp, ?_, ?_⟩
  · intro pre post e2
    exact crlf_before_tail _ tail pre post hb htail e2
  · rcases hb with hb | ⟨p, hb⟩
    · left; rw [hb]; rfl
    · right
      refine ⟨p, tail, by rw [hb]; simp, by rw [hb]; simp⟩

/-- C6 on one complete line followed by the start of the next. -/
theorem Parse_incomplete_witness :
    Headers.Parse id NewHeaders (headerBlock [(ascii "Host", ascii " a")] ++ ascii "Acc")
      = ⟨setAll id NewHeaders [(ascii "Host", ascii " a")],
          (headerBlock [(ascii "Host", ascii " a")]).length, false, none⟩ ∧
    (headerBlock [(ascii "Host", ascii " a")] ++ ascii "Acc").drop
      (headerBlock [(ascii "Host", ascii " a")]).length = ascii "Acc" ∧
    (∀ pre post, headerBlock [(ascii "Host", ascii " a")] ++ ascii "Acc"
        = pre ++ 13 :: 10 :: post →
      pre.length + 2 ≤ (headerBlock [(ascii "Host", ascii " a")]).length) ∧
    ((headerBlock [(ascii "Host", ascii " a")]).length = 0 ∨
      ∃ pre post, headerBlock [(ascii "Host", ascii " a")] ++ ascii "Acc"
          = pre ++ 13 :: 10 :: post
        ∧ pre.length + 2 = (headerBlock [(ascii "Host", ascii " a")]).length) :=
  Parse_incomplete id NewHeaders [(ascii "Host", ascii " a")] (ascii "Acc") (by
    intro f hf
    simp only [List.mem_singleton] at hf
    subst hf
    exact ⟨by decide, (Index_none_iff _).1 (by decide)⟩) ((Index_none_iff _).1 (by decide))

/-- C7: when a non-empty line that is malformed (no colon, empty name, name ending in
a space) or whose name is not a token follows any number of well-formed lines,
`Headers.Parse` returns an error, 0 bytes consumed and `headersComplete = false`;
the error of a well-shaped line with a non-token name is "malformed header name". -/
theorem Parse_bad_line (uni : Bytes → Bytes) (h : Headers) (fs : List (Bytes × Bytes))
    (bad rest : Bytes) (hgood : ∀ f ∈ fs, goodField f) (hne : bad ≠ [])
    (hcr : ¬ [13, 10] <:+: bad) (hbad : badLine bad) :
    (Headers.Parse uni h (headerBlock fs ++ (bad ++ 13 :: 10 :: rest))).err ≠ none ∧
    (Headers.Parse uni h (headerBlock fs ++ (bad ++ 13 :: 10 :: rest))).bytesRead = 0 ∧
    (Headers.Parse uni h (headerBlock fs ++ (bad ++ 13 :: 10 :: rest))).done = false ∧
    (∀ name r, bad = name ++ 58 :: r → 58 ∉ name → name ≠ [] → name.getLast? ≠ some 32 →
      isToken name = false →
      (Headers.Parse uni h (headerBlock fs ++ (bad ++ 13 :: 10 :: rest))).err
        = some .malformedHeaderName) := by
  obtain ⟨fuel, e⟩ := Parse_block uni fs hgood h (bad ++ 13 :: 10 :: rest)
  obtain ⟨er, e2⟩ := parseLoop_bad uni fuel (setAll uni h fs) bad rest
    (headerBlock fs).length hne hcr hbad
  rw [e]
  refine ⟨by rw [e2]; simp, by rw [e2], by rw [e2], ?_⟩
  intro name r hb h1 hn hl ht
  subst hb
  rw [parseLoop_nontoken uni fuel _ name r rest _ hcr h1 hn hl ht]

/-- C7 on the test's line with a space before the colon, after one good line. -/
theorem Parse_bad_line_witness :
    (Headers.Parse id NewHeaders
      (headerBlock [(ascii "Accept", ascii " x")] ++ (ascii "Host : a" ++ 13 :: 10 :: []))).err
        ≠ none ∧
    (Headers.Parse id NewHeaders
      (headerBlock [(ascii "Accept", ascii " x")] ++ (ascii "Host : a" ++ 13 :: 10 :: []))).bytesRead
        = 0 ∧
    (Headers.Parse id NewHeaders
      (headerBlock [(ascii "Accept", ascii " x")] ++ (ascii "Host : a" ++ 13 :: 10 :: []))).done
        = false ∧
    (∀ name r, ascii "Host : a" = name ++ 58 :: r → 58 ∉ name → name ≠ [] →
      name.getLast? ≠ some 32 → isToken name = false →
      (Headers.Parse id NewHeaders
        (headerBlock [(ascii "Accept", ascii " x")] ++ (ascii "Host : a" ++ 13 :: 10 :: []))).err
        = some .malformedHeaderName) :=
  Parse_bad_line id NewHeaders [(ascii "Accept", ascii " x")] (ascii "Host : a") [] (by
    intro f hf
    simp only [List.mem_singleton] at hf
    subst hf
    exact ⟨by decide, (Index_none_iff _).1 (by decide)⟩) (by decide)
    ((Index_none_iff _).1 (by decide))
    (Or.inr ⟨ascii "Host ", ascii " a", by decide, by decide, Or.inr (Or.inl (by decide))⟩)

/-- C8, as stated, fails: the name `Host\t` ends in a horizontal tab, and `parseHeader`
accepts the line `Host\t: x` and returns that name. -/
theorem parseHeader_accepts_tab_name :
    (ascii "Host\t").getLast? = some 9 ∧
      parseHeader (ascii "Host\t: x") = Except.ok (ascii "Host\t", ascii "x") :=
  ⟨rfl, rfl⟩

/-- C8, amended: `parseHeader` cuts the line at its first colon.  It fails on a line
without a colon, on an empty name and on a name that ends in the space character;
on every other line (a name ending in a tab included) it returns the name unchanged
and the text after the first colon with the white space at both ends removed. -/
theorem parseHeader_cases (line name rest : Bytes) :
    (58 ∉ line → parseHeader line = Except.error Error.malformedFieldLine) ∧
    (58 ∉ name →
      (name = [] → parseHeader (name ++ 58 :: rest) = Except.error Error.emptyFieldName) ∧
      (name.getLast? = some 32 →
        parseHeader (name ++ 58 :: rest) = Except.error Error.malformedFieldName) ∧
      (name ≠ [] → name.getLast? ≠ some 32 →
        parseHeader (name ++ 58 :: rest) = Except.ok (name, TrimSpace rest) ∧
        ∃ pre post, rest = pre ++ TrimSpace rest ++ post ∧ allSpace pre ∧ allSpace post ∧
          ¬ startsWithSpace (TrimSpace rest) ∧ ¬ endsWithSpace (TrimSpace rest))) := by
  refine ⟨parseHeader_no_colon line, fun h => ⟨?_, ?_, ?_⟩⟩
  · intro hn; rw [parseHeader_colon name rest h]; simp [hn]
  · intro hl; rw [parseHeader_colon name rest h, if_pos hl]
  · intro hn hl
    refine ⟨?_, TrimSpace_spec rest⟩
    rw [parseHeader_colon name rest h, if_neg hl, if_neg hn]

/-- C8, amended, at the line `Host\t: x `. -/
theorem parseHeader_cases_witness :
    parseHeader (ascii "Host\t" ++ 58 :: ascii " x ")
      = Except.ok (ascii "Host\t", TrimSpace (ascii " x ")) :=
  (((parseHeader_cases [] (ascii "Host\t") (ascii " x ")).2 (by decide)).2.2
    (by decide) (by decide)).1

/-- C9: `isToken s` holds exactly when `s` is non-empty and every byte of `s` is an
ASCII letter, an ASCII digit, or one of the fifteen `tchar` punctuation characters. -/
theorem isToken_iff_tchar (s : Bytes) : isToken s = true ↔ s ≠ [] ∧ ∀ c ∈ s, tchar c := by
  rw [isToken_iff_chars]
  constructor
  · rintro ⟨h1, h2⟩
    exact ⟨h1, fun c hc => (isTokenChar_iff c).1 (h2 c hc)⟩
  · rintro ⟨h1, h2⟩
    exact ⟨h1, fun c hc => (isTokenChar_iff c).2 (h2 c hc)⟩

/-- C10: when the input holds a CRLF and its first line has a number of space-separated
fields other than 3, `parseRequestLine` fails with `ErrMalformedRequestLine` and 0
bytes consumed, and the parser step on a request in state Init returns that error
with 0 bytes and leaves the request, its state Init included, as it was. -/
theorem parseRequestLine_field_count (uni : Bytes → Bytes) (r : Request) (line rest : Bytes)
    (hline : ¬ [13, 10] <:+: line) (hcount : line.count 32 + 1 ≠ 3)
    (hinit : r.state = StateInit) :
    parseRequestLine (line ++ 13 :: 10 :: rest) = ⟨none, 0, some .ErrMalformedRequestLine⟩ ∧
    r.parseSingle uni (line ++ 13 :: 10 :: rest) = ⟨r, 0, some .ErrMalformedRequestLine⟩ ∧
    (r.parseSingle uni (line ++ 13 :: 10 :: rest)).req.state = StateInit := by
  have h1 := parseRequestLine_bad_count line rest hline hcount
  have h2 : r.parseSingle uni (line ++ 13 :: 10 :: rest)
      = ⟨r, 0, some .ErrMalformedRequestLine⟩ := by
    unfold Request.parseSingle
    rw [hinit]
    simp only [h1]
  exact ⟨h1, h2, by rw [h2]; exact hinit⟩

/-- C10 at the two-field line `GET /`. -/
theorem parseRequestLine_field_count_witness :
    parseRequestLine (ascii "GET /" ++ 13 :: 10 :: ascii "Host: a")
      = ⟨none, 0, some .ErrMalformedRequestLine⟩ ∧
    newRequest.parseSingle id (ascii "GET /" ++ 13 :: 10 :: ascii "Host: a")
      = ⟨newRequest, 0, some .ErrMalformedRequestLine⟩ ∧
    (newRequest.parseSingle id (ascii "GET /" ++ 13 :: 10 :: ascii "Host: a")).req.state
      = StateInit :=
  parseRequestLine_field_count id newRequest (ascii "GET /") (ascii "Host: a")
    (by decide) (by decide) rfl

/-- C11 (what the code does): a request line of three fields whose third field is
`HTTP/v` with `v` other than `1.1` is rejected with the malformed-request-line error,
the same value as for a badly shaped line, and not with the unsupported-version
error, which is a different value. -/
theorem parseRequestLine_other_version (m t v rest : Bytes) (hm : plainWord m)
    (ht : plainWord t) (hv : plainWord v) (hne : v ≠ ascii "1.1") :
    parseRequestLine (m ++ 32 :: (t ++ 32 :: (ascii "HTTP/" ++ v)) ++ 13 :: 10 :: rest)
        = ⟨none, 0, some .ErrMalformedRequestLine⟩
      ∧ Error.ErrMalformedRequestLine ≠ Error.ErrUnsupportedHTTPVersion :=
  ⟨parseRequestLine_version m t v rest hm ht hv hne, by decide⟩

/-- C11 at the line `GET / HTTP/1.0`. -/
theorem parseRequestLine_other_version_witness :
    parseRequestLine (ascii "GET / HTTP/1.0\r\n") = ⟨none, 0, some .ErrMalformedRequestLine⟩
      ∧ Error.ErrMalformedRequestLine ≠ Error.ErrUnsupportedHTTPVersion :=
  parseRequestLine_other_version (ascii "GET") (ascii "/") (ascii "1.0") []
    ⟨by decide, by decide, by decide⟩ ⟨by decide, by decide, by decide⟩
    ⟨by decide, by decide, by decide⟩ (by decide)

/-- C12: the Body step on a request whose header table has no `content-length` entry
moves to Done, consumes 0 bytes and leaves Body as it is, whatever the data; and for
a request line and well-formed header lines none of which is named Content-Length
(in any letter case), followed by the blank line and any bytes `rest`, the driver
stops after the blank line with an empty body in state Done, and so does
`FromReader` on every way of reading such a stream of at most 1024 bytes. -/
theorem parse_without_content_length (uni : Bytes → Bytes) (m t : Bytes)
    (fs : List (Bytes × Bytes)) (rest : Bytes)
    (hm : plainWord m) (ht : plainWord t) (hgood : ∀ f ∈ fs, goodField f)
    (hno : ∀ f ∈ fs, isContentLength f.1 = false) :
    (∀ (r : Request) (data : Bytes), r.state = StateBody →
      mapGet r.Headers.headers (ascii "content-length") = none →
      r.parseSingle uni data = ⟨{ r with state := StateDone }, 0, none⟩) ∧
    newRequest.parse uni (wire m t fs rest)
      = ⟨⟨⟨ascii "1.1", t, m⟩, setAll uni NewHeaders fs, [], StateDone⟩,
          (wire m t fs []).length, none⟩ ∧
    (∀ (chunks : List Bytes) (fuel : Nat), chunks.flatten = wire m t fs rest →
      (wire m t fs rest).length ≤ 1024 → chunks.length < fuel →
      FromReader uni readChunks fuel chunks
        = .ok ⟨⟨ascii "1.1", t, m⟩, setAll uni NewHeaders fs, [], StateDone⟩) := by
  have hp := parse_wire_absent uni m t fs rest hm ht hgood hno
  refine ⟨fun r data hs hn => Request.parseSingle_body_absent uni r data hs hn, hp, ?_⟩
  intro chunks fuel hsplit hlen hfuel
  rw [FromReader_stream uni chunks fuel (by rw [hsplit]; exact hlen) hfuel
    (by rw [hsplit, hp]; simp), hsplit, hp]
  rfl

/-- C12 on `POST /submit` with a Host header, the blank line and then the bytes
`hello world!`. -/
theorem parse_without_content_length_witness :
    (∀ (r : Request) (data : Bytes), r.state = StateBody →
      mapGet r.Headers.headers (ascii "content-length") = none →
      r.parseSingle id data = ⟨{ r with state := StateDone }, 0, none⟩) ∧
    newRequest.parse id (wire (ascii "POST") (ascii "/submit")
        [(ascii "Host", ascii " localhost:42069")] (ascii "hello world!"))
      = ⟨⟨⟨ascii "1.1", ascii "/submit", ascii "POST"⟩,
          setAll id NewHeaders [(ascii "Host", ascii " localhost:42069")], [], StateDone⟩,
          (wire (ascii "POST") (ascii "/submit")
            [(ascii "Host", ascii " localhost:42069")] []).length, none⟩ ∧
    (∀ (chunks : List Bytes) (fuel : Nat),
      chunks.flatten = wire (ascii "POST") (ascii "/submit")
        [(ascii "Host", ascii " localhost:42069")] (ascii "hello world!") →
      (wire (ascii "POST") (ascii "/submit")
        [(ascii "Host", ascii " localhost:42069")] (ascii "hello world!")).length ≤ 1024 →
      chunks.length < fuel →
      FromReader id readChunks fuel chunks
        = .ok ⟨⟨ascii "1.1", ascii "/submit", ascii "POST"⟩,
            setAll id NewHeaders [(ascii "Host", ascii " localhost:42069")], [], StateDone⟩) :=
  parse_without_content_length id (ascii "POST") (ascii "/submit")
    [(ascii "Host", ascii " localhost:42069")] (ascii "hello world!")
    ⟨by decide, by decide, by decide⟩ ⟨by decide, by decide, by decide⟩
    (by
      intro f hf; simp only [List.mem_singleton] at hf; subst hf
      exact ⟨by decide, (Index_none_iff _).1 (by decide)⟩)
    (by
      intro f hf; simp only [List.mem_singleton] at hf; subst hf
      decide)

/-- C13, as stated, fails: the header line `Content-Length:` has an empty value, which
`strconv.Atoi` rejects, yet the Body step treats it as an absent header and the
request reaches Done without an error, also through `FromReader`. -/
theorem empty_content_length_done :
    Atoi [] = .error .ErrSyntax ∧
    newRequest.parse id (ascii "POST / HTTP/1.1\r\nContent-Length:\r\n\r\n")
      = ⟨⟨⟨ascii "1.1", ascii "/", ascii "POST"⟩, ⟨[(ascii "content-length", [])]⟩, [],
          StateDone⟩, 36, none⟩ ∧
    FromReader id readChunks 2 [ascii "POST / HTTP/1.1\r\nContent-Length:\r\n\r\n"]
      = .ok ⟨⟨ascii "1.1", ascii "/", ascii "POST"⟩, ⟨[(ascii "content-length", [])]⟩, [],
          StateDone⟩ := by
  refine ⟨rfl, by decide, by decide⟩

/-- C13, amended: in state Body, when the value found for Content-Length is not empty
and `strconv.Atoi` rejects it, every step and every call of the driver fails with the
invalid-content-length error around the cause, consumes nothing and leaves the
request as it is, so that no sequence of further steps reaches Done; when the value
found is empty (the header is absent or was given without a value) the step moves to
Done without an error. -/
theorem parseSingle_content_length_value (uni : Bytes → Bytes) (r : Request)
    (hs : r.state = StateBody) :
    (∀ e, r.Headers.Get uni (ascii "Content-Length") ≠ [] →
      Atoi (r.Headers.Get uni (ascii "Content-Length")) = .error e →
      (∀ data, r.parseSingle uni data = ⟨r, 0, some (.invalidContentLength e)⟩ ∧
        r.parse uni data = ⟨r, 0, some (.invalidContentLength e)⟩) ∧
      ∀ ds, r.steps uni ds = r ∧ (r.steps uni ds).state ≠ StateDone) ∧
    (r.Headers.Get uni (ascii "Content-Length") = [] →
      ∀ data, r.parseSingle uni data = ⟨{ r with state := StateDone }, 0, none⟩) := by
  constructor
  · intro e hne he
    have h1 : ∀ data, r.parseSingle uni data = ⟨r, 0, some (.invalidContentLength e)⟩ :=
      fun data => Request.parseSingle_body_invalid uni r data e hs hne he
    refine ⟨fun data => ⟨h1 data, ?_⟩, fun ds => ?_⟩
    · rw [Request.parse_body uni r data hs, if_neg hne, he]
    · have hfix := Request.steps_fixed uni r (fun d => by rw [h1 d]) ds
      rw [hfix, hs]
      exact ⟨rfl, by decide⟩
  · intro hg data
    rw [Request.parseSingle_body uni r data hs, if_pos hg]

/-- C13, amended, at a request in state Body whose table holds `content-length: abc`:
a step on `hello` fails and two further steps leave the request in state Body. -/
theorem parseSingle_content_length_value_witness :
    ((⟨⟨ascii "1.1", ascii "/", ascii "POST"⟩, ⟨[(ascii "content-length", ascii "abc")]⟩, [],
        StateBody⟩ : Request).parseSingle id (ascii "hello")
      = ⟨⟨⟨ascii "1.1", ascii "/", ascii "POST"⟩, ⟨[(ascii "content-length", ascii "abc")]⟩,
          [], StateBody⟩, 0, some (.invalidContentLength .ErrSyntax)⟩ ∧
    (⟨⟨ascii "1.1", ascii "/", ascii "POST"⟩, ⟨[(ascii "content-length", ascii "abc")]⟩, [],
        StateBody⟩ : Request).parse id (ascii "hello")
      = ⟨⟨⟨ascii "1.1", ascii "/", ascii "POST"⟩, ⟨[(ascii "content-length", ascii "abc")]⟩,
          [], StateBody⟩, 0, some (.invalidContentLength .ErrSyntax)⟩) ∧
    ((⟨⟨ascii "1.1", ascii "/", ascii "POST"⟩, ⟨[(ascii "content-length", ascii "abc")]⟩, [],
        StateBody⟩ : Request).steps id [ascii "hello", ascii "12"]
      = ⟨⟨ascii "1.1", ascii "/", ascii "POST"⟩, ⟨[(ascii "content-length", ascii "abc")]⟩,
          [], StateBody⟩ ∧
    ((⟨⟨ascii "1.1", ascii "/", ascii "POST"⟩, ⟨[(ascii "content-length", ascii "abc")]⟩, [],
        StateBody⟩ : Request).steps id [ascii "hello", ascii "12"]).state ≠ StateDone) :=
  ⟨((parseSingle_content_length_value id
      ⟨⟨ascii "1.1", ascii "/", ascii "POST"⟩, ⟨[(ascii "content-length", ascii "abc")]⟩, [],
        StateBody⟩ rfl).1 .ErrSyntax (by decide) rfl).1 (ascii "hello"),
   ((parseSingle_content_length_value id
      ⟨⟨ascii "1.1", ascii "/", ascii "POST"⟩, ⟨[(ascii "content-length", ascii "abc")]⟩, [],
        StateBody⟩ rfl).1 .ErrSyntax (by decide) rfl).2 [ascii "hello", ascii "12"]⟩

/-- C14, as stated, fails in two ways.  After `Content-Length: 2` the Body step on
`hello` returns the body-too-large error and leaves a body of five bytes behind; and
after `Content-Length: -1`, a value `strconv.Atoi` accepts, the empty body is longer
than the announced length although no step returned an error. -/
theorem body_exceeds_content_length :
    (newRequest.steps id [ascii "POST / HTTP/1.1\r\n", ascii "Content-Length: 2\r\n\r\n"]).parseSingle
        id (ascii "hello")
      = ⟨⟨⟨ascii "1.1", ascii "/", ascii "POST"⟩, ⟨[(ascii "content-length", ascii "2")]⟩,
          ascii "hello", StateBody⟩, 0, some .ErrBodyTooLarge⟩ ∧
    (newRequest.steps id [ascii "POST / HTTP/1.1\r\n", ascii "Content-Length: 2\r\n\r\n",
        ascii "hello"]).Body.length = 5 ∧
    Atoi ((newRequest.steps id [ascii "POST / HTTP/1.1\r\n", ascii "Content-Length: 2\r\n\r\n",
        ascii "hello"]).Headers.Get id (ascii "Content-Length")) = .ok 2 ∧
    newRequest.quiet id [ascii "POST / HTTP/1.1\r\n", ascii "Content-Length: -1\r\n\r\n"] = true ∧
    (newRequest.steps id [ascii "POST / HTTP/1.1\r\n", ascii "Content-Length: -1\r\n\r\n"]).Body
      = [] ∧
    Atoi ((newRequest.steps id [ascii "POST / HTTP/1.1\r\n",
        ascii "Content-Length: -1\r\n\r\n"]).Headers.Get id (ascii "Content-Length")) = .ok (-1) := by
  refine ⟨by decide, by decide, rfl, by decide, by decide, rfl⟩

/-- C14, amended: in every state of a request reached from `newRequest` by a sequence
of parser steps, on any inputs, none of which returned an error, the body is at most
as long as the value of the Content-Length header whenever that value is not empty
and `strconv.Atoi` reads it as a number that is not negative; and in state Done with
a Content-Length value that is not empty, the value reads as the length of the
body. -/
theorem body_within_content_length (uni : Bytes → Bytes) (ds : List Bytes)
    (hq : newRequest.quiet uni ds = true) :
    (∀ cl : Int, (newRequest.steps uni ds).Headers.Get uni (ascii "Content-Length") ≠ [] →
      Atoi ((newRequest.steps uni ds).Headers.Get uni (ascii "Content-Length")) = .ok cl →
      0 ≤ cl → ((newRequest.steps uni ds).Body.length : Int) ≤ cl) ∧
    ((newRequest.steps uni ds).state = StateDone →
      (newRequest.steps uni ds).Headers.Get uni (ascii "Content-Length") ≠ [] →
      Atoi ((newRequest.steps uni ds).Headers.Get uni (ascii "Content-Length"))
        = .ok ((newRequest.steps uni ds).Body.length : Int)) :=
  BodyInv_bound uni _ (BodyInv_steps uni ds newRequest rfl hq)

/-- C14, amended, on a request that arrives in four pieces, the body in two. -/
theorem body_within_content_length_witness :
    newRequest.quiet id [ascii "POST / HTTP/1.1\r\n", ascii "Content-Length: 5\r\n\r\n",
        ascii "he", ascii "llo"] = true ∧
    (newRequest.steps id [ascii "POST / HTTP/1.1\r\n", ascii "Content-Length: 5\r\n\r\n",
        ascii "he", ascii "llo"]).state = StateDone ∧
    Atoi ((newRequest.steps id [ascii "POST / HTTP/1.1\r\n", ascii "Content-Length: 5\r\n\r\n",
        ascii "he", ascii "llo"]).Headers.Get id (ascii "Content-Length"))
      = .ok ((newRequest.steps id [ascii "POST / HTTP/1.1\r\n",
          ascii "Content-Length: 5\r\n\r\n", ascii "he", ascii "llo"]).Body.length : Int) :=
  ⟨by decide, by decide,
    (body_within_content_length id [ascii "POST / HTTP/1.1\r\n",
      ascii "Content-Length: 5\r\n\r\n", ascii "he", ascii "llo"] (by decide)).2
      (by decide) (by decide)⟩

/-- C15, as stated, fails: in this request the headers give Content-Length the value 20
and the stream ends after 15 body bytes, but the header line `X` has 1104 bytes, more
than the staging buffer holds.  Once the buffer is full of the start of that line the
loop of `FromReader` reads nothing more and never returns: it returns no error. -/
theorem FromReader_long_header_line :
    [ascii "POST / HTTP/1.1\r\nContent-Length: 20\r\n", ascii "X: " ++ List.replicate 1021 97,
        List.replicate 80 97 ++ ascii "\r\n\r\npartial content"].flatten
      = wire (ascii "POST") (ascii "/")
          [(ascii "Content-Length", ascii " 20"), (ascii "X", 32 :: List.replicate 1101 97)]
          (ascii "partial content") ∧
    Atoi ((setAll id NewHeaders
        [(ascii "Content-Length", ascii " 20"),
          (ascii "X", 32 :: List.replicate 1101 97)]).Get id (ascii "Content-Length"))
      = .ok 20 ∧
    (ascii "partial content").length < 20 ∧
    ¬ ∃ fuel, FromReader id readChunks fuel
        [ascii "POST / HTTP/1.1\r\nContent-Length: 20\r\n",
          ascii "X: " ++ List.replicate 1021 97,
          List.replicate 80 97 ++ ascii "\r\n\r\npartial content"] ≠ .outOfFuel := by
  refine ⟨long_line_stream, long_line_length, by decide, ?_⟩
  rintro ⟨fuel, h⟩
  exact h (FromReaderLoop_long_line fuel)

/-- C15, amended: for a request whose request line and header lines each fit the
staging buffer (a line with its CRLF has at most 1024 bytes), whose headers give
Content-Length the value `n`, and whose stream ends after fewer than `n` body bytes,
`FromReader` returns an error, the end-of-stream error of the read that finds the
stream at its end, and no request, however the stream is cut into reads, however
many header lines there are and however long the body is. -/
theorem FromReader_short_body (uni : Bytes → Bytes) (m t : Bytes)
    (fs : List (Bytes × Bytes)) (b : Bytes) (n : Nat) (chunks : List Bytes) (fuel : Nat)
    (hm : plainWord m) (ht : plainWord t) (hgood : ∀ f ∈ fs, goodField f)
    (hcl : Atoi ((setAll uni NewHeaders fs).Get uni (ascii "Content-Length")) = .ok (n : Int))
    (hlt : b.length < n) (hline : (requestLine m t).length + 2 ≤ 1024)
    (hlines : ∀ f ∈ fs, (fieldLine f).length + 2 ≤ 1024)
    (hne : ∀ c ∈ chunks, c ≠ []) (hsplit : chunks.flatten = wire m t fs b)
    (hfuel : (wire m t fs b).length < fuel) :
    FromReader uni readChunks fuel chunks = .fail .EOF ∧
    ∀ r, FromReader uni readChunks fuel chunks ≠ .ok r := by
  have h := FromReader_short_lines uni m t fs b n chunks fuel hm ht hgood hcl hlt hline hlines
    hne hsplit hfuel
  refine ⟨h, fun r => ?_⟩
  rw [h]
  simp

/-- C15, amended, on the repository's test, `Content-Length: 20` followed by
`partial content`, read in three pieces. -/
theorem FromReader_short_body_witness :
    FromReader id readChunks 100 [ascii "POST /submit HTTP/1.1\r\nHost: localhost:42069\r",
        ascii "\nContent-Length: 20\r\n\r\npart", ascii "ial content"] = .fail .EOF ∧
    ∀ r, FromReader id readChunks 100 [ascii "POST /submit HTTP/1.1\r\nHost: localhost:42069\r",
        ascii "\nContent-Length: 20\r\n\r\npart", ascii "ial content"] ≠ .ok r :=
  FromReader_short_body id (ascii "POST") (ascii "/submit")
    [(ascii "Host", ascii " localhost:42069"), (ascii "Content-Length", ascii " 20")]
    (ascii "partial content") 20
    [ascii "POST /submit HTTP/1.1\r\nHost: localhost:42069\r",
      ascii "\nContent-Length: 20\r\n\r\npart", ascii "ial content"] 100
    ⟨by decide, by decide, by decide⟩ ⟨by decide, by decide, by decide⟩
    (by
      intro f hf
      simp only [List.mem_cons, List.mem_singleton, List.not_mem_nil, or_false] at hf
      rcases hf with rfl | rfl
      · exact ⟨by decide, (Index_none_iff _).1 (by decide)⟩
      · exact ⟨by decide, (Index_none_iff _).1 (by decide)⟩)
    rfl (by decide) (by decide)
    (by
      intro f hf
      simp only [List.mem_cons, List.mem_singleton, List.not_mem_nil, or_false] at hf
      rcases hf with rfl | rfl <;> decide)
    (by decide) (by decide) (by decide)

/-- C16 (what the code does): a parser step that returns an error consumes nothing
and leaves the state it found, and no step moves a request to state Error, so that
no sequence of steps from `newRequest` reaches that state.  For instance the step on
the two-field line `GET /` fails and leaves state Init, and a further step on that
request, given a good line, is accepted instead of reporting the error state. -/
theorem parseSingle_never_enters_error (uni : Bytes → Bytes) :
    (∀ (r : Request) (d : Bytes), (r.parseSingle uni d).err ≠ none →
      (r.parseSingle uni d).req.state = r.state ∧ (r.parseSingle uni d).n = 0) ∧
    (∀ ds, (newRequest.steps uni ds).state ≠ StateError) ∧
    newRequest.parseSingle id (ascii "GET /\r\n")
      = ⟨newRequest, 0, some .ErrMalformedRequestLine⟩ ∧
    (newRequest.parseSingle id (ascii "GET /\r\n")).req.parseSingle id
        (ascii "GET / HTTP/1.1\r\n")
      = ⟨⟨⟨ascii "1.1", ascii "/", ascii "GET"⟩, NewHeaders, [], StateHeaders⟩, 16, none⟩ :=
  ⟨fun r d he => Request.parseSingle_error_state uni r d he,
    fun ds => Request.steps_not_error uni ds newRequest (by decide), by decide, by decide⟩

/-- C17, as stated, fails: the line ` / HTTP/1.1`, whose method is empty, and the line
`G@T / HTTP/1.1`, whose method holds a character that is no token character, are both
accepted, and the method is recorded as it stands. -/
theorem parseRequestLine_accepts_any_method :
    parseRequestLine (ascii " / HTTP/1.1\r\n")
      = ⟨some ⟨ascii "1.1", ascii "/", []⟩, 13, none⟩ ∧
    isToken [] = false ∧
    parseRequestLine (ascii "G@T / HTTP/1.1\r\n")
      = ⟨some ⟨ascii "1.1", ascii "/", ascii "G@T"⟩, 16, none⟩ ∧
    isToken (ascii "G@T") = false := by
  refine ⟨by decide, by decide, by decide, by decide⟩

/-- C17, amended: every request line accepted by `parseRequestLine` is, up to its
CRLF, `METHOD SP TARGET SP HTTP/1.1`, and the method recorded is the text before the
first space: it holds no space, and nothing else is asked of it.  Every method free
of space, CR and LF, the empty one included, is accepted with every such target. -/
theorem parseRequestLine_method (b : Bytes) (l : Line) (n : Nat)
    (h : parseRequestLine b = ⟨some l, n, none⟩) :
    (∃ idx, Index b [13, 10] = some idx ∧ n = idx + 2 ∧
      b.take idx = requestLine l.Method l.RequestTarget ∧
      32 ∉ l.Method ∧ 32 ∉ l.RequestTarget ∧ l.HttpVersion = ascii "1.1") ∧
    (∀ m t rest : Bytes, plainWord m → plainWord t →
      parseRequestLine (requestLine m t ++ 13 :: 10 :: rest)
        = ⟨some ⟨ascii "1.1", t, m⟩, (requestLine m t).length + 2, none⟩) :=
  ⟨parseRequestLine_accepted b l n h,
    fun m t rest hm ht => parseRequestLine_wellformed m t rest hm ht⟩

/-- C17, amended, at the line ` / HTTP/1.1` with an empty method. -/
theorem parseRequestLine_method_witness :
    (∃ idx, Index (ascii " / HTTP/1.1\r\n") [13, 10] = some idx ∧ 13 = idx + 2 ∧
      (ascii " / HTTP/1.1\r\n").take idx = requestLine [] (ascii "/") ∧
      32 ∉ ([] : Bytes) ∧ 32 ∉ ascii "/" ∧ ascii "1.1" = ascii "1.1") ∧
    (∀ m t rest : Bytes, plainWord m → plainWord t →
      parseRequestLine (requestLine m t ++ 13 :: 10 :: rest)
        = ⟨some ⟨ascii "1.1", t, m⟩, (requestLine m t).length + 2, none⟩) :=
  parseRequestLine_method (ascii " / HTTP/1.1\r\n") ⟨ascii "1.1", ascii "/", []⟩ 13
    (by decide)

/-- C18: every operation of the response writer called from a state that is not one
of its valid predecessors returns its sequencing error and leaves the writer as it
was, the state and the sink alike, whatever the sink is: no `Write` is made on it.
This holds for `WriteChunkedBody` with an empty argument as well. -/
theorem Writer_out_of_order {σ : Type} (write : σ → Bytes → WriteResult σ)
    (order : List (Bytes × Bytes) → List (Bytes × Bytes)) (w : Writer σ) (h : Headers)
    (p statusCode : Bytes) :
    (w.state ≠ stateInit →
      w.WriteStatusLine write statusCode
        = ⟨w, 0, some (.errorf "WriteStatusLine must be called first")⟩) ∧
    (w.state ≠ stateStatus →
      w.WriteHeaders write order h
        = ⟨w, 0, some (.errorf "WriteHeaders must be called after WriteStatusLine")⟩) ∧
    (w.state ≠ stateHeaders →
      w.WriteBody write p = ⟨w, 0, some (.errorf "WriteBody must be called after WriteHeaders")⟩) ∧
    (w.state ≠ stateHeaders → w.state ≠ stateBody →
      w.WriteChunkedBody write p
        = ⟨w, 0, some (.errorf "WriteChunkedBody must be called after WriteHeaders")⟩ ∧
      w.WriteChunkedBody write []
        = ⟨w, 0, some (.errorf "WriteChunkedBody must be called after WriteHeaders")⟩ ∧
      w.WriteChunkedBodyDone write
        = ⟨w, 0, some (.errorf
            "WriteChunkedBodyDone muse be called after WriteHeaders or WriteChunkedBody")⟩) ∧
    (w.state ≠ stateBody →
      w.WriteTrailers write order h
        = ⟨w, 0, some (.errorf "WriteTrailers must be called after WriteChunkedBodyDone")⟩) ∧
    (∀ msg ∈ sequencingMessages, (WriterError.errorf msg).sequencing = true) := by
  refine ⟨fun h1 => ?_, fun h1 => ?_, fun h1 => ?_, fun h1 h2 => ⟨?_, ?_, ?_⟩, fun h1 => ?_,
    fun msg hm => ?_⟩
  · rw [Writer.WriteStatusLine, if_pos h1]
  · rw [Writer.WriteHeaders, if_pos h1]
  · rw [Writer.WriteBody, if_pos h1]
  · rw [Writer.WriteChunkedBody, if_pos ⟨h1, h2⟩]
  · rw [Writer.WriteChunkedBody, if_pos ⟨h1, h2⟩]
  · rw [Writer.WriteChunkedBodyDone, if_pos ⟨h1, h2⟩]
  · rw [Writer.WriteTrailers, if_pos h1]
  · simp only [WriterError.sequencing, decide_eq_true_eq]
    exact hm

/-- C18 on a new writer over a sink that records the `Write` calls: `WriteHeaders`,
`WriteBody`, `WriteChunkedBody` of nothing and `WriteTrailers` fail and no call is
recorded. -/
theorem Writer_out_of_order_witness :
    (NewWriter ([] : List Bytes)).WriteHeaders callLog id
        ⟨[(ascii "content-length", ascii "2")]⟩
      = ⟨NewWriter [], 0, some (.errorf "WriteHeaders must be called after WriteStatusLine")⟩ ∧
    (NewWriter ([] : List Bytes)).WriteBody callLog (ascii "OK")
      = ⟨NewWriter [], 0, some (.errorf "WriteBody must be called after WriteHeaders")⟩ ∧
    (NewWriter ([] : List Bytes)).WriteChunkedBody callLog []
      = ⟨NewWriter [], 0, some (.errorf "WriteChunkedBody must be called after WriteHeaders")⟩ ∧
    (NewWriter ([] : List Bytes)).WriteTrailers callLog id
        ⟨[(ascii "content-length", ascii "2")]⟩
      = ⟨NewWriter [], 0, some (.errorf "WriteTrailers must be called after WriteChunkedBodyDone")⟩ :=
  ⟨(Writer_out_of_order callLog id (NewWriter []) ⟨[(ascii "content-length", ascii "2")]⟩
      (ascii "OK") (ascii "200")).2.1 (by decide),
   (Writer_out_of_order callLog id (NewWriter []) ⟨[(ascii "content-length", ascii "2")]⟩
      (ascii "OK") (ascii "200")).2.2.1 (by decide),
   ((Writer_out_of_order callLog id (NewWriter []) ⟨[(ascii "content-length", ascii "2")]⟩
      (ascii "OK") (ascii "200")).2.2.2.1 (by decide) (by decide)).2.1,
   (Writer_out_of_order callLog id (NewWriter []) ⟨[(ascii "content-length", ascii "2")]⟩
      (ascii "OK") (ascii "200")).2.2.2.2.1 (by decide)⟩

/-- C19: for a writer in state Headers over a buffer holding `out`, and every list of
byte strings, the calls `WriteChunkedBody(p1)`, ..., `WriteChunkedBody(pk)` all
succeed and `WriteChunkedBodyDone` after them succeeds and leaves the writer in state
Body with the buffer holding `out`, then for each non-empty `pi`, in order, its chunk
(the size, CRLF, the bytes of `pi`, CRLF), then `0 CRLF CRLF`.  The size is written
in upper-case hexadecimal digits that read as the length of `pi`, the first of them
not `0`.  `ab` then `c` then Done gives `2 CRLF ab CRLF 1 CRLF c CRLF 0 CRLF CRLF`. -/
theorem chunked_body_bytes (out : Bytes) (ps : List Bytes) :
    (∃ w, Writer.writeChunks bufferWrite ⟨out, stateHeaders⟩ ps = some w ∧
      w.WriteChunkedBodyDone bufferWrite
        = ⟨⟨out ++ ((ps.filter (fun p => decide (p ≠ []))).map chunk).flatten
            ++ ascii "0\r\n\r\n", stateBody⟩, 5, none⟩) ∧
    (∀ p : Bytes, p ≠ [] →
      upperHexValue (formatX p.length) 0 = some p.length ∧
      (formatX p.length).head? ≠ some 48) ∧
    (Writer.writeChunks bufferWrite ⟨[], stateHeaders⟩ [ascii "ab", ascii "c"]).map
        (fun w => w.WriteChunkedBodyDone bufferWrite)
      = some ⟨⟨ascii "2\r\nab\r\n1\r\nc\r\n0\r\n\r\n", stateBody⟩, 5, none⟩ := by
  refine ⟨?_, fun p hp => ?_, by decide⟩
  · obtain ⟨w, e, ho, hst⟩ := writeChunks_buffer ps ⟨out, stateHeaders⟩ (Or.inl rfl)
    refine ⟨w, e, ?_⟩
    rw [WriteChunkedBodyDone_buffer w hst, ho]
  · have h := formatX_spec p.length
    exact ⟨h.1, h.2 (List.length_pos.2 hp)⟩

/-- C20, as stated, fails: after `Set("Content-Length", "2")` the table holds the name
in lower case, and the response written with the body `OK` has the header line
`content-length: 2`; whatever the order of the map iteration, the bytes are not the
ones of the claim, which spell the name as it was given to `Set`. -/
theorem response_header_lowercased :
    (((NewWriter ([] : Bytes)).WriteStatusLine bufferWrite (ascii "200")).w.WriteHeaders
        bufferWrite id (NewHeaders.Set id (ascii "Content-Length") (ascii "2"))).w.WriteBody
        bufferWrite (ascii "OK")
      = ⟨⟨ascii "HTTP/1.1 200 OK\r\ncontent-length: 2\r\n\r\nOK", stateBody⟩, 2, none⟩ ∧
    ¬ ∃ order : List (Bytes × Bytes) → List (Bytes × Bytes),
      (order (NewHeaders.Set id (ascii "Content-Length") (ascii "2")).headers).Perm
        (NewHeaders.Set id (ascii "Content-Length") (ascii "2")).headers ∧
      ((((NewWriter ([] : Bytes)).WriteStatusLine bufferWrite (ascii "200")).w.WriteHeaders
        bufferWrite order (NewHeaders.Set id (ascii "Content-Length") (ascii "2"))).w.WriteBody
        bufferWrite (ascii "OK")).w.writer
        = ascii "HTTP/1.1 200 OK\r\nContent-Length: 2\r\n\r\nOK" := by
  refine ⟨by decide, ?_⟩
  rintro ⟨order, hp, he⟩
  have hh : (NewHeaders.Set id (ascii "Content-Length") (ascii "2")).headers
      = [(ascii "content-length", ascii "2")] := by decide
  rw [hh] at hp
  have ho := List.perm_singleton.1 hp
  rw [WriteStatusLine_buffer _ _ rfl, WriteHeaders_buffer _ _ _ rfl, WriteBody_buffer _ _ rfl,
    hh, ho] at he
  revert he
  decide

/-- C20, amended: for every header table built by `Set` and `Override` calls on an
empty table and every body `b`, `WriteStatusLine(200)`, `WriteHeaders(h)` and
`WriteBody(b)` on a new writer over an empty buffer all succeed and leave in the
buffer the status line `HTTP/1.1 200 OK CRLF`, then one line `name: value CRLF` per
entry of the table, in the order of the map iteration, then a blank CRLF, then `b`.
The names of the lines are the lower-cased names under which the table stores the
entries, each once, and the value of a line is the one the calls for that name
built. -/
theorem response_bytes (uni : Bytes → Bytes) (calls : List Call)
    (order : List (Bytes × Bytes) → List (Bytes × Bytes)) (b : Bytes)
    (hperm : (order (calls.foldl (Headers.apply uni) NewHeaders).headers).Perm
      (calls.foldl (Headers.apply uni) NewHeaders).headers) :
    (NewWriter ([] : Bytes)).WriteStatusLine bufferWrite (ascii "200")
      = ⟨⟨ascii "HTTP/1.1 200 OK\r\n", stateStatus⟩, 0, none⟩ ∧
    (⟨ascii "HTTP/1.1 200 OK\r\n", stateStatus⟩ : Writer Bytes).WriteHeaders bufferWrite order
        (calls.foldl (Headers.apply uni) NewHeaders)
      = ⟨⟨ascii "HTTP/1.1 200 OK\r\n"
          ++ ((order (calls.foldl (Headers.apply uni) NewHeaders).headers).map
            headerLine).flatten ++ ascii "\r\n", stateHeaders⟩, 0, none⟩ ∧
    (⟨ascii "HTTP/1.1 200 OK\r\n"
          ++ ((order (calls.foldl (Headers.apply uni) NewHeaders).headers).map
            headerLine).flatten ++ ascii "\r\n", stateHeaders⟩ : Writer Bytes).WriteBody
        bufferWrite b
      = ⟨⟨ascii "HTTP/1.1 200 OK\r\n"
          ++ ((order (calls.foldl (Headers.apply uni) NewHeaders).headers).map
            headerLine).flatten ++ ascii "\r\n" ++ b, stateBody⟩, b.length, none⟩ ∧
    ((order (calls.foldl (Headers.apply uni) NewHeaders).headers).map Prod.fst).Nodup ∧
    ∀ k v, (k, v) ∈ order (calls.foldl (Headers.apply uni) NewHeaders).headers ↔
      (calls.filter (fun c => decide (ToLower uni c.name = k))).foldl replayStep none
        = some v := by
  have hn := foldl_apply_nodup uni calls NewHeaders (by simp [NewHeaders])
  refine ⟨rfl, WriteHeaders_buffer order _ _ rfl, WriteBody_buffer _ b rfl, ?_, fun k v => ?_⟩
  · exact ((hperm.map Prod.fst).nodup_iff).2 hn
  · rw [hperm.mem_iff, mem_iff_mapGet _ hn, mapGet_foldl_apply]
    rfl

/-- C20, amended, on `Set("Content-Length", "2")` and the body `OK`. -/
theorem response_bytes_witness :
    (NewWriter ([] : Bytes)).WriteStatusLine bufferWrite (ascii "200")
      = ⟨⟨ascii "HTTP/1.1 200 OK\r\n", stateStatus⟩, 0, none⟩ ∧
    (⟨ascii "HTTP/1.1 200 OK\r\n", stateStatus⟩ : Writer Bytes).WriteHeaders bufferWrite id
        ([Call.set (ascii "Content-Length") (ascii "2")].foldl (Headers.apply id) NewHeaders)
      = ⟨⟨ascii "HTTP/1.1 200 OK\r\n"
          ++ ((id ([Call.set (ascii "Content-Length") (ascii "2")].foldl (Headers.apply id)
            NewHeaders).headers).map headerLine).flatten ++ ascii "\r\n", stateHeaders⟩, 0,
          none⟩ ∧
    (⟨ascii "HTTP/1.1 200 OK\r\n"
          ++ ((id ([Call.set (ascii "Content-Length") (ascii "2")].foldl (Headers.apply id)
            NewHeaders).headers).map headerLine).flatten ++ ascii "\r\n", stateHeaders⟩ :
        Writer Bytes).WriteBody bufferWrite (ascii "OK")
      = ⟨⟨ascii "HTTP/1.1 200 OK\r\n"
          ++ ((id ([Call.set (ascii "Content-Length") (ascii "2")].foldl (Headers.apply id)
            NewHeaders).headers).map headerLine).flatten ++ ascii "\r\n" ++ ascii "OK",
          stateBody⟩, (ascii "OK").length, none⟩ ∧
    ((id ([Call.set (ascii "Content-Length") (ascii "2")].foldl (Headers.apply id)
      NewHeaders).headers).map Prod.fst).Nodup ∧
    ∀ k v, (k, v) ∈ id ([Call.set (ascii "Content-Length") (ascii "2")].foldl
        (Headers.apply id) NewHeaders).headers ↔
      ([Call.set (ascii "Content-Length") (ascii "2")].filter
        (fun c => decide (ToLower id c.name = k))).foldl replayStep none = some v :=
  response_bytes id [Call.set (ascii "Content-Length") (ascii "2")] id (ascii "OK")
    (List.Perm.refl _)

/-- C21 (what the code does): from state Init, over a buffer, `WriteStatusLine` writes
`HTTP/1.1 200 OK CRLF` for 200 and `HTTP/1.1 400 Bad Request CRLF` for 400 and moves
to state StatusLine; for 500 it does the same with the line
`HTTP/1.1 500 internal Server Error CRLF`, the reason phrase starting with a small
`i`, which is not the line with the canonical phrase `Internal Server Error`. -/
theorem WriteStatusLine_known_codes (out : Bytes) :
    (⟨out, stateInit⟩ : Writer Bytes).WriteStatusLine bufferWrite (ascii "200")
      = ⟨⟨out ++ ascii "HTTP/1.1 200 OK\r\n", stateStatus⟩, 0, none⟩ ∧
    (⟨out, stateInit⟩ : Writer Bytes).WriteStatusLine bufferWrite (ascii "400")
      = ⟨⟨out ++ ascii "HTTP/1.1 400 Bad Request\r\n", stateStatus⟩, 0, none⟩ ∧
    (⟨out, stateInit⟩ : Writer Bytes).WriteStatusLine bufferWrite (ascii "500")
      = ⟨⟨out ++ ascii "HTTP/1.1 500 internal Server Error\r\n", stateStatus⟩, 0, none⟩ ∧
    ascii "HTTP/1.1 500 internal Server Error\r\n"
      ≠ ascii "HTTP/1.1 500 Internal Server Error\r\n" :=
  ⟨rfl, rfl, rfl, by decide⟩

/-- C22: in state Headers or Body, `WriteChunkedBody` with an empty byte sequence
returns 0 and no error and leaves the writer as it was, the state and the sink alike,
whatever the sink is: no `Write` is made on it. -/
theorem WriteChunkedBody_empty {σ : Type} (write : σ → Bytes → WriteResult σ) (w : Writer σ)
    (hs : w.state = stateHeaders ∨ w.state = stateBody) :
    w.WriteChunkedBody write [] = ⟨w, 0, none⟩ := by
  have h1 : ¬ (w.state ≠ stateHeaders ∧ w.state ≠ stateBody) := by
    rcases hs with h | h <;> rw [h] <;> decide
  rw [Writer.WriteChunkedBody, if_neg h1]
  rfl

/-- C22 on a writer in state Headers over a sink that records the `Write` calls. -/
theorem WriteChunkedBody_empty_witness :
    (⟨[ascii "HTTP/1.1 200 OK\r\n", ascii "\r\n"], stateHeaders⟩ :
        Writer (List Bytes)).WriteChunkedBody callLog []
      = ⟨⟨[ascii "HTTP/1.1 200 OK\r\n", ascii "\r\n"], stateHeaders⟩, 0, none⟩ :=
  WriteChunkedBody_empty callLog ⟨[ascii "HTTP/1.1 200 OK\r\n", ascii "\r\n"], stateHeaders⟩
    (Or.inl rfl)

/-- C23, as stated, fails: on a sink whose writes fail, `WriteStatusLine` on a new
writer returns the wrapped failure and leaves the writer in state Init, not in
StatusLine, and `WriteBody` from state Headers leaves it in Headers, not in Body. -/
theorem failed_write_keeps_state :
    (NewWriter 0).WriteStatusLine brokenWrite (ascii "200")
      = ⟨⟨1, stateInit⟩, 0, some (.wrapf "error writing status line: " (.transport 1))⟩ ∧
    (⟨0, stateHeaders⟩ : Writer Nat).WriteBody brokenWrite (ascii "OK")
      = ⟨⟨1, stateHeaders⟩, 0, some (.wrapf "error writing body: " (.transport 1))⟩ := by
  decide

/-- C23, amended: when an operation of the response writer is called from a valid
predecessor state and a write on the sink fails, the operation returns that failure
wrapped with the message of its stage, and the state of the writer stays the one it
was called in; no operation that returns an error changes the state.  For the
operations that make several writes this holds for whichever write is the first to
fail: a header or trailer line after any lines that were written, the blank line
after all lines, and the size, the data and the closing CRLF of a chunk. -/
theorem Writer_failed_write {σ : Type} (write : σ → Bytes → WriteResult σ)
    (order : List (Bytes × Bytes) → List (Bytes × Bytes)) (w : Writer σ) (h : Headers)
    (p statusCode : Bytes) :
    (∀ e, w.state = stateInit →
      (write w.writer (statusLine statusCode ++ ascii "\r\n")).err = some e →
      w.WriteStatusLine write statusCode
        = ⟨⟨(write w.writer (statusLine statusCode ++ ascii "\r\n")).next, stateInit⟩, 0,
            some (.wrapf "error writing status line: " e)⟩) ∧
    (∀ e, w.state = stateHeaders → (write w.writer p).err = some e →
      w.WriteBody write p
        = ⟨⟨(write w.writer p).next, stateHeaders⟩, (write w.writer p).n,
            some (.wrapf "error writing body: " e)⟩) ∧
    (∀ e, w.state = stateHeaders ∨ w.state = stateBody →
      (write w.writer (ascii "0\r\n\r\n")).err = some e →
      w.WriteChunkedBodyDone write
        = ⟨⟨(write w.writer (ascii "0\r\n\r\n")).next, w.state⟩,
            (write w.writer (ascii "0\r\n\r\n")).n,
            some (.wrapf "error writing final chunk: " e)⟩) ∧
    (w.state = stateStatus → ∀ x, (w.WriteHeaders write order h).err = some x →
      ∃ e, x = .wrapf "error writing header: " e ∨
        x = .wrapf "error writing header separator: " e) ∧
    (w.state = stateHeaders ∨ w.state = stateBody →
      ∀ x, (w.WriteChunkedBody write p).err = some x →
      ∃ e, x = .wrapf "error writing chunk size: " e ∨
        x = .wrapf "error writing chunk data: " e ∨
        x = .wrapf "error writing chunk trailing CRLF: " e) ∧
    (w.state = stateBody → ∀ x, (w.WriteTrailers write order h).err = some x →
      ∃ e, x = .wrapf "error writing trailer: " e ∨
        x = .wrapf "error writing trailer separator: " e) ∧
    ((w.WriteStatusLine write statusCode).err ≠ none →
      (w.WriteStatusLine write statusCode).w.state = w.state) ∧
    ((w.WriteHeaders write order h).err ≠ none →
      (w.WriteHeaders write order h).w.state = w.state) ∧
    ((w.WriteBody write p).err ≠ none → (w.WriteBody write p).w.state = w.state) ∧
    ((w.WriteChunkedBody write p).err ≠ none →
      (w.WriteChunkedBody write p).w.state = w.state) ∧
    ((w.WriteChunkedBodyDone write).err ≠ none →
      (w.WriteChunkedBodyDone write).w.state = w.state) ∧
    ((w.WriteTrailers write order h).err ≠ none →
      (w.WriteTrailers write order h).w.state = w.state) ∧
    (∀ pre kv post s1 e, w.state = stateStatus → order h.All = pre ++ kv :: post →
      writeAll write (pre.map headerLine) w.writer = some s1 →
      (write s1 (headerLine kv)).err = some e →
      w.WriteHeaders write order h
        = ⟨⟨(write s1 (headerLine kv)).next, stateStatus⟩, 0,
            some (.wrapf "error writing header: " e)⟩) ∧
    (∀ s1 e, w.state = stateStatus →
      writeAll write ((order h.All).map headerLine) w.writer = some s1 →
      (write s1 (ascii "\r\n")).err = some e →
      w.WriteHeaders write order h
        = ⟨⟨(write s1 (ascii "\r\n")).next, stateStatus⟩, 0,
            some (.wrapf "error writing header separator: " e)⟩) ∧
    (∀ pre kv post s1 e, w.state = stateBody → order h.All = pre ++ kv :: post →
      writeAll write (pre.map headerLine) w.writer = some s1 →
      (write s1 (headerLine kv)).err = some e →
      w.WriteTrailers write order h
        = ⟨⟨(write s1 (headerLine kv)).next, stateBody⟩, 0,
            some (.wrapf "error writing trailer: " e)⟩) ∧
    (∀ s1 e, w.state = stateBody →
      writeAll write ((order h.All).map headerLine) w.writer = some s1 →
      (write s1 (ascii "\r\n")).err = some e →
      w.WriteTrailers write order h
        = ⟨⟨(write s1 (ascii "\r\n")).next, stateBody⟩, 0,
            some (.wrapf "error writing trailer separator: " e)⟩) ∧
    (∀ e, w.state = stateHeaders ∨ w.state = stateBody → p ≠ [] →
      ((write w.writer (formatX p.length ++ ascii "\r\n")).err = some e →
        w.WriteChunkedBody write p
          = ⟨⟨(write w.writer (formatX p.length ++ ascii "\r\n")).next, w.state⟩, 0,
              some (.wrapf "error writing chunk size: " e)⟩) ∧
      ((write w.writer (formatX p.length ++ ascii "\r\n")).err = none →
        (write (write w.writer (formatX p.length ++ ascii "\r\n")).next p).err = some e →
        w.WriteChunkedBody write p
          = ⟨⟨(write (write w.writer (formatX p.length ++ ascii "\r\n")).next p).next,
                w.state⟩,
              (write (write w.writer (formatX p.length ++ ascii "\r\n")).next p).n,
              some (.wrapf "error writing chunk data: " e)⟩) ∧
      ((write w.writer (formatX p.length ++ ascii "\r\n")).err = none →
        (write (write w.writer (formatX p.length ++ ascii "\r\n")).next p).err = none →
        (write (write (write w.writer (formatX p.length ++ ascii "\r\n")).next p).next
          (ascii "\r\n")).err = some e →
        w.WriteChunkedBody write p
          = ⟨⟨(write (write (write w.writer (formatX p.length ++ ascii "\r\n")).next
                p).next (ascii "\r\n")).next, w.state⟩,
              (write (write w.writer (formatX p.length ++ ascii "\r\n")).next p).n,
              some (.wrapf "error writing chunk trailing CRLF: " e)⟩)) := by
  refine ⟨fun e hs he => ?_, fun e hs he => ?_, fun e hs he => ?_, fun hs x hx => ?_,
    fun hs x hx => ?_, fun hs x hx => ?_, WriteStatusLine_err_state write w statusCode,
    WriteHeaders_err_state write order w h, WriteBody_err_state write w p,
    WriteChunkedBody_err_state write w p, WriteChunkedBodyDone_err_state write w,
    WriteTrailers_err_state write order w h,
    fun pre kv post s1 e hs ho hpre he =>
      WriteHeaders_line_fails write order w h pre kv post s1 e hs ho hpre he,
    fun s1 e hs hall he => WriteHeaders_separator_fails write order w h s1 e hs hall he,
    fun pre kv post s1 e hs ho hpre he =>
      WriteTrailers_line_fails write order w h pre kv post s1 e hs ho hpre he,
    fun s1 e hs hall he => WriteTrailers_separator_fails write order w h s1 e hs hall he,
    fun e hs hp => WriteChunkedBody_write_fails write w p e hs hp⟩
  · rcases WriteStatusLine_cases write w statusCode with ⟨h1, _⟩ | ⟨_, e2, he2, r⟩ | ⟨_, he2, _⟩
    · exact absurd hs h1
    · rw [he] at he2
      obtain rfl : e = e2 := by injection he2
      rw [r, hs]
    · rw [he] at he2; simp at he2
  · rcases WriteBody_cases write w p with ⟨h1, _⟩ | ⟨_, e2, he2, r⟩ | ⟨_, he2, _⟩
    · exact absurd hs h1
    · rw [he] at he2
      obtain rfl : e = e2 := by injection he2
      rw [r, hs]
    · rw [he] at he2; simp at he2
  · rcases WriteChunkedBodyDone_cases write w with ⟨h1, _⟩ | ⟨_, e2, he2, r⟩ | ⟨_, he2, _⟩
    · rcases hs with hs | hs
      · exact absurd hs h1.1
      · exact absurd hs h1.2
    · rw [he] at he2
      obtain rfl : e = e2 := by injection he2
      rw [r]
    · rw [he] at he2; simp at he2
  · rcases WriteHeaders_cases write order w h with ⟨h1, _⟩ | ⟨_, _, e, r⟩ | ⟨_, _, r⟩
    · exact absurd hs h1
    · refine ⟨e, ?_⟩
      rcases r with r | r
      · rw [r] at hx; left; injection hx with hx; exact hx.symm
      · rw [r] at hx; right; injection hx with hx; exact hx.symm
    · rw [r] at hx; simp at hx
  · rcases WriteChunkedBody_cases write w p with
      ⟨h1, _⟩ | ⟨_, _, r⟩ | ⟨_, _, _, e, r⟩ | ⟨_, _, _, r⟩
    · rcases hs with hs | hs
      · exact absurd hs h1.1
      · exact absurd hs h1.2
    · rw [r] at hx; simp at hx
    · refine ⟨e, ?_⟩
      rcases r with r | r | r
      · rw [r] at hx; left; injection hx with hx; exact hx.symm
      · rw [r] at hx; right; left; injection hx with hx; exact hx.symm
      · rw [r] at hx; right; right; injection hx with hx; exact hx.symm
    · rw [r] at hx; simp at hx
  · rcases WriteTrailers_cases write order w h with ⟨h1, _⟩ | ⟨_, _, e, r⟩ | ⟨_, _, r⟩
    · exact absurd hs h1
    · refine ⟨e, ?_⟩
      rcases r with r | r
      · rw [r] at hx; left; injection hx with hx; exact hx.symm
      · rw [r] at hx; right; injection hx with hx; exact hx.symm
    · rw [r] at hx; simp at hx

/-- C23, amended, over a sink whose writes fail: `WriteStatusLine` on a new writer,
`WriteHeaders` with one header from state StatusLine, and `WriteChunkedBody` of two
bytes from state Headers return the wrapped failure and keep the state. -/
theorem Writer_failed_write_witness :
    (NewWriter 0).WriteStatusLine brokenWrite (ascii "200")
      = ⟨⟨(brokenWrite 0 (statusLine (ascii "200") ++ ascii "\r\n")).next, stateInit⟩, 0,
          some (.wrapf "error writing status line: " (.transport 1))⟩ ∧
    (⟨0, stateStatus⟩ : Writer Nat).WriteHeaders brokenWrite id
        ⟨[(ascii "content-length", ascii "2")]⟩
      = ⟨⟨(brokenWrite 0 (headerLine (ascii "content-length", ascii "2"))).next, stateStatus⟩,
          0, some (.wrapf "error writing header: " (.transport 1))⟩ ∧
    (⟨0, stateHeaders⟩ : Writer Nat).WriteChunkedBody brokenWrite (ascii "ab")
      = ⟨⟨(brokenWrite 0 (formatX (ascii "ab").length ++ ascii "\r\n")).next, stateHeaders⟩,
          0, some (.wrapf "error writing chunk size: " (.transport 1))⟩ :=
  ⟨(Writer_failed_write brokenWrite id (NewWriter 0) NewHeaders [] (ascii "200")).1
      (.transport 1) rfl rfl,
    (Writer_failed_write brokenWrite id ⟨0, stateStatus⟩
      ⟨[(ascii "content-length", ascii "2")]⟩ [] (ascii "200")).2.2.2.2.2.2.2.2.2.2.2.2.1
      [] (ascii "content-length", ascii "2") [] 0 (.transport 1) rfl rfl rfl rfl,
    ((Writer_failed_write brokenWrite id ⟨0, stateHeaders⟩ NewHeaders (ascii "ab")
      (ascii "200")).2.2.2.2.2.2.2.2.2.2.2.2.2.2.2.2 (.transport 1) (Or.inl rfl)
      (by decide)).1 rfl⟩

/-- C24: `Server.handle` parses first, then calls the handler, then closes the
connection.  When `FromReader` succeeds the handler is called once, with a new
writer on the connection, in state Init, and the parsed request, and the connection
is closed once, after the call; when `FromReader` fails the handler is not called and
the connection is closed once, after the error is logged.  The handler is called if
and only if `FromReader` succeeded. -/
theorem handle_order {σ κ : Type} (uni : Bytes → Bytes) (read : σ → Nat → ReadResult σ)
    (fuel : Nat) (rd : σ) (conn : κ) :
    (∀ req, FromReader uni read fuel rd = .ok req →
      Server.handle uni read fuel rd conn
        = [.parse, .handler (NewWriter conn) req, .close] ∧
      (NewWriter conn).state = stateInit ∧ (NewWriter conn).writer = conn ∧
      (Server.handle uni read fuel rd conn).countP ServerEvent.isHandler = 1 ∧
      (Server.handle uni read fuel rd conn).countP ServerEvent.isClose = 1) ∧
    (∀ e, FromReader uni read fuel rd = .fail e →
      Server.handle uni read fuel rd conn = [.parse, .log e, .close] ∧
      (Server.handle uni read fuel rd conn).countP ServerEvent.isHandler = 0 ∧
      (Server.handle uni read fuel rd conn).countP ServerEvent.isClose = 1) ∧
    ((∃ ev ∈ Server.handle uni read fuel rd conn, ev.isHandler = true) ↔
      ∃ req, FromReader uni read fuel rd = .ok req) := by
  refine ⟨fun req h => ?_, fun e h => ?_, ?_⟩
  · unfold Server.handle
    rw [h]
    exact ⟨rfl, rfl, rfl, rfl, rfl⟩
  · unfold Server.handle
    rw [h]
    exact ⟨rfl, rfl, rfl⟩
  · unfold Server.handle
    cases h : FromReader uni read fuel rd with
    | ok r =>
      simp only []
      exact ⟨fun _ => ⟨r, rfl⟩,
        fun _ => ⟨.handler (NewWriter conn) r, by simp, rfl⟩⟩
    | fail e =>
      simp only []
      constructor
      · rintro ⟨ev, hm, hh⟩
        simp only [List.mem_cons, List.mem_singleton, List.not_mem_nil, or_false] at hm
        rcases hm with rfl | rfl | rfl <;> simp [ServerEvent.isHandler] at hh
      · rintro ⟨r, hr⟩; simp at hr
    | panic =>
      simp only []
      constructor
      · rintro ⟨ev, hm, hh⟩
        simp only [List.mem_cons, List.mem_singleton, List.not_mem_nil, or_false] at hm
        rcases hm with rfl | rfl <;> simp [ServerEvent.isHandler] at hh
      · rintro ⟨r, hr⟩; simp at hr
    | outOfFuel =>
      simp only []
      constructor
      · rintro ⟨ev, hm, hh⟩
        simp only [List.mem_singleton] at hm
        subst hm
        simp [ServerEvent.isHandler] at hh
      · rintro ⟨r, hr⟩; simp at hr

/-- C24 on a connection that delivers `GET / HTTP/1.1` and a blank line in one
read. -/
theorem handle_order_witness :
    Server.handle id readChunks 3 [ascii "GET / HTTP/1.1\r\n\r\n"] ()
        = [.parse, .handler (NewWriter ())
            ⟨⟨ascii "1.1", ascii "/", ascii "GET"⟩, NewHeaders, [], StateDone⟩, .close] ∧
      (NewWriter ()).state = stateInit ∧ (NewWriter ()).writer = () ∧
      (Server.handle id readChunks 3 [ascii "GET / HTTP/1.1\r\n\r\n"] ()).countP
        ServerEvent.isHandler = 1 ∧
      (Server.handle id readChunks 3 [ascii "GET / HTTP/1.1\r\n\r\n"] ()).countP
        ServerEvent.isClose = 1 :=
  (handle_order id readChunks 3 [ascii "GET / HTTP/1.1\r\n\r\n"] ()).1
    ⟨⟨ascii "1.1", ascii "/", ascii "GET"⟩, NewHeaders, [], StateDone⟩ (by decide)

/-- C25 (what the code does): for every number `n` from 0 to 9223372036854775807,
`readInt64` on `:`, the decimal representation of `n` and CRLF returns `n`, the length
of the input and no error, also with a `+` before the digits; with a `-` before the
digits it returns `-n`.  So every 64-bit integer but the least one is read back.  On
`:-9223372036854775808` and CRLF, the least 64-bit integer, it returns the integer
overflow error. -/
theorem readInt64_decimal (n : Nat) (hn : (n : Int) ≤ MaxInt64) :
    readInt64 (58 :: (decimal n ++ [13, 10]))
      = ⟨(n : Int), (58 :: (decimal n ++ [13, 10])).length, none⟩ ∧
    readInt64 (58 :: 43 :: (decimal n ++ [13, 10]))
      = ⟨(n : Int), (58 :: 43 :: (decimal n ++ [13, 10])).length, none⟩ ∧
    readInt64 (58 :: 45 :: (decimal n ++ [13, 10]))
      = ⟨-(n : Int), (58 :: 45 :: (decimal n ++ [13, 10])).length, none⟩ ∧
    readInt64 (ascii ":-9223372036854775808\r\n") = ⟨0, 0, some .integerOverflow⟩ := by
  have h1 := readInt64_signed [58] 1 n (Or.inl ⟨rfl, rfl⟩) hn
  have h2 := readInt64_signed [58, 43] 1 n (Or.inr (Or.inl ⟨rfl, rfl⟩)) hn
  have h3 := readInt64_signed [58, 45] (-1) n (Or.inr (Or.inr ⟨rfl, rfl⟩)) hn
  refine ⟨?_, ?_, ?_, by decide⟩
  · rw [show 58 :: (decimal n ++ [13, 10]) = [58] ++ (decimal n ++ [13, 10]) from rfl, h1]
    simp only [List.length_append, List.length_cons, List.length_nil, mul_one]
    congr 1
  · rw [show 58 :: 43 :: (decimal n ++ [13, 10]) = [58, 43] ++ (decimal n ++ [13, 10])
      from rfl, h2]
    simp only [List.length_append, List.length_cons, List.length_nil, mul_one]
    congr 1
  · rw [show 58 :: 45 :: (decimal n ++ [13, 10]) = [58, 45] ++ (decimal n ++ [13, 10])
      from rfl, h3]
    simp only [List.length_append, List.length_cons, List.length_nil, mul_neg, mul_one]
    congr 1

/-- C25 at the number 456: `:456`, `:+456` and `:-456`. -/
theorem readInt64_decimal_witness :
    readInt64 (58 :: (decimal 456 ++ [13, 10]))
      = ⟨((456 : Nat) : Int), (58 :: (decimal 456 ++ [13, 10])).length, none⟩ ∧
    readInt64 (58 :: 43 :: (decimal 456 ++ [13, 10]))
      = ⟨((456 : Nat) : Int), (58 :: 43 :: (decimal 456 ++ [13, 10])).length, none⟩ ∧
    readInt64 (58 :: 45 :: (decimal 456 ++ [13, 10]))
      = ⟨-((456 : Nat) : Int), (58 :: 45 :: (decimal 456 ++ [13, 10])).length, none⟩ ∧
    readInt64 (ascii ":-9223372036854775808\r\n") = ⟨0, 0, some .integerOverflow⟩ :=
  readInt64_decimal 456 (by decide)

/-- C26: when `Headers.Parse` meets a malformed line, or a line whose name is not a
token, after any number of well-formed lines, it returns an error with 0 bytes
consumed and `headersComplete = false`, and the table it leaves behind is not the
one before the call: it is that table after `Set` for each of the well-formed lines
before the bad one, in order. -/
theorem Parse_not_atomic (uni : Bytes → Bytes) (h : Headers) (fs : List (Bytes × Bytes))
    (bad rest : Bytes) (hgood : ∀ f ∈ fs, goodField f) (hne : bad ≠ [])
    (hcr : ¬ [13, 10] <:+: bad) (hbad : badLine bad) :
    ∃ e, Headers.Parse uni h (headerBlock fs ++ (bad ++ 13 :: 10 :: rest))
      = ⟨setAll uni h fs, 0, false, some e⟩ := by
  obtain ⟨fuel, e⟩ := Parse_block uni fs hgood h (bad ++ 13 :: 10 :: rest)
  obtain ⟨er, e2⟩ := parseLoop_bad uni fuel (setAll uni h fs) bad rest
    (headerBlock fs).length hne hcr hbad
  exact ⟨er, by rw [e, e2]⟩

/-- C26 on `Accept: x` followed by the bad line `Host : a`: the call fails and leaves
the entry `accept` in the table, which was empty. -/
theorem Parse_not_atomic_witness :
    (∃ e, Headers.Parse id NewHeaders
        (headerBlock [(ascii "Accept", ascii " x")] ++ (ascii "Host : a" ++ 13 :: 10 :: []))
      = ⟨setAll id NewHeaders [(ascii "Accept", ascii " x")], 0, false, some e⟩) ∧
    setAll id NewHeaders [(ascii "Accept", ascii " x")] = ⟨[(ascii "accept", ascii "x")]⟩ :=
  ⟨Parse_not_atomic id NewHeaders [(ascii "Accept", ascii " x")] (ascii "Host : a") [] (by
      intro f hf
      simp only [List.mem_singleton] at hf
      subst hf
      exact ⟨by decide, (Index_none_iff _).1 (by decide)⟩) (by decide)
      ((Index_none_iff _).1 (by decide))
      (Or.inr ⟨ascii "Host ", ascii " a", by decide, by decide, Or.inr (Or.inl (by decide))⟩),
    by decide⟩

/-- C27: in every state and for every input a parser step reports a count of at most
`len(data)`; in the driver loop the total stays within the total and the remainder it
started from, so that the driver on `data` returns a count of at most `len(data)`;
and the loop ends: with any fuel above `len(data)` it returns what the driver
returns, and when that is no error and the request is not done, the driver finds
nothing more to consume in what is left. -/
theorem parse_consumed_bounds (uni : Bytes → Bytes) (r : Request) (data : Bytes) :
    (r.parseSingle uni data).n ≤ data.length ∧
    (∀ (fuel total : Nat) (q : Request) (rest : Bytes),
      (Request.parseLoop uni fuel q rest total).n ≤ total + rest.length) ∧
    (r.parse uni data).n ≤ data.length ∧
    (∀ fuel, data.length < fuel → Request.parseLoop uni fuel r data 0 = r.parse uni data) ∧
    ((r.parse uni data).err = none → (r.parse uni data).req.state ≠ StateDone →
      Stable uni (r.parse uni data).req (data.drop (r.parse uni data).n)) := by
  refine ⟨Request.parseSingle_n_le uni r data,
    fun fuel total q rest => Request.parseLoop_n_le uni fuel q rest total, ?_,
    fun fuel hf => Request.driverLoop_fuel uni fuel r data 0 hf,
    fun he hs => Request.parse_leftover_stable uni r data he hs⟩
  have := Request.parseLoop_n_le uni (data.length + 1) r data 0
  unfold Request.parse
  omega

/-- C28: under the order Init, StatusLine, Headers, Body, Trailers of the states, no
operation of the response writer, on any sink and with any arguments, leaves the
writer in a state before the one it was called in; and in state Trailers every
operation returns its sequencing error and leaves the writer as it was, the sink
included: nothing is written. -/
theorem Writer_state_forward {σ : Type} (write : σ → Bytes → WriteResult σ)
    (order : List (Bytes × Bytes) → List (Bytes × Bytes)) (w : Writer σ) (h : Headers)
    (p statusCode : Bytes) :
    (w.state.rank ≤ (w.WriteStatusLine write statusCode).w.state.rank ∧
      w.state.rank ≤ (w.WriteHeaders write order h).w.state.rank ∧
      w.state.rank ≤ (w.WriteBody write p).w.state.rank ∧
      w.state.rank ≤ (w.WriteChunkedBody write p).w.state.rank ∧
      w.state.rank ≤ (w.WriteChunkedBodyDone write).w.state.rank ∧
      w.state.rank ≤ (w.WriteTrailers write order h).w.state.rank) ∧
    (w.state = stateTrailers →
      w.WriteStatusLine write statusCode
        = ⟨w, 0, some (.errorf "WriteStatusLine must be called first")⟩ ∧
      w.WriteHeaders write order h
        = ⟨w, 0, some (.errorf "WriteHeaders must be called after WriteStatusLine")⟩ ∧
      w.WriteBody write p
        = ⟨w, 0, some (.errorf "WriteBody must be called after WriteHeaders")⟩ ∧
      w.WriteChunkedBody write p
        = ⟨w, 0, some (.errorf "WriteChunkedBody must be called after WriteHeaders")⟩ ∧
      w.WriteChunkedBodyDone write
        = ⟨w, 0, some (.errorf
            "WriteChunkedBodyDone muse be called after WriteHeaders or WriteChunkedBody")⟩ ∧
      w.WriteTrailers write order h
        = ⟨w, 0, some (.errorf "WriteTrailers must be called after WriteChunkedBodyDone")⟩) ∧
    (∀ a b : writerState, a.rank = b.rank → a = b) := by
  refine ⟨⟨?_, ?_, ?_, ?_, ?_, ?_⟩, fun ht => ⟨?_, ?_, ?_, ?_, ?_, ?_⟩, ?_⟩
  · rcases WriteStatusLine_cases write w statusCode with ⟨_, e⟩ | ⟨_, _, _, e⟩ | ⟨hs, _, e⟩
    · rw [e]
    · rw [e]
    · rw [e, hs]; simp [writerState.rank]
  · rcases WriteHeaders_cases write order w h with ⟨_, e⟩ | ⟨_, e, _⟩ | ⟨hs, e, _⟩
    · rw [e]
    · rw [e]
    · rw [e, hs]; simp [writerState.rank]
  · rcases WriteBody_cases write w p with ⟨_, e⟩ | ⟨_, _, _, e⟩ | ⟨hs, _, e⟩
    · rw [e]
    · rw [e]
    · rw [e, hs]; simp [writerState.rank]
  · rcases WriteChunkedBody_cases write w p with
      ⟨_, e⟩ | ⟨_, _, e⟩ | ⟨_, _, e, _⟩ | ⟨hs, _, e, _⟩
    · rw [e]
    · rw [e]
    · rw [e]
    · rw [e]
      rcases hs with hs | hs <;> simp [hs, writerState.rank]
  · rcases WriteChunkedBodyDone_cases write w with ⟨_, e⟩ | ⟨_, _, _, e⟩ | ⟨hs, _, e⟩
    · rw [e]
    · rw [e]
    · rw [e]
      rcases hs with hs | hs <;> simp [hs, writerState.rank]
  · rcases WriteTrailers_cases write order w h with ⟨_, e⟩ | ⟨_, e, _⟩ | ⟨hs, e, _⟩
    · rw [e]
    · rw [e]
    · rw [e, hs]; simp [writerState.rank]
  · rw [Writer.WriteStatusLine, if_pos (by rw [ht]; decide)]
  · rw [Writer.WriteHeaders, if_pos (by rw [ht]; decide)]
  · rw [Writer.WriteBody, if_pos (by rw [ht]; decide)]
  · rw [Writer.WriteChunkedBody, if_pos (by rw [ht]; decide)]
  · rw [Writer.WriteChunkedBodyDone, if_pos (by rw [ht]; decide)]
  · rw [Writer.WriteTrailers, if_pos (by rw [ht]; decide)]
  · intro a b
    cases a <;> cases b <;> simp [writerState.rank]

/-- C29: for every reader that obeys the read contract, the loop of `FromReader` on
its staging array of 1024 bytes does what the loop on the filled prefix does and
never indexes the array out of bounds (no panic); and in every pass that reaches the
driver, `bufLen` after the read is at most 1024, the count `readN` of the driver is
at most `bufLen`, and at the end of the pass the array still has 1024 bytes,
`bufLen` has gone down by `readN`, and the first `bufLen` bytes are the bytes read so
far without the bytes consumed so far, in their order. -/
theorem FromReader_buffer_in_bounds {σ : Type} (uni : Bytes → Bytes)
    (read : σ → Nat → ReadResult σ) (fuel : Nat) (rd : σ) (hread : ReadContract read) :
    (FromReaderStaged uni read fuel rd newRequest ⟨List.replicate 1024 0, 0⟩ [] 0).1
      = FromReader uni read fuel rd ∧
    FromReader uni read fuel rd ≠ .panic ∧
    ∀ p ∈ (FromReaderStaged uni read fuel rd newRequest ⟨List.replicate 1024 0, 0⟩ [] 0).2,
      p.bufLen ≤ 1024 ∧ p.readN ≤ p.bufLen ∧ p.after.buf.length = 1024 ∧
      p.after.bufLen = p.bufLen - p.readN ∧ p.consumed ≤ p.seen.length ∧
      p.after.filled = p.seen.drop p.consumed := by
  obtain ⟨h1, h2, h3⟩ := FromReaderStaged_spec uni read hread fuel rd newRequest
    ⟨List.replicate 1024 0, 0⟩ [] 0 (List.length_replicate _ _) (Nat.zero_le _) (Nat.zero_le _) rfl
  have e : (⟨List.replicate 1024 0, 0⟩ : Staging).filled = [] := rfl
  rw [e] at h1
  refine ⟨h1, ?_, h3⟩
  unfold FromReader
  rw [← h1]
  exact h2

set_option maxRecDepth 100000 in
/-- C29 on a request read in three pieces: three passes reach the driver, and after
the first one, which consumes the request line, the array starts with the four bytes
`Host` read and not yet consumed. -/
theorem FromReader_buffer_in_bounds_witness :
    ((FromReaderStaged id readChunks 5 [ascii "GET / HTTP/1.1\r\nHost", ascii ": a\r\n", ascii "\r\n"]
        newRequest ⟨List.replicate 1024 0, 0⟩ [] 0).1
      = FromReader id readChunks 5 [ascii "GET / HTTP/1.1\r\nHost", ascii ": a\r\n", ascii "\r\n"] ∧
    FromReader id readChunks 5 [ascii "GET / HTTP/1.1\r\nHost", ascii ": a\r\n", ascii "\r\n"]
      ≠ .panic ∧
    ∀ p ∈ (FromReaderStaged id readChunks 5
        [ascii "GET / HTTP/1.1\r\nHost", ascii ": a\r\n", ascii "\r\n"]
        newRequest ⟨List.replicate 1024 0, 0⟩ [] 0).2,
      p.bufLen ≤ 1024 ∧ p.readN ≤ p.bufLen ∧ p.after.buf.length = 1024 ∧
      p.after.bufLen = p.bufLen - p.readN ∧ p.consumed ≤ p.seen.length ∧
      p.after.filled = p.seen.drop p.consumed) ∧
    ((FromReaderStaged id readChunks 5 [ascii "GET / HTTP/1.1\r\nHost", ascii ": a\r\n", ascii "\r\n"]
        newRequest ⟨List.replicate 1024 0, 0⟩ [] 0).2.map
          (fun p => (p.bufLen, p.readN, p.after.filled)))
      = [(20, 16, ascii "Host"), (9, 9, []), (2, 2, [])] :=
  ⟨FromReader_buffer_in_bounds id readChunks 5
      [ascii "GET / HTTP/1.1\r\nHost", ascii ": a\r\n", ascii "\r\n"] readChunks_contract,
    by decide⟩

end Http
